import Mathlib

/-!
# Scapegoat tree: a shallow embedding of `ScapegoatTree.cpp`

The C++ class keeps a binary search tree of heap nodes, each with a key `m_value`, a stored
subtree size `m_size`, two child pointers and a parent pointer.

Modelling decisions.

* A node together with everything it owns is a value of the inductive type `Node`
  (`Node.null` is `nullptr`).
* A `Node *` that points into the tree is a `NodePtr`: the pointee (with its subtree) and its
  `m_parent` chain, nearest parent first.  Every place of the source that writes an `m_parent`
  field writes the real parent, so following `m_parent` is reading the chain.
* Keys are `Int` (the source compares keys and never does arithmetic on them).
* The `int` indices of `buildRecursive` are `Int`, with the truncating division of C++; the
  model does not represent a rebuild in which the sum `l + r` leaves the range of `int`, which
  takes more than `2 ^ 30` keys.  The recursion of
  `buildRecursive` is bounded by the number of elements of the range, and
  `buildRecursive_unfold` shows that the bound never cuts the recursion of the source short.
* `m_size` is a `Nat`.  The two places of the source that subtract from a `std::size_t`
  (`m_size += delta` with `delta = -1` and `--m_size`) wrap below zero as `std::size_t` does.
* `double` is the type `Double` below: a rational, an infinity or NaN.  Comparisons of doubles
  are exact.  The one rounded floating-point operation of the source is the product in
  `child->size() > node->size() * m_alpha`.  Every definition that needs it takes the whole
  comparison as a parameter `gt`, with `gt c n alpha` standing for the value the machine
  computes for `c > n * alpha`; `gtMachine` is that comparison in IEEE 754 double arithmetic
  (both sizes converted to `double`, the product rounded to nearest, ties to even).  The
  statements about membership, order and sizes hold for every `gt`; the statements about
  weight balance assume of `gt` the two properties collected in `GtValid`, which
  `gtMachine_valid` proves of `gtMachine` for every `alpha` that a constructor accepts.
* Freeing memory is not modelled: a deleted node is simply no longer part of the tree.
-/

/-! ## Doubles -/

/-- Values of the C++ type `double`: the finite ones are rationals. -/
inductive Double where
  | finite (q : ℚ) : Double
  | posInf : Double
  | negInf : Double
  | nan : Double

namespace Double

/-- Comparison `a < b` of two doubles; it is false as soon as one side is NaN. -/
def lt : Double → Double → Bool
  | finite a, finite b => decide (a < b)
  | finite _, posInf => true
  | negInf, finite _ => true
  | negInf, posInf => true
  | _, _ => false

/-- Comparison `a > b` of two doubles. -/
def gt (a b : Double) : Bool := lt b a

/-- The literal `0.5`, which a double holds exactly. -/
def half : Double := finite (1 / 2)

/-- The literal `1.0`. -/
def one : Double := finite 1

/-- The literal `0.8` of the header: the double nearest to four fifths. -/
def default_alpha : Double := finite (3602879701896397 / 4503599627370496)

/-- The double nearest to `0.3`. -/
def lit_0_3 : Double := finite (5404319552844595 / 18014398509481984)

/-- The literal `1.5`, which a double holds exactly. -/
def lit_1_5 : Double := finite (3 / 2)

end Double

/-! ## Nodes -/

/-- A node with the subtree it owns; `null` is `nullptr`. -/
inductive Node where
  | null : Node
  | mk (m_value : Int) (m_size : Nat) (m_left m_right : Node) : Node
deriving DecidableEq

/-- One link of an `m_parent` chain: the parent's own fields and its other child. -/
inductive Frame where
  /-- The node below is the parent's `m_left`. -/
  | left (m_value : Int) (m_size : Nat) (m_right : Node) : Frame
  /-- The node below is the parent's `m_right`. -/
  | right (m_value : Int) (m_size : Nat) (m_left : Node) : Frame

/-- The side of its parent a node hangs from. -/
inductive Dir where
  | left : Dir
  | right : Dir
deriving DecidableEq

/-- A `Node *` into the tree: the pointee and its `m_parent` chain, nearest parent first. -/
structure NodePtr where
  node : Node
  parents : List Frame

namespace Node

/-- Test `node == nullptr`. -/
def isNull : Node → Bool
  | null => true
  | mk _ _ _ _ => false

/-- Source `Node::size()`: the stored `m_size` (the source never calls it on `nullptr`). -/
def size : Node → Nat
  | null => 0
  | mk _ s _ _ => s

/-- Source `Node::empty()`. -/
def empty (n : Node) : Bool := n.size == 0

/-- The constructor `Node(int value)`: a leaf of size 1. -/
def new (value : Int) : Node := mk value 1 null null

/-- Source `Node::recursiveTraversal(node, vec)`: in-order, skipping a node of size 0 with all below it. -/
def recursiveTraversal : Node → List Int → List Int
  | null, vec => vec
  | mk v s l r, vec =>
    if s = 0 then vec
    else recursiveTraversal r (recursiveTraversal l vec ++ [v])

/-- Source `Node::values()`. -/
def values (n : Node) : List Int := recursiveTraversal n []

/-- Statement `m_size += delta` on a `std::size_t` with an `int` delta: wraps modulo `2 ^ 64` below zero. -/
def addDelta (s : Nat) (delta : Int) : Nat :=
  if 0 ≤ (s : Int) + delta then ((s : Int) + delta).toNat
  else ((s : Int) + delta + 2 ^ 64).toNat

/-- Statement `--m_size` on a `std::size_t`. -/
def decrSize (s : Nat) : Nat := if s = 0 then 2 ^ 64 - 1 else s - 1

end Node

namespace Frame

/-- The parent node of a frame, with `child` in the slot the chain came through. -/
def fill : Frame → Node → Node
  | left v s r, child => Node.mk v s child r
  | right v s l, child => Node.mk v s l child

/-- The slot of the parent the chain came through. -/
def dir : Frame → Dir
  | left _ _ _ => Dir.left
  | right _ _ _ => Dir.right

end Frame

namespace NodePtr

/-- The whole tree a pointer points into: walk `m_parent` up to the root. -/
def root (p : NodePtr) : Node := p.parents.foldl (fun child f => f.fill child) p.node

end NodePtr

/-! ## The tree -/

/-- The exceptions the source throws. -/
inductive Exception where
  | invalid_argument : Exception
deriving DecidableEq

/-- The object `ScapegoatTree`: its root and its `m_alpha`. -/
structure ScapegoatTree where
  m_root : Node
  m_alpha : Double

namespace ScapegoatTree

open Node

/-- Source `checkAlpha`: throws `std::invalid_argument` when `alpha < 0.5 || alpha > 1.0`. -/
def checkAlpha (alpha : Double) : Except Exception Unit :=
  if Double.lt alpha Double.half || Double.gt alpha Double.one then
    Except.error Exception.invalid_argument
  else Except.ok ()

/-- The constructor `ScapegoatTree(double alpha)`. -/
def construct (alpha : Double) : Except Exception ScapegoatTree :=
  match checkAlpha alpha with
  | Except.error e => Except.error e
  | Except.ok _ => Except.ok { m_root := null, m_alpha := alpha }

/-- The defaulted constructor `ScapegoatTree()`: the member initialisers of the header. -/
def constructDefault : ScapegoatTree := { m_root := null, m_alpha := Double.default_alpha }

/-- Source `findElementOrAncestor(node, value)`; `ps` is the `m_parent` chain of `node`. -/
def findElementOrAncestor : Node → Int → List Frame → NodePtr
  | null, _, ps => ⟨null, ps⟩
  | Node.mk v s l r, value, ps =>
    if v = value then ⟨Node.mk v s l r, ps⟩
    else if v < value then
      if r.isNull then ⟨Node.mk v s l r, ps⟩
      else findElementOrAncestor r value (Frame.right v s l :: ps)
    else
      if l.isNull then ⟨Node.mk v s l r, ps⟩
      else findElementOrAncestor l value (Frame.left v s r :: ps)

/-- Source `ScapegoatTree::size()`. -/
def size (t : ScapegoatTree) : Nat :=
  if t.m_root.isNull then 0 else t.m_root.size

/-- Source `ScapegoatTree::empty()`. -/
def empty (t : ScapegoatTree) : Bool := t.size == 0

/-- Source `ScapegoatTree::values()`. -/
def values (t : ScapegoatTree) : List Int :=
  if t.m_root.isNull then [] else t.m_root.values

/-- Source `ScapegoatTree::contains(value)`. The pointer that comes back is never `nullptr` here. -/
def contains (t : ScapegoatTree) (value : Int) : Bool :=
  if t.empty then false
  else
    match (findElementOrAncestor t.m_root value []).node with
    | null => false
    | Node.mk v _ _ _ => v == value

/-- Source `buildRecursive(elements, l, r)` with the recursion depth bounded by `fuel`. -/
def buildRecursiveFuel (elements : List Int) : Nat → Int → Int → Node
  | 0, _, _ => null
  | fuel + 1, l, r =>
    if l > r then null
    else
      let mid := Int.tdiv (l + r) 2
      let left := buildRecursiveFuel elements fuel l (mid - 1)
      let s := if left.isNull then 1 else 1 + left.size
      let right := buildRecursiveFuel elements fuel (mid + 1) r
      let s := if right.isNull then s else s + right.size
      Node.mk (elements.getD mid.toNat 0) s left right

/-- Source `buildRecursive(elements, l, r)`: the range has `r + 1 - l` elements, and the recursion is
never deeper than that. -/
def buildRecursive (elements : List Int) (l r : Int) : Node :=
  buildRecursiveFuel elements (r + 1 - l).toNat l r

/-- Source `deleteIntermediate(target, tree)`: `target` takes the key and the children of `tree` and
keeps its own `m_size`. The source dereferences both pointers. -/
def deleteIntermediate : Node → Node → Node
  | Node.mk _ s _ _, Node.mk v _ l r => Node.mk v s l r
  | target, _ => target

/-- Source `deleteLeftDescendant(node)`. -/
def deleteLeftDescendant : Node → Node
  | null => null
  | Node.mk v s _ r => Node.mk v s null r

/-- Source `deleteRightDescendant(node)`. -/
def deleteRightDescendant : Node → Node
  | null => null
  | Node.mk v s l _ => Node.mk v s l null

/-- Source `buildBalanced(node)`. -/
def buildBalanced (node : Node) : Node :=
  let elements := node.values
  let temp := buildRecursive elements 0 ((elements.length : Int) - 1)
  deleteIntermediate (deleteRightDescendant (deleteLeftDescendant node)) temp

/-- Source `unbalancedDescendants(node)`; `gt c n alpha` is the machine value of `c > n * alpha`. -/
def unbalancedDescendants (gt : Nat → Nat → Double → Bool) (alpha : Double) : Node → Bool
  | null => false
  | Node.mk _ s l r =>
    (!l.isNull && gt l.size s alpha) || (!r.isNull && gt r.size s alpha)

/-- The size bookkeeping of one round of the `while` loop of `updateSize`: the size is
recomputed from the children and a child of size 0 is deleted. -/
def recomputeSize : Node → Node
  | null => null
  | Node.mk v _ l r =>
    let s := 1
    let s := if l.isNull then s else s + l.size
    let l := if !l.isNull && l.empty then null else l
    let s := if r.isNull then s else s + r.size
    let r := if !r.isNull && r.empty then null else r
    Node.mk v s l r

/-- The `while` loop of `updateSize`. `cur` is the node the previous round left and `ps` are
its parents still to visit; `unbalanced` points to a node below `cur`, as the path to it. -/
def updateSizeLoop (gt : Nat → Nat → Double → Bool) (alpha : Double) :
    Node → List Frame → Option (List Dir) → Node × Option (List Dir)
  | cur, [], unbalanced => (cur, unbalanced)
  | cur, f :: ps, unbalanced =>
    let node := recomputeSize (f.fill cur)
    let unbalanced :=
      if unbalancedDescendants gt alpha node then some []
      else unbalanced.map (fun path => f.dir :: path)
    updateSizeLoop gt alpha node ps unbalanced

/-- Apply `f` to the node reached from `n` along `path`. -/
def modifyAt (f : Node → Node) : List Dir → Node → Node
  | [], n => f n
  | _ :: _, null => null
  | Dir.left :: path, Node.mk v s l r => Node.mk v s (modifyAt f path l) r
  | Dir.right :: path, Node.mk v s l r => Node.mk v s l (modifyAt f path r)

/-- Statement `node->m_size += delta`. -/
def bumpSize (delta : Int) : Node → Node
  | null => null
  | Node.mk v s l r => Node.mk v (addDelta s delta) l r

/-- Source `updateSize(node, delta)`; the result is the tree below `m_root` afterwards. -/
def updateSize (gt : Nat → Nat → Double → Bool) (alpha : Double) (p : NodePtr) (delta : Int) :
    Node :=
  let res := updateSizeLoop gt alpha (bumpSize delta p.node) p.parents none
  match res.2 with
  | none => res.1
  | some path => modifyAt buildBalanced path res.1

/-- Source `createLeftDescendant(node, value)`. -/
def createLeftDescendant : Node → Int → Node
  | null, _ => null
  | Node.mk v s _ r, value => Node.mk v s (Node.new value) r

/-- Source `createRightDescendant(node, value)`. -/
def createRightDescendant : Node → Int → Node
  | null, _ => null
  | Node.mk v s l _, value => Node.mk v s l (Node.new value)

/-- Source `ScapegoatTree::insert(value)`: the returned flag and the tree afterwards. -/
def insert (gt : Nat → Nat → Double → Bool) (t : ScapegoatTree) (value : Int) :
    Bool × ScapegoatTree :=
  if t.empty then (true, { t with m_root := Node.new value })
  else
    let temp := findElementOrAncestor t.m_root value []
    match temp.node with
    | null => (false, t)
    | Node.mk v s l r =>
      if v = value then (false, t)
      else
        let node :=
          if v < value then createRightDescendant (Node.mk v s l r) value
          else createLeftDescendant (Node.mk v s l r) value
        (true, { t with m_root := updateSize gt t.m_alpha ⟨node, temp.parents⟩ 1 })

/-- The successor search of `removeImpl` on the subtree `node->m_right`: every node left
through its `m_left` has `--m_size`; the leftmost node is unlinked, its slot taking its
`m_right` (`replaceWithRightNode`) or becoming `nullptr` (`deleteRightDescendant` of the
target, `deleteLeftDescendant` of its parent). Returns the leftmost key and the subtree. -/
def unlinkLeftmost : Node → Int × Node
  | null => (0, null)
  | Node.mk v s l r =>
    if l.isNull then
      if !r.isNull then (v, r) else (v, null)
    else
      let res := unlinkLeftmost l
      (res.1, Node.mk v (decrSize s) res.2 r)

/-- Source `removeImpl(node)`, acting on the subtree of `node`. -/
def removeImpl : Node → Node
  | null => null
  | Node.mk v s l r =>
    if s = 1 then Node.mk v s l r
    else if !l.isNull && !r.isNull then
      let res := unlinkLeftmost r
      Node.mk res.1 s l res.2
    else
      if !r.isNull then deleteIntermediate (Node.mk v s l r) r
      else deleteIntermediate (Node.mk v s l r) l

/-- Source `ScapegoatTree::remove(value)`: the returned flag and the tree afterwards. -/
def remove (gt : Nat → Nat → Double → Bool) (t : ScapegoatTree) (value : Int) :
    Bool × ScapegoatTree :=
  if t.empty then (false, t)
  else
    let temp := findElementOrAncestor t.m_root value []
    match temp.node with
    | null => (false, t)
    | Node.mk v s l r =>
      if v ≠ value then (false, t)
      else
        (true, { t with
          m_root := updateSize gt t.m_alpha ⟨removeImpl (Node.mk v s l r), temp.parents⟩ (-1) })

end ScapegoatTree

/-! ## Sequences of calls -/

/-- A mutating call of the public interface. -/
inductive Op where
  | insert (k : Int) : Op
  | remove (k : Int) : Op
deriving DecidableEq

namespace ScapegoatTree

/-- The tree after one call. -/
def step (gt : Nat → Nat → Double → Bool) (t : ScapegoatTree) : Op → ScapegoatTree
  | Op.insert k => (insert gt t k).2
  | Op.remove k => (remove gt t k).2

/-- The tree after a sequence of calls, first call first. -/
def run (gt : Nat → Nat → Double → Bool) (t : ScapegoatTree) (ops : List Op) : ScapegoatTree :=
  ops.foldl (step gt) t

/-- The value the machine computes for `c > n * 0.5`: halving is exact in binary. -/
def gtHalf (c n : Nat) (_alpha : Double) : Bool := decide (n < 2 * c)

/-- The value the machine computes for `c > n * 1.0`. -/
def gtOne (c n : Nat) (_alpha : Double) : Bool := decide (n < c)

/-- The tree `ScapegoatTree(0.5)` constructs. -/
def newHalf : ScapegoatTree := { m_root := Node.null, m_alpha := Double.half }

/-- The tree `ScapegoatTree(1.0)` constructs. -/
def newOne : ScapegoatTree := { m_root := Node.null, m_alpha := Double.one }

end ScapegoatTree

/-! ## Invariants -/

namespace Node

/-- Size consistency below a node: every stored size is one more than the sizes of the
children, an absent child counting zero. -/
def SizeOK : Node → Prop
  | null => True
  | mk _ s l r => s = 1 + l.size + r.size ∧ SizeOK l ∧ SizeOK r

/-- A node between `removeImpl` and the pruning pass: consistent below, or of stored size 0. -/
def Quasi (n : Node) : Prop := n.SizeOK ∨ n.size = 0

/-- What a parent keeps of a child after the pruning test of `updateSize`. -/
def prune (n : Node) : Node := if n.size = 0 then null else n

/-- The steady-state invariant of a subtree: consistent sizes and keys in strictly ascending
in-order position. -/
def Inv (n : Node) : Prop := n.SizeOK ∧ n.values.Pairwise (fun a b => a < b)

end Node

namespace ScapegoatTree

/-- The invariant of the tree object between two calls: the root is absent or has stored
size 0 (a tree that holds no key), or the root satisfies the node invariant. -/
def TreeInv (t : ScapegoatTree) : Prop := t.m_root.size = 0 ∨ t.m_root.Inv

/-- A tree as a constructor leaves it: `ScapegoatTree(alpha)` returned normally, or the
defaulted constructor ran. -/
def NewlyConstructed (t : ScapegoatTree) : Prop :=
  (∃ alpha, construct alpha = Except.ok t) ∨ t = constructDefault

/-- Trees that calls of `insert` and `remove` produce from a newly constructed tree. -/
def Reachable (gt : Nat → Nat → Double → Bool) (t : ScapegoatTree) : Prop :=
  ∃ t0 ops, NewlyConstructed t0 ∧ t = run gt t0 ops

/-- The sequence holds an `insert(k)` that no later `remove(k)` follows. -/
def InsertedNotRemoved (k : Int) (ops : List Op) : Prop :=
  ∃ before after, ops = before ++ Op.insert k :: after ∧ Op.remove k ∉ after

/-- The effect of one call on the set of keys, kept as an ascending list. -/
def modelStep (s : List Int) : Op → List Int
  | Op.insert k => if k ∈ s then s else List.orderedInsert (fun a b => a ≤ b) k s
  | Op.remove k => s.erase k

/-- The set of keys a sequence of calls leaves, starting from no key. -/
def modelKeys (ops : List Op) : List Int := ops.foldl modelStep []

/-- The keys to the left of the hole of a parent chain, in order. -/
def ctxL : List Frame → List Int
  | [] => []
  | Frame.left _ _ _ :: ps => ctxL ps
  | Frame.right v _ l :: ps => ctxL ps ++ (l.values ++ [v])

/-- The keys to the right of the hole of a parent chain, in order. -/
def ctxR : List Frame → List Int
  | [] => []
  | Frame.left v _ r :: ps => (v :: r.values) ++ ctxR ps
  | Frame.right _ _ _ :: ps => ctxR ps

/-- The other child of every parent of a chain has consistent sizes. -/
def FramesOK : List Frame → Prop
  | [] => True
  | Frame.left _ _ r :: ps => r.SizeOK ∧ FramesOK ps
  | Frame.right _ _ l :: ps => l.SizeOK ∧ FramesOK ps

end ScapegoatTree


/-! ## Notions used by the statements about shape and balance -/

namespace Node

/-- The plain in-order listing of the keys, whatever the stored sizes. -/
def keys : Node → List Int
  | null => []
  | mk v _ l r => keys l ++ v :: keys r

/-- Binary search tree: the in-order listing of the keys is strictly ascending. -/
def IsBST (n : Node) : Prop := n.keys.Pairwise (fun a b => a < b)

/-- The number of nodes on the longest way down. -/
def height : Node → Nat
  | null => 0
  | mk _ _ l r => 1 + max (height l) (height r)

/-- The number of nodes. -/
def count : Node → Nat
  | null => 0
  | mk _ _ l r => 1 + count l + count r

/-- At every node the stored sizes of the two children differ by at most 1. -/
def SizeBalanced : Node → Prop
  | null => True
  | mk _ _ l r => l.size ≤ r.size + 1 ∧ r.size ≤ l.size + 1 ∧ SizeBalanced l ∧ SizeBalanced r

/-- Some node has stored size 0. -/
def hasZeroSize : Node → Bool
  | null => false
  | mk _ s l r => s == 0 || hasZeroSize l || hasZeroSize r

/-- Every node with a stored size above 0 has the size `1 + size(left) + size(right)`. -/
def SizeConsistent : Node → Prop
  | null => True
  | mk _ s l r => (0 < s → s = 1 + l.size + r.size) ∧ SizeConsistent l ∧ SizeConsistent r

/-- The node reached from `n` along `path` (`null` when the path leaves the tree). -/
def childAt : List Dir → Node → Node
  | [], n => n
  | _ :: _, null => null
  | Dir.left :: path, mk _ _ l _ => childAt path l
  | Dir.right :: path, mk _ _ _ r => childAt path r

/-- The key and the stored size of the node at a position, if there is a node. -/
def labelAt (path : List Dir) (n : Node) : Option (Int × Nat) :=
  match childAt path n with
  | null => none
  | mk v s _ _ => some (v, s)

/-- The leftmost node below `n`: follow `m_left` as long as there is one. -/
def leftmost : Node → Node
  | null => null
  | mk v s l r => if l.isNull then mk v s l r else leftmost l

/-- The number of `m_left` links from `n` to its leftmost node. -/
def leftDepth : Node → Nat
  | null => 0
  | mk _ _ l _ => if l.isNull then 0 else 1 + leftDepth l

end Node

namespace ScapegoatTree

/-- Every node of the subtree passes the test of `unbalancedDescendants`. -/
def AllBalanced (gt : Nat → Nat → Double → Bool) (alpha : Double) : Node → Prop
  | Node.null => True
  | Node.mk v s l r =>
    unbalancedDescendants gt alpha (Node.mk v s l r) = false ∧
      AllBalanced gt alpha l ∧ AllBalanced gt alpha r

/-- Every node met from `n` along `path`, the node the path ends at excluded, passes the test
of `unbalancedDescendants`. -/
def BalancedDown (gt : Nat → Nat → Double → Bool) (alpha : Double) : List Dir → Node → Prop
  | [], _ => True
  | _ :: _, Node.null => True
  | Dir.left :: path, Node.mk v s l r =>
    unbalancedDescendants gt alpha (Node.mk v s l r) = false ∧ BalancedDown gt alpha path l
  | Dir.right :: path, Node.mk v s l r =>
    unbalancedDescendants gt alpha (Node.mk v s l r) = false ∧ BalancedDown gt alpha path r

/-- No node of the subtree has a child `c` with `size(c) > q * size(node)`, the product taken
in exact arithmetic. -/
def ExactBalanced (q : ℚ) : Node → Prop
  | Node.null => True
  | Node.mk _ s l r =>
    ¬ ((l.size : ℚ) > q * s) ∧ ¬ ((r.size : ℚ) > q * s) ∧ ExactBalanced q l ∧ ExactBalanced q r

/-- The shape of the root between two calls: a childless node of stored size 0 (what the
removal of the last key leaves), or a tree with consistent sizes (`nullptr` included). -/
def StrongInv (t : ScapegoatTree) : Prop :=
  (∃ v, t.m_root = Node.mk v 0 Node.null Node.null) ∨ t.m_root.SizeOK

/-- Every node passes the test of `unbalancedDescendants`, except possibly the nodes of the
subtree that `path` ends at. -/
def BalancedExcept (gt : Nat → Nat → Double → Bool) (alpha : Double) : List Dir → Node → Prop
  | [], _ => True
  | _ :: _, Node.null => True
  | Dir.left :: path, Node.mk v s l r =>
    unbalancedDescendants gt alpha (Node.mk v s l r) = false ∧
      BalancedExcept gt alpha path l ∧ AllBalanced gt alpha r
  | Dir.right :: path, Node.mk v s l r =>
    unbalancedDescendants gt alpha (Node.mk v s l r) = false ∧
      AllBalanced gt alpha l ∧ BalancedExcept gt alpha path r

/-- The way from the root down to a pointer: the slots of its `m_parent` chain, root first. -/
def dirsOf (ps : List Frame) : List Dir := (ps.map Frame.dir).reverse

/-- Properties of the machine comparison `c > n * alpha` that hold for every double
`alpha ≥ 0.5` (NaN included, for which the comparison is always false), because rounding a
product is monotone and halving is exact: a true outcome needs `c > n / 2`, and a true outcome
stays true for a smaller `n`. -/
structure GtValid (gt : Nat → Nat → Double → Bool) (alpha : Double) : Prop where
  half : ∀ c n, gt c n alpha = true → n < 2 * c
  anti : ∀ c n m, n ≤ m → gt c m alpha = true → gt c n alpha = true

/-- A call of the public interface, `contains` included. -/
inductive Call where
  | insert (k : Int) : Call
  | remove (k : Int) : Call
  | contains (k : Int) : Call
deriving DecidableEq

/-- One call: the value it returns and the tree afterwards. -/
def exec (gt : Nat → Nat → Double → Bool) (t : ScapegoatTree) : Call → Bool × ScapegoatTree
  | Call.insert k => insert gt t k
  | Call.remove k => remove gt t k
  | Call.contains k => (contains t k, t)

/-- What a caller observes along a sequence of calls: for each call its return value, and
`values()` and `size()` right after it. -/
def observe (gt : Nat → Nat → Double → Bool) (t : ScapegoatTree) :
    List Call → List (Bool × List Int × Nat)
  | [] => []
  | c :: cs =>
    ((exec gt t c).1, (exec gt t c).2.values, (exec gt t c).2.size) ::
      observe gt (exec gt t c).2 cs

/-- The outcome of one call on a set of keys kept as an ascending list: the value the call
returns and the keys afterwards. -/
def modelExec (s : List Int) : Call → Bool × List Int
  | Call.insert k => (decide (k ∉ s), if k ∈ s then s else List.orderedInsert (fun a b => a ≤ b) k s)
  | Call.remove k => (decide (k ∈ s), s.erase k)
  | Call.contains k => (decide (k ∈ s), s)

/-- What a caller observes along a sequence of calls on a set of keys. -/
def modelObserve (s : List Int) : List Call → List (Bool × List Int × Nat)
  | [] => []
  | c :: cs =>
    ((modelExec s c).1, (modelExec s c).2, (modelExec s c).2.length) ::
      modelObserve (modelExec s c).2 cs

/-- The plain binary-search-tree insertion: walk down, attach a leaf, sizes on the way up one
more; a key already stored changes nothing. -/
def bstInsert (k : Int) : Node → Node
  | Node.null => Node.new k
  | Node.mk v s l r =>
    if v = k then Node.mk v s l r
    else if v < k then Node.mk v (1 + l.size + (bstInsert k r).size) l (bstInsert k r)
    else Node.mk v (1 + (bstInsert k l).size + r.size) (bstInsert k l) r

end ScapegoatTree

/-! ## The comparison of `unbalancedDescendants` in IEEE 754 double arithmetic -/

namespace Double

end Double

namespace ScapegoatTree

end ScapegoatTree
/-! ## Traversal and sizes -/

namespace Node

theorem recursiveTraversal_eq (n : Node) (vec : List Int) :
    recursiveTraversal n vec = vec ++ n.values := by
  induction n generalizing vec with
  | null => simp [recursiveTraversal, values]
  | mk v s l r ihl ihr =>
    unfold values
    by_cases hs : s = 0
    · simp [recursiveTraversal, hs]
    · simp only [recursiveTraversal, hs, if_false]
      rw [ihr, ihl, ihr, ihl]
      simp [values]

theorem values_null : values null = [] := rfl

theorem values_mk (v : Int) (s : Nat) (l r : Node) :
    values (mk v s l r) = if s = 0 then [] else l.values ++ v :: r.values := by
  by_cases hs : s = 0
  · simp [values, recursiveTraversal, hs]
  · have h : values (mk v s l r) = recursiveTraversal r (recursiveTraversal l [] ++ [v]) := by
      simp [values, recursiveTraversal, hs]
    rw [h, recursiveTraversal_eq, recursiveTraversal_eq]
    simp [hs]

theorem values_of_size_zero (n : Node) (h : n.size = 0) : n.values = [] := by
  cases n with
  | null => rfl
  | mk v s l r =>
    simp only [size] at h
    simp [values_mk, h]

theorem SizeOK.size_pos {n : Node} (h : n.SizeOK) (hn : n ≠ null) : 0 < n.size := by
  cases n with
  | null => exact absurd rfl hn
  | mk v s l r =>
    simp only [SizeOK] at h
    simp only [size]
    omega

theorem SizeOK.eq_null {n : Node} (h : n.SizeOK) (hs : n.size = 0) : n = null := by
  by_contra hn
  have := h.size_pos hn
  omega

theorem SizeOK.values_node {v : Int} {s : Nat} {l r : Node} (h : (mk v s l r).SizeOK) :
    (mk v s l r).values = l.values ++ v :: r.values := by
  have hs : s ≠ 0 := by
    have := h.size_pos (by simp)
    simp only [size] at this
    omega
  simp [Node.values_mk, hs]

theorem SizeOK.node_size_eq {n : Node} (h : n.SizeOK) : n.size = n.values.length := by
  induction n with
  | null => rfl
  | mk v s l r ihl ihr =>
    rw [h.values_node]
    obtain ⟨h1, h2, h3⟩ := h
    simp only [size, List.length_append, List.length_cons]
    rw [h1, ihl h2, ihr h3]
    omega

theorem isNull_eq_false_iff (n : Node) : n.isNull = false ↔ n ≠ null := by
  cases n <;> simp [isNull]

end Node

/-! ## The balanced rebuild -/

namespace ScapegoatTree

open Node

theorem slice_split (e : List Int) (a m b : Nat) (ham : a ≤ m) (hmb : m < b)
    (hb : b ≤ e.length) :
    (e.take b).drop a = (e.take m).drop a ++ e.getD m 0 :: (e.take b).drop (m + 1) := by
  have hm : m < e.length := by omega
  have h1 : (e.take m).drop a = ((e.take b).drop a).take (m - a) := by
    rw [List.take_drop, List.take_take]
    congr 2
    omega
  have h2 : e.getD m 0 :: (e.take b).drop (m + 1) = ((e.take b).drop a).drop (m - a) := by
    rw [List.drop_drop]
    have : a + (m - a) = m := by omega
    rw [this]
    have hm2 : m < (e.take b).length := by simp; omega
    rw [List.drop_eq_getElem_cons hm2]
    congr 1
    simp [List.getD_eq_getElem?_getD, List.getElem?_eq_getElem hm, List.getElem_take]
  rw [h1, h2, List.take_append_drop]

theorem buildRecursiveFuel_spec (e : List Int) (fuel a b : Nat) (hab : a ≤ b)
    (hb : b ≤ e.length) (hf : b - a ≤ fuel) :
    (buildRecursiveFuel e fuel (a : Int) ((b : Int) - 1)).values = (e.take b).drop a ∧
    (buildRecursiveFuel e fuel (a : Int) ((b : Int) - 1)).SizeOK ∧
    ((buildRecursiveFuel e fuel (a : Int) ((b : Int) - 1)) = null ↔ a = b) := by
  induction fuel generalizing a b with
  | zero =>
    have : a = b := by omega
    subst this
    simp [buildRecursiveFuel, values_null, SizeOK]
  | succ fuel ih =>
    by_cases hlt : a = b
    · subst hlt
      have : (a : Int) > (a : Int) - 1 := by omega
      simp [buildRecursiveFuel, this, values_null, SizeOK]
    · have hab2 : a < b := by omega
      have hgt : ¬ ((a : Int) > (b : Int) - 1) := by omega
      have hmid : Int.tdiv ((a : Int) + ((b : Int) - 1)) 2 = (((a + b - 1) / 2 : Nat) : Int) := by
        rw [Int.tdiv_eq_ediv (by omega) (by omega)]
        omega
      have hm1 : a ≤ (a + b - 1) / 2 := by omega
      have hm2 : (a + b - 1) / 2 < b := by omega
      obtain ⟨hl1, hl2, hl3⟩ := ih a ((a + b - 1) / 2) hm1 (by omega) (by omega)
      obtain ⟨hr1, hr2, hr3⟩ := ih ((a + b - 1) / 2 + 1) b (by omega) hb (by omega)
      simp only [buildRecursiveFuel, hgt, if_false, hmid, Int.toNat_ofNat]
      have hcast : (((a + b - 1) / 2 : Nat) : Int) + 1 = (((a + b - 1) / 2 + 1 : Nat) : Int) := by
        push_cast; rfl
      rw [hcast]
      generalize hL : buildRecursiveFuel e fuel (a : Int) ((((a + b - 1) / 2 : Nat) : Int) - 1) = L
        at hl1 hl2 hl3 ⊢
      generalize hR : buildRecursiveFuel e fuel ((((a + b - 1) / 2 + 1 : Nat) : Int))
        ((b : Int) - 1) = R at hr1 hr2 hr3 ⊢
      have hsz : (if R.isNull = true then (if L.isNull = true then 1 else 1 + L.size)
          else (if L.isNull = true then 1 else 1 + L.size) + R.size) = 1 + L.size + R.size := by
        cases L <;> cases R <;> simp [Node.isNull, Node.size]
      rw [hsz]
      have hok : (Node.mk (e.getD ((a + b - 1) / 2) 0) (1 + L.size + R.size) L R).SizeOK :=
        ⟨rfl, hl2, hr2⟩
      refine ⟨?_, hok, by simp [hlt]⟩
      rw [hok.values_node, hl1, hr1]
      exact (slice_split e a ((a + b - 1) / 2) b hm1 hm2 hb).symm

theorem buildRecursive_spec (e : List Int) (a b : Nat) (hab : a ≤ b) (hb : b ≤ e.length) :
    (buildRecursive e (a : Int) ((b : Int) - 1)).values = (e.take b).drop a ∧
    (buildRecursive e (a : Int) ((b : Int) - 1)).SizeOK ∧
    ((buildRecursive e (a : Int) ((b : Int) - 1)) = null ↔ a = b) := by
  unfold buildRecursive
  exact buildRecursiveFuel_spec e _ a b hab hb (by omega)

theorem buildBalanced_eq (n : Node) :
    buildBalanced n = deleteIntermediate (deleteRightDescendant (deleteLeftDescendant n))
      (buildRecursive n.values 0 ((n.values.length : Int) - 1)) := rfl

theorem buildBalanced_null : buildBalanced null = null := by
  simp [buildBalanced_eq, values_null, buildRecursive, buildRecursiveFuel, deleteLeftDescendant,
    deleteRightDescendant, deleteIntermediate]

theorem buildRecursive_full (e : List Int) (hlen : 0 < e.length) :
    ∃ v l r, buildRecursive e 0 ((e.length : Int) - 1) = Node.mk v e.length l r ∧
      (Node.mk v e.length l r).SizeOK ∧ l.values ++ v :: r.values = e := by
  obtain ⟨h1, h2, h3⟩ := buildRecursive_spec e 0 e.length (Nat.zero_le _) (Nat.le_refl _)
  simp only [Nat.cast_zero] at h1 h2 h3
  have hne : buildRecursive e 0 ((e.length : Int) - 1) ≠ null := by
    intro h; have := h3.mp h; omega
  cases hT : buildRecursive e 0 ((e.length : Int) - 1) with
  | null => exact absurd hT hne
  | mk v2 s2 l2 r2 =>
    rw [hT] at h1 h2
    have hlen2 := h2.node_size_eq
    rw [h1] at hlen2
    simp only [Node.size, List.drop_zero, List.take_length] at hlen2
    subst hlen2
    refine ⟨v2, l2, r2, rfl, h2, ?_⟩
    rw [h2.values_node] at h1
    simpa using h1

theorem buildBalanced_values (n : Node) : (buildBalanced n).values = n.values := by
  cases n with
  | null => rw [buildBalanced_null]
  | mk v s l r =>
    by_cases hs : s = 0
    · have h0 : (Node.mk v s l r).values = [] := values_of_size_zero _ (by simp [Node.size, hs])
      rw [h0]
      apply values_of_size_zero
      rw [buildBalanced_eq, h0]
      simp [buildRecursive, buildRecursiveFuel, deleteLeftDescendant, deleteRightDescendant,
        deleteIntermediate, Node.size, hs]
    · have hlen : 0 < (Node.mk v s l r).values.length := by
        rw [values_mk]; simp [hs]
      obtain ⟨v2, l2, r2, hT, _, h1⟩ := buildRecursive_full _ hlen
      rw [buildBalanced_eq, hT]
      simp only [deleteLeftDescendant, deleteRightDescendant, deleteIntermediate]
      rw [values_mk v2, if_neg hs]
      exact h1

theorem buildBalanced_size (n : Node) : (buildBalanced n).size = n.size := by
  cases n with
  | null => rw [buildBalanced_null]
  | mk v s l r =>
    rw [buildBalanced_eq]
    cases buildRecursive (Node.mk v s l r).values 0 (((Node.mk v s l r).values.length : Int) - 1)
      <;> simp [deleteLeftDescendant, deleteRightDescendant, deleteIntermediate, Node.size]

theorem buildBalanced_sizeOK (n : Node) (h : n.SizeOK) : (buildBalanced n).SizeOK := by
  cases n with
  | null => rw [buildBalanced_null]; trivial
  | mk v s l r =>
    have hsz := h.node_size_eq
    have hpos := h.size_pos (by simp)
    simp only [Node.size] at hsz hpos
    obtain ⟨v2, l2, r2, hT, ⟨g1, g2, g3⟩, _⟩ := buildRecursive_full (Node.mk v s l r).values
      (by omega)
    rw [buildBalanced_eq, hT]
    simp only [deleteLeftDescendant, deleteRightDescendant, deleteIntermediate]
    exact ⟨by omega, g2, g3⟩

theorem modifyAt_values (f : Node → Node) (hf : ∀ n, (f n).values = n.values)
    (path : List Dir) (n : Node) : (modifyAt f path n).values = n.values := by
  induction path generalizing n with
  | nil => exact hf n
  | cons d path ih =>
    cases n with
    | null => cases d <;> rfl
    | mk v s l r =>
      cases d <;> simp [modifyAt, values_mk, ih]

theorem modifyAt_size (f : Node → Node) (hf : ∀ n, (f n).size = n.size)
    (path : List Dir) (n : Node) : (modifyAt f path n).size = n.size := by
  cases path with
  | nil => exact hf n
  | cons d path =>
    cases n with
    | null => cases d <;> rfl
    | mk v s l r => cases d <;> simp [modifyAt, Node.size]

theorem modifyAt_sizeOK (f : Node → Node) (hf : ∀ n, (f n).size = n.size)
    (hg : ∀ n, n.SizeOK → (f n).SizeOK) (path : List Dir) (n : Node) (h : n.SizeOK) :
    (modifyAt f path n).SizeOK := by
  induction path generalizing n with
  | nil => exact hg n h
  | cons d path ih =>
    cases n with
    | null => cases d <;> trivial
    | mk v s l r =>
      obtain ⟨h1, h2, h3⟩ := h
      cases d
      · exact ⟨by rw [modifyAt_size f hf]; exact h1, ih l h2, h3⟩
      · exact ⟨by rw [modifyAt_size f hf]; exact h1, h2, ih r h3⟩

end ScapegoatTree

/-! ## The recursion of `buildRecursive` -/

namespace ScapegoatTree

open Node

theorem tdiv_two (a : Int) : Int.tdiv a 2 = if 0 ≤ a then a / 2 else -((-a) / 2) := by
  split
  · next h => exact Int.tdiv_eq_ediv h (by omega)
  · next h =>
    have : a = -(-a) := by omega
    rw [this, Int.neg_tdiv, Int.tdiv_eq_ediv (by omega) (by omega)]
    simp

theorem tdiv_two_bounds (l r : Int) (h : l ≤ r) :
    l ≤ Int.tdiv (l + r) 2 ∧ Int.tdiv (l + r) 2 ≤ r := by
  rw [tdiv_two]
  split <;> constructor <;> omega

theorem buildRecursiveFuel_stable (e : List Int) (fuel fuel2 : Nat) (l r : Int)
    (h1 : (r + 1 - l).toNat ≤ fuel) (h2 : (r + 1 - l).toNat ≤ fuel2) :
    buildRecursiveFuel e fuel l r = buildRecursiveFuel e fuel2 l r := by
  induction fuel generalizing fuel2 l r with
  | zero =>
    have hgt : l > r := by omega
    cases fuel2 with
    | zero => rfl
    | succ n => simp [buildRecursiveFuel, hgt]
  | succ n ih =>
    by_cases hgt : l > r
    · cases fuel2 with
      | zero => simp [buildRecursiveFuel, hgt]
      | succ m => simp [buildRecursiveFuel, hgt]
    · cases fuel2 with
      | zero => omega
      | succ m =>
        obtain ⟨b1, b2⟩ := tdiv_two_bounds l r (by omega)
        simp only [buildRecursiveFuel, hgt, if_false]
        rw [ih m l (Int.tdiv (l + r) 2 - 1) (by omega) (by omega),
          ih m (Int.tdiv (l + r) 2 + 1) r (by omega) (by omega)]

/-- The model `buildRecursive` obeys the recursion of the source function, for all indices:
the bound on the depth never cuts it short. -/
theorem buildRecursive_unfold (e : List Int) (l r : Int) :
    buildRecursive e l r =
      if l > r then null
      else
        Node.mk (e.getD (Int.tdiv (l + r) 2).toNat 0)
          (1 + (buildRecursive e l (Int.tdiv (l + r) 2 - 1)).size +
            (buildRecursive e (Int.tdiv (l + r) 2 + 1) r).size)
          (buildRecursive e l (Int.tdiv (l + r) 2 - 1))
          (buildRecursive e (Int.tdiv (l + r) 2 + 1) r) := by
  by_cases hgt : l > r
  · rw [if_pos hgt]
    unfold buildRecursive
    have : (r + 1 - l).toNat = 0 := by omega
    rw [this]
    rfl
  · rw [if_neg hgt]
    obtain ⟨b1, b2⟩ := tdiv_two_bounds l r (by omega)
    unfold buildRecursive
    obtain ⟨n, hn⟩ : ∃ n, (r + 1 - l).toNat = n + 1 := ⟨(r + 1 - l).toNat - 1, by omega⟩
    rw [hn]
    simp only [buildRecursiveFuel, hgt, if_false]
    rw [buildRecursiveFuel_stable e n _ l (Int.tdiv (l + r) 2 - 1) (by omega) (le_refl _),
      buildRecursiveFuel_stable e n _ (Int.tdiv (l + r) 2 + 1) r (by omega) (le_refl _)]
    generalize buildRecursiveFuel e (Int.tdiv (l + r) 2 - 1 + 1 - l).toNat l
      (Int.tdiv (l + r) 2 - 1) = L
    generalize buildRecursiveFuel e (r + 1 - (Int.tdiv (l + r) 2 + 1)).toNat
      (Int.tdiv (l + r) 2 + 1) r = R
    cases L <;> cases R <;> simp [Node.isNull, Node.size]

end ScapegoatTree

/-! ## The size-update pass -/

namespace ScapegoatTree

open Node

theorem prune_values (n : Node) : (prune n).values = n.values := by
  unfold prune
  split
  · next h => rw [values_of_size_zero n h]; rfl
  · rfl

theorem prune_size (n : Node) : (prune n).size = n.size := by
  unfold prune
  split
  · next h => rw [h]; rfl
  · rfl

theorem prune_sizeOK (n : Node) (h : n.Quasi) : (prune n).SizeOK := by
  unfold prune
  split
  · trivial
  · next hs => exact h.resolve_right hs

theorem recomputeSize_mk (v : Int) (s : Nat) (l r : Node) :
    recomputeSize (Node.mk v s l r) = Node.mk v (1 + l.size + r.size) (prune l) (prune r) := by
  cases l <;> cases r <;>
    simp [recomputeSize, prune, Node.isNull, Node.size, Node.empty]

theorem recomputeSize_sizeOK (v : Int) (s : Nat) (l r : Node) (hl : l.Quasi) (hr : r.Quasi) :
    (recomputeSize (Node.mk v s l r)).SizeOK := by
  rw [recomputeSize_mk]
  exact ⟨by rw [prune_size, prune_size], prune_sizeOK l hl, prune_sizeOK r hr⟩

theorem recomputeSize_values (v : Int) (s : Nat) (l r : Node) :
    (recomputeSize (Node.mk v s l r)).values = l.values ++ v :: r.values := by
  rw [recomputeSize_mk, values_mk, prune_values, prune_values]
  simp

theorem updateSizeLoop_spec (gt : Nat → Nat → Double → Bool) (alpha : Double)
    (ps : List Frame) (cur : Node) (unb : Option (List Dir))
    (hps : FramesOK ps) (hcur : cur.Quasi) :
    (updateSizeLoop gt alpha cur ps unb).1.values = ctxL ps ++ cur.values ++ ctxR ps ∧
    (updateSizeLoop gt alpha cur ps unb).1.Quasi ∧
    (cur.SizeOK ∨ ps ≠ [] → (updateSizeLoop gt alpha cur ps unb).1.SizeOK) := by
  induction ps generalizing cur unb with
  | nil =>
    simp only [updateSizeLoop, ctxL, ctxR, List.nil_append, List.append_nil]
    exact ⟨trivial, hcur, fun h => h.resolve_right (by simp)⟩
  | cons f ps ih =>
    cases f with
    | left v s r =>
      obtain ⟨hr, hps2⟩ := hps
      have hok := recomputeSize_sizeOK v s cur r hcur (Or.inl hr)
      have hv := recomputeSize_values v s cur r
      simp only [updateSizeLoop, Frame.fill]
      obtain ⟨h1, h2, h3⟩ := ih (recomputeSize (Node.mk v s cur r))
        (if unbalancedDescendants gt alpha (recomputeSize (Node.mk v s cur r)) = true then some []
          else Option.map (fun path => (Frame.left v s r).dir :: path) unb) hps2 (Or.inl hok)
      refine ⟨?_, h2, fun _ => h3 (Or.inl hok)⟩
      rw [h1, hv]
      simp [ctxL, ctxR]
    | right v s l =>
      obtain ⟨hl, hps2⟩ := hps
      have hok := recomputeSize_sizeOK v s l cur (Or.inl hl) hcur
      have hv := recomputeSize_values v s l cur
      simp only [updateSizeLoop, Frame.fill]
      obtain ⟨h1, h2, h3⟩ := ih (recomputeSize (Node.mk v s l cur))
        (if unbalancedDescendants gt alpha (recomputeSize (Node.mk v s l cur)) = true then some []
          else Option.map (fun path => (Frame.right v s l).dir :: path) unb) hps2 (Or.inl hok)
      refine ⟨?_, h2, fun _ => h3 (Or.inl hok)⟩
      rw [h1, hv]
      simp [ctxL, ctxR]

theorem updateSize_spec (gt : Nat → Nat → Double → Bool) (alpha : Double)
    (n : Node) (ps : List Frame) (delta : Int)
    (hps : FramesOK ps) (hn : (bumpSize delta n).Quasi) :
    (updateSize gt alpha ⟨n, ps⟩ delta).values = ctxL ps ++ (bumpSize delta n).values ++ ctxR ps ∧
    (updateSize gt alpha ⟨n, ps⟩ delta).Quasi := by
  obtain ⟨h1, h2, _⟩ := updateSizeLoop_spec gt alpha ps (bumpSize delta n) none hps hn
  unfold updateSize
  simp only
  cases hres : (updateSizeLoop gt alpha (bumpSize delta n) ps none).2 with
  | none => exact ⟨h1, h2⟩
  | some path =>
    simp only
    refine ⟨?_, ?_⟩
    · rw [modifyAt_values buildBalanced buildBalanced_values, h1]
    · cases h2 with
      | inl h => exact Or.inl (modifyAt_sizeOK buildBalanced buildBalanced_size
          buildBalanced_sizeOK path _ h)
      | inr h => exact Or.inr (by rw [modifyAt_size buildBalanced buildBalanced_size]; exact h)

end ScapegoatTree

/-! ## Lists of keys -/

namespace ScapegoatTree

open Node

theorem orderedInsert_mid (A B : List Int) (k : Int) (hA : ∀ x ∈ A, x < k)
    (hB : ∀ x ∈ B, k < x) :
    List.orderedInsert (fun a b => a ≤ b) k (A ++ B) = A ++ k :: B := by
  induction A with
  | nil =>
    cases B with
    | nil => rfl
    | cons b B =>
      have : k ≤ b := le_of_lt (hB b (by simp))
      simp [List.orderedInsert, this]
  | cons a A ih =>
    have h1 : ¬ k ≤ a := not_le.mpr (hA a (by simp))
    have h2 := ih (fun x hx => hA x (by simp [hx]))
    rw [List.cons_append, List.orderedInsert, if_neg h1, h2]
    rfl

theorem pairwise_mid (A B : List Int) (k : Int) (hA : ∀ x ∈ A, x < k)
    (hB : ∀ x ∈ B, k < x) (h : (A ++ B).Pairwise (fun a b => a < b)) :
    (A ++ k :: B).Pairwise (fun a b => a < b) := by
  rw [List.pairwise_append] at h ⊢
  obtain ⟨h1, h2, h3⟩ := h
  refine ⟨h1, List.pairwise_cons.mpr ⟨hB, h2⟩, ?_⟩
  intro a ha b hb
  rcases List.mem_cons.mp hb with rfl | hb
  · exact hA a ha
  · exact h3 a ha b hb

theorem erase_mid (A B : List Int) (k : Int) (hA : k ∉ A) :
    (A ++ k :: B).erase k = A ++ B := by
  rw [List.erase_append_right _ hA]
  simp

theorem pairwise_unmid (A B : List Int) (k : Int)
    (h : (A ++ k :: B).Pairwise (fun a b => a < b)) :
    (A ++ B).Pairwise (fun a b => a < b) := by
  apply h.sublist
  exact List.Sublist.append_left (List.sublist_cons_self k B) A

/-! ## Lookup -/

theorem Inv_null : Node.null.Inv := ⟨trivial, by simp [values_null]⟩

theorem Inv_mk {v : Int} {s : Nat} {l r : Node} (h : (Node.mk v s l r).Inv) :
    s = 1 + l.size + r.size ∧ l.Inv ∧ r.Inv ∧ (∀ x ∈ l.values, x < v) ∧
      (∀ x ∈ r.values, v < x) ∧ (Node.mk v s l r).values = l.values ++ v :: r.values := by
  obtain ⟨hs, hp⟩ := h
  have hv := hs.values_node
  rw [hv, List.pairwise_append, List.pairwise_cons] at hp
  obtain ⟨h1, h2, h3⟩ := hs
  obtain ⟨p1, ⟨p2, p3⟩, p4⟩ := hp
  exact ⟨h1, ⟨h2, p1⟩, ⟨h3, p3⟩, fun x hx => p4 x hx v (by simp), p2, hv⟩

theorem find_spec (k : Int) (n : Node) (ps : List Frame)
    (hn : n.Inv) (hne : n ≠ null) (hps : FramesOK ps)
    (hL : ∀ x ∈ ctxL ps, x < k) (hR : ∀ x ∈ ctxR ps, k < x) :
    ∃ v s l r ps2,
      findElementOrAncestor n k ps = ⟨Node.mk v s l r, ps2⟩ ∧
      (Node.mk v s l r).Inv ∧ FramesOK ps2 ∧
      (∀ x ∈ ctxL ps2, x < k) ∧ (∀ x ∈ ctxR ps2, k < x) ∧
      ctxL ps2 ++ (Node.mk v s l r).values ++ ctxR ps2 = ctxL ps ++ n.values ++ ctxR ps ∧
      (v = k ∨ (v < k ∧ r = null) ∨ (k < v ∧ l = null)) := by
  induction n generalizing ps with
  | null => exact absurd rfl hne
  | mk v s l r ihl ihr =>
    obtain ⟨h1, hl, hr, hlv, hrv, hvals⟩ := Inv_mk hn
    by_cases hvk : v = k
    · refine ⟨v, s, l, r, ps, ?_, hn, hps, hL, hR, rfl, Or.inl hvk⟩
      simp [findElementOrAncestor, hvk]
    · by_cases hlt : v < k
      · by_cases hrn : r = null
        · refine ⟨v, s, l, r, ps, ?_, hn, hps, hL, hR, rfl, Or.inr (Or.inl ⟨hlt, hrn⟩)⟩
          simp [findElementOrAncestor, hvk, hlt, hrn, Node.isNull]
        · have hnn : r.isNull = false := (isNull_eq_false_iff r).mpr hrn
          obtain ⟨v2, s2, l2, r2, ps2, e1, e2, e3, e4, e5, e6, e7⟩ :=
            ihr (Frame.right v s l :: ps) hr hrn ⟨hl.1, hps⟩
              (by
                intro x hx
                simp only [ctxL, List.mem_append, List.mem_singleton] at hx
                rcases hx with hx | hx | hx
                · exact hL x hx
                · exact lt_trans (hlv x hx) hlt
                · rw [hx]; exact hlt)
              (by intro x hx; exact hR x hx)
          refine ⟨v2, s2, l2, r2, ps2, ?_, e2, e3, e4, e5, ?_, e7⟩
          · simp [findElementOrAncestor, hvk, hlt, hnn, e1]
          · rw [e6, hvals]; simp [ctxL, ctxR]
      · have hgt : k < v := lt_of_le_of_ne (not_lt.mp hlt) (fun h => hvk h.symm)
        by_cases hln : l = null
        · refine ⟨v, s, l, r, ps, ?_, hn, hps, hL, hR, rfl, Or.inr (Or.inr ⟨hgt, hln⟩)⟩
          simp [findElementOrAncestor, hvk, hlt, hln, Node.isNull]
        · have hnn : l.isNull = false := (isNull_eq_false_iff l).mpr hln
          obtain ⟨v2, s2, l2, r2, ps2, e1, e2, e3, e4, e5, e6, e7⟩ :=
            ihl (Frame.left v s r :: ps) hl hln ⟨hr.1, hps⟩
              (by intro x hx; exact hL x hx)
              (by
                intro x hx
                simp only [ctxR, List.mem_append, List.mem_cons] at hx
                rcases hx with (hx | hx) | hx
                · rw [hx]; exact hgt
                · exact lt_trans hgt (hrv x hx)
                · exact hR x hx)
          refine ⟨v2, s2, l2, r2, ps2, ?_, e2, e3, e4, e5, ?_, e7⟩
          · simp [findElementOrAncestor, hvk, hlt, hnn, e1]
          · rw [e6, hvals]; simp [ctxL, ctxR]

end ScapegoatTree

/-! ## The tree object -/

namespace ScapegoatTree

open Node

theorem values_eq (t : ScapegoatTree) : t.values = t.m_root.values := by
  unfold values
  cases h : t.m_root <;> simp [Node.isNull, values_null]

theorem size_eq (t : ScapegoatTree) : t.size = t.m_root.size := by
  unfold size
  cases h : t.m_root <;> simp [Node.isNull, Node.size]

theorem empty_iff (t : ScapegoatTree) : t.empty = true ↔ t.m_root.size = 0 := by
  unfold empty
  rw [size_eq]
  simp

theorem empty_eq_false_iff (t : ScapegoatTree) : t.empty = false ↔ t.m_root.size ≠ 0 := by
  rw [← Bool.not_eq_true, empty_iff]

theorem values_of_empty (t : ScapegoatTree) (h : t.empty = true) : t.values = [] := by
  rw [values_eq]
  exact values_of_size_zero _ ((empty_iff t).mp h)

theorem TreeInv.of_quasi {t : ScapegoatTree} (hq : t.m_root.Quasi)
    (hp : t.m_root.values.Pairwise (fun a b => a < b)) : t.TreeInv := by
  cases hq with
  | inl h => exact Or.inr ⟨h, hp⟩
  | inr h => exact Or.inl h

theorem TreeInv.sorted {t : ScapegoatTree} (h : t.TreeInv) :
    t.values.Pairwise (fun a b => a < b) := by
  rw [values_eq]
  cases h with
  | inl h => rw [values_of_size_zero _ h]; exact List.Pairwise.nil
  | inr h => exact h.2

theorem TreeInv.size_eq_length {t : ScapegoatTree} (h : t.TreeInv) :
    t.size = t.values.length := by
  rw [values_eq, size_eq]
  cases h with
  | inl h => rw [values_of_size_zero _ h, h]; rfl
  | inr h => exact h.1.node_size_eq

theorem addDelta_succ (s : Nat) : addDelta s 1 = s + 1 := by
  unfold addDelta
  have : (0 : Int) ≤ (s : Int) + 1 := by omega
  rw [if_pos this]
  omega

theorem addDelta_pred (s : Nat) (hs : 0 < s) : addDelta s (-1) = s - 1 := by
  unfold addDelta
  have : (0 : Int) ≤ (s : Int) + -1 := by omega
  rw [if_pos this]
  omega

/-! ## Insertion -/

theorem insert_of_empty (gt : Nat → Nat → Double → Bool) (t : ScapegoatTree) (k : Int)
    (he : t.empty = true) :
    insert gt t k = (true, { t with m_root := Node.new k }) := by
  simp [insert, he]

theorem new_Inv (k : Int) : (Node.new k).Inv := by
  refine ⟨⟨rfl, trivial, trivial⟩, ?_⟩
  simp [Node.new, values_mk, values_null]

theorem new_values (k : Int) : (Node.new k).values = [k] := by
  simp [Node.new, values_mk, values_null]

theorem insert_spec (gt : Nat → Nat → Double → Bool) (t : ScapegoatTree) (k : Int)
    (h : t.TreeInv) :
    (insert gt t k).2.TreeInv ∧ (insert gt t k).2.m_alpha = t.m_alpha ∧
    (k ∈ t.values → insert gt t k = (false, t)) ∧
    (k ∉ t.values → (insert gt t k).1 = true ∧
      (insert gt t k).2.values = List.orderedInsert (fun a b => a ≤ b) k t.values) := by
  by_cases he : t.empty = true
  · have hv := values_of_empty t he
    rw [insert_of_empty gt t k he, hv]
    refine ⟨Or.inr (new_Inv k), rfl, by simp, fun _ => ⟨rfl, ?_⟩⟩
    rw [values_eq]
    exact new_values k
  · have he2 : t.empty = false := by simpa using he
    have hsz := (empty_eq_false_iff t).mp he2
    have hInv : t.m_root.Inv := h.resolve_left hsz
    have hne : t.m_root ≠ null := by
      intro hnull; rw [hnull] at hsz; exact hsz rfl
    obtain ⟨v, s, l, r, ps, e1, e2, e3, e4, e5, e6, e7⟩ :=
      find_spec k t.m_root [] hInv hne trivial (by simp [ctxL]) (by simp [ctxR])
    simp only [ctxL, ctxR, List.nil_append, List.append_nil] at e6
    obtain ⟨a1, a2, a3, a4, a5, a6⟩ := Inv_mk e2
    rw [values_eq, ← e6]
    rcases e7 with hvk | ⟨hlt, hrn⟩ | ⟨hgt, hln⟩
    · have hins : insert gt t k = (false, t) := by
        simp [insert, he2, e1, hvk]
      rw [hins]
      refine ⟨h, rfl, fun _ => rfl, fun hk => absurd ?_ hk⟩
      rw [a6, hvk]; simp
    · subst hrn
      have hvk : v ≠ k := ne_of_lt hlt
      have hins : insert gt t k = (true, { t with
          m_root := (updateSize gt t.m_alpha (NodePtr.mk (Node.mk v s l (Node.new k)) ps) 1) }) := by
        simp [insert, he2, e1, hvk, hlt, createRightDescendant]
      have hb : bumpSize 1 (Node.mk v s l (Node.new k)) = Node.mk v (s + 1) l (Node.new k) := by
        simp [bumpSize, addDelta_succ]
      have hok : (Node.mk v (s + 1) l (Node.new k)).SizeOK := by
        refine ⟨?_, a2.1, (new_Inv k).1⟩
        simp only [Node.size, Node.new] at a1 ⊢
        omega
      obtain ⟨u1, u2⟩ := updateSize_spec gt t.m_alpha (Node.mk v s l (Node.new k)) ps 1 e3
        (by rw [hb]; exact Or.inl hok)
      rw [hb, hok.values_node, new_values] at u1
      rw [a6, values_null] at e6 ⊢
      have hA : ∀ x ∈ ctxL ps ++ (l.values ++ [v]), x < k := by
        intro x hx
        simp only [List.mem_append, List.mem_singleton] at hx
        rcases hx with hx | hx | hx
        · exact e4 x hx
        · exact lt_trans (a4 x hx) hlt
        · rw [hx]; exact hlt
      have hold : ctxL ps ++ (l.values ++ [v]) ++ ctxR ps =
          (ctxL ps ++ (l.values ++ [v])) ++ ctxR ps := rfl
      have hnew : ctxL ps ++ (l.values ++ [v, k]) ++ ctxR ps =
          (ctxL ps ++ (l.values ++ [v])) ++ k :: ctxR ps := by simp
      have hsorted : (ctxL ps ++ (l.values ++ [v]) ++ ctxR ps).Pairwise (fun a b => a < b) := by
        rw [e6]; exact hInv.2
      rw [hins]
      refine ⟨TreeInv.of_quasi u2 ?_, rfl, fun hk => ?_, fun _ => ⟨rfl, ?_⟩⟩
      · show (updateSize gt t.m_alpha ⟨Node.mk v s l (Node.new k), ps⟩ 1).values.Pairwise _
        rw [u1, hnew]
        exact pairwise_mid _ _ k hA e5 hsorted
      · exfalso
        simp only [List.mem_append, List.mem_singleton] at hk
        rcases hk with (hk | hk | hk) | hk
        · exact lt_irrefl _ (e4 k hk)
        · exact lt_irrefl _ (lt_trans (a4 k hk) hlt)
        · exact hvk hk.symm
        · exact lt_irrefl _ (e5 k hk)
      · rw [values_eq]
        show (updateSize gt t.m_alpha ⟨Node.mk v s l (Node.new k), ps⟩ 1).values = _
        rw [u1, hnew, hold]
        exact (orderedInsert_mid _ _ k hA e5).symm
    · subst hln
      have hvk : v ≠ k := ne_of_gt hgt
      have hnlt : ¬ v < k := not_lt.mpr (le_of_lt hgt)
      have hins : insert gt t k = (true, { t with
          m_root := (updateSize gt t.m_alpha (NodePtr.mk (Node.mk v s (Node.new k) r) ps) 1) }) := by
        simp [insert, he2, e1, hvk, hnlt, createLeftDescendant]
      have hb : bumpSize 1 (Node.mk v s (Node.new k) r) = Node.mk v (s + 1) (Node.new k) r := by
        simp [bumpSize, addDelta_succ]
      have hok : (Node.mk v (s + 1) (Node.new k) r).SizeOK := by
        refine ⟨?_, (new_Inv k).1, a3.1⟩
        simp only [Node.size, Node.new] at a1 ⊢
        omega
      obtain ⟨u1, u2⟩ := updateSize_spec gt t.m_alpha (Node.mk v s (Node.new k) r) ps 1 e3
        (by rw [hb]; exact Or.inl hok)
      rw [hb, hok.values_node, new_values] at u1
      rw [a6, values_null] at e6 ⊢
      have hB : ∀ x ∈ v :: r.values ++ ctxR ps, k < x := by
        intro x hx
        simp only [List.cons_append, List.mem_cons, List.mem_append] at hx
        rcases hx with hx | hx | hx
        · rw [hx]; exact hgt
        · exact lt_trans hgt (a5 x hx)
        · exact e5 x hx
      have hold : ctxL ps ++ ([] ++ v :: r.values) ++ ctxR ps =
          ctxL ps ++ (v :: r.values ++ ctxR ps) := by simp
      have hnew : ctxL ps ++ ([k] ++ v :: r.values) ++ ctxR ps =
          ctxL ps ++ k :: (v :: r.values ++ ctxR ps) := by simp
      have hsorted : (ctxL ps ++ ([] ++ v :: r.values) ++ ctxR ps).Pairwise
          (fun a b => a < b) := by
        rw [e6]; exact hInv.2
      rw [hins]
      refine ⟨TreeInv.of_quasi u2 ?_, rfl, fun hk => ?_, fun _ => ⟨rfl, ?_⟩⟩
      · show (updateSize gt t.m_alpha ⟨Node.mk v s (Node.new k) r, ps⟩ 1).values.Pairwise _
        rw [u1, hnew]
        rw [hold] at hsorted
        exact pairwise_mid _ _ k e4 hB hsorted
      · exfalso
        rw [hold] at hk
        rcases List.mem_append.mp hk with hk | hk
        · exact lt_irrefl _ (e4 k hk)
        · exact lt_irrefl _ (hB k hk)
      · rw [values_eq]
        show (updateSize gt t.m_alpha ⟨Node.mk v s (Node.new k) r, ps⟩ 1).values = _
        rw [u1, hnew, hold]
        exact (orderedInsert_mid _ _ k e4 hB).symm

end ScapegoatTree

/-! ## Removal -/

namespace ScapegoatTree

open Node

theorem decrSize_pos (s : Nat) (hs : 0 < s) : decrSize s = s - 1 := by
  unfold decrSize
  rw [if_neg (by omega)]

theorem unlinkLeftmost_spec (n : Node) (hn : n.SizeOK) (hne : n ≠ null) :
    n.values = (unlinkLeftmost n).1 :: (unlinkLeftmost n).2.values ∧
    (unlinkLeftmost n).2.SizeOK ∧ (unlinkLeftmost n).2.size + 1 = n.size := by
  induction n with
  | null => exact absurd rfl hne
  | mk v s l r ihl _ =>
    have hv := hn.values_node
    obtain ⟨h1, h2, h3⟩ := hn
    by_cases hln : l = null
    · subst hln
      have hu : unlinkLeftmost (Node.mk v s null r) = (v, r) := by
        cases r <;> simp [unlinkLeftmost, Node.isNull]
      rw [hu, hv]
      refine ⟨by simp [values_null], h3, ?_⟩
      simp only [Node.size] at h1 ⊢
      omega
    · have hnn : l.isNull = false := (isNull_eq_false_iff l).mpr hln
      obtain ⟨i1, i2, i3⟩ := ihl h2 hln
      have hu : unlinkLeftmost (Node.mk v s l r) =
          ((unlinkLeftmost l).1, Node.mk v (decrSize s) (unlinkLeftmost l).2 r) := by
        simp [unlinkLeftmost, hnn]
      have hpos : 0 < s := by omega
      rw [hu, decrSize_pos s hpos]
      have hok : (Node.mk v (s - 1) (unlinkLeftmost l).2 r).SizeOK := ⟨by omega, i2, h3⟩
      refine ⟨?_, hok, ?_⟩
      · rw [hv, hok.values_node, i1]; simp
      · simp only [Node.size]; omega

theorem removeImpl_spec (v : Int) (s : Nat) (l r : Node) (h : (Node.mk v s l r).Inv) :
    (bumpSize (-1) (removeImpl (Node.mk v s l r))).Quasi ∧
    (bumpSize (-1) (removeImpl (Node.mk v s l r))).values = l.values ++ r.values := by
  obtain ⟨a1, a2, a3, _, _, _⟩ := Inv_mk h
  by_cases hs : s = 1
  · have hl : l = null := a2.1.eq_null (by omega)
    have hr : r = null := a3.1.eq_null (by omega)
    subst hl hr hs
    have : bumpSize (-1) (removeImpl (Node.mk v 1 null null)) = Node.mk v 0 null null := by
      simp [removeImpl, bumpSize, addDelta]
    rw [this]
    exact ⟨Or.inr rfl, by simp [values_mk, values_null]⟩
  · have hpos : 0 < s := by omega
    cases l with
    | null =>
      cases r with
      | null => simp only [Node.size] at a1; omega
      | mk rv rs rl rr =>
        have : bumpSize (-1) (removeImpl (Node.mk v s null (Node.mk rv rs rl rr))) =
            Node.mk rv (s - 1) rl rr := by
          simp [removeImpl, hs, Node.isNull, deleteIntermediate, bumpSize, addDelta_pred s hpos]
        rw [this]
        have hrs : s - 1 = rs := by simp only [Node.size] at a1; omega
        rw [hrs]
        exact ⟨Or.inl a3.1, by simp [values_null]⟩
    | mk lv ls ll lr =>
      cases r with
      | null =>
        have : bumpSize (-1) (removeImpl (Node.mk v s (Node.mk lv ls ll lr) null)) =
            Node.mk lv (s - 1) ll lr := by
          simp [removeImpl, hs, Node.isNull, deleteIntermediate, bumpSize, addDelta_pred s hpos]
        rw [this]
        have hls : s - 1 = ls := by simp only [Node.size] at a1; omega
        rw [hls]
        exact ⟨Or.inl a2.1, by simp [values_null]⟩
      | mk rv rs rl rr =>
        obtain ⟨u1, u2, u3⟩ := unlinkLeftmost_spec (Node.mk rv rs rl rr) a3.1 (by simp)
        have : bumpSize (-1) (removeImpl (Node.mk v s (Node.mk lv ls ll lr)
            (Node.mk rv rs rl rr))) =
            Node.mk (unlinkLeftmost (Node.mk rv rs rl rr)).1 (s - 1) (Node.mk lv ls ll lr)
              (unlinkLeftmost (Node.mk rv rs rl rr)).2 := by
          simp [removeImpl, hs, Node.isNull, bumpSize, addDelta_pred s hpos]
        rw [this]
        have hok : (Node.mk (unlinkLeftmost (Node.mk rv rs rl rr)).1 (s - 1)
            (Node.mk lv ls ll lr) (unlinkLeftmost (Node.mk rv rs rl rr)).2).SizeOK := by
          refine ⟨?_, a2.1, u2⟩
          simp only [Node.size] at a1 u3 ⊢
          omega
        refine ⟨Or.inl hok, ?_⟩
        rw [hok.values_node, u1]

theorem remove_spec (gt : Nat → Nat → Double → Bool) (t : ScapegoatTree) (k : Int)
    (h : t.TreeInv) :
    (remove gt t k).2.TreeInv ∧ (remove gt t k).2.m_alpha = t.m_alpha ∧
    (k ∉ t.values → remove gt t k = (false, t)) ∧
    (k ∈ t.values → (remove gt t k).1 = true ∧
      (remove gt t k).2.values = t.values.erase k) := by
  by_cases he : t.empty = true
  · have hv := values_of_empty t he
    have hrem : remove gt t k = (false, t) := by simp [remove, he]
    rw [hrem, hv]
    exact ⟨h, rfl, fun _ => rfl, fun hk => absurd hk (by simp)⟩
  · have he2 : t.empty = false := by simpa using he
    have hsz := (empty_eq_false_iff t).mp he2
    have hInv : t.m_root.Inv := h.resolve_left hsz
    have hne : t.m_root ≠ null := by
      intro hnull; rw [hnull] at hsz; exact hsz rfl
    obtain ⟨v, s, l, r, ps, e1, e2, e3, e4, e5, e6, e7⟩ :=
      find_spec k t.m_root [] hInv hne trivial (by simp [ctxL]) (by simp [ctxR])
    simp only [ctxL, ctxR, List.nil_append, List.append_nil] at e6
    obtain ⟨a1, a2, a3, a4, a5, a6⟩ := Inv_mk e2
    rw [values_eq, ← e6]
    by_cases hvk : v = k
    · subst hvk
      have hrem : remove gt t v = (true, { t with
          m_root := (updateSize gt t.m_alpha (NodePtr.mk (removeImpl (Node.mk v s l r)) ps)
            (-1)) }) := by
        simp [remove, he2, e1]
      obtain ⟨q1, q2⟩ := removeImpl_spec v s l r e2
      obtain ⟨u1, u2⟩ := updateSize_spec gt t.m_alpha (removeImpl (Node.mk v s l r)) ps (-1) e3 q1
      rw [q2] at u1
      have hsorted : (ctxL ps ++ (Node.mk v s l r).values ++ ctxR ps).Pairwise
          (fun a b => a < b) := by
        rw [e6]; exact hInv.2
      have hold : ctxL ps ++ (Node.mk v s l r).values ++ ctxR ps =
          (ctxL ps ++ l.values) ++ v :: (r.values ++ ctxR ps) := by
        rw [a6]; simp
      have hnew : ctxL ps ++ (l.values ++ r.values) ++ ctxR ps =
          (ctxL ps ++ l.values) ++ (r.values ++ ctxR ps) := by simp
      have hnot : v ∉ ctxL ps ++ l.values := by
        intro hm
        rcases List.mem_append.mp hm with hm | hm
        · exact lt_irrefl _ (e4 v hm)
        · exact lt_irrefl _ (a4 v hm)
      rw [hrem]
      refine ⟨TreeInv.of_quasi u2 ?_, rfl, fun hk => absurd ?_ hk, fun _ => ⟨rfl, ?_⟩⟩
      · show (updateSize gt t.m_alpha ⟨removeImpl (Node.mk v s l r), ps⟩ (-1)).values.Pairwise _
        rw [u1, hnew]
        rw [hold] at hsorted
        exact pairwise_unmid _ _ v hsorted
      · rw [hold]; simp
      · rw [values_eq]
        show (updateSize gt t.m_alpha ⟨removeImpl (Node.mk v s l r), ps⟩ (-1)).values = _
        rw [u1, hnew, hold]
        exact (erase_mid _ _ v hnot).symm
    · have hrem : remove gt t k = (false, t) := by
        simp [remove, he2, e1, hvk]
      rw [hrem]
      refine ⟨h, rfl, fun _ => rfl, fun hk => ?_⟩
      exfalso
      rw [a6] at hk
      simp only [List.mem_append, List.mem_cons] at hk
      rcases e7 with h7 | ⟨hlt, hrn⟩ | ⟨hgt, hln⟩
      · exact hvk h7
      · subst hrn
        rcases hk with (hk | hk | hk | hk) | hk
        · exact lt_irrefl _ (e4 k hk)
        · exact lt_irrefl _ (lt_trans (a4 k hk) hlt)
        · exact hvk hk.symm
        · simp [values_null] at hk
        · exact lt_irrefl _ (e5 k hk)
      · subst hln
        rcases hk with (hk | hk | hk | hk) | hk
        · exact lt_irrefl _ (e4 k hk)
        · simp [values_null] at hk
        · exact hvk hk.symm
        · exact lt_irrefl _ (lt_trans hgt (a5 k hk))
        · exact lt_irrefl _ (e5 k hk)

end ScapegoatTree

/-! ## Lookup on the tree object, and sequences of calls -/

namespace ScapegoatTree

open Node

theorem contains_iff_mem (t : ScapegoatTree) (k : Int) (h : t.TreeInv) :
    t.contains k = true ↔ k ∈ t.values := by
  by_cases he : t.empty = true
  · rw [values_of_empty t he]
    simp [contains, he]
  · have he2 : t.empty = false := by simpa using he
    have hsz := (empty_eq_false_iff t).mp he2
    have hInv : t.m_root.Inv := h.resolve_left hsz
    have hne : t.m_root ≠ null := by
      intro hnull; rw [hnull] at hsz; exact hsz rfl
    obtain ⟨v, s, l, r, ps, e1, e2, e3, e4, e5, e6, e7⟩ :=
      find_spec k t.m_root [] hInv hne trivial (by simp [ctxL]) (by simp [ctxR])
    simp only [ctxL, ctxR, List.nil_append, List.append_nil] at e6
    obtain ⟨a1, a2, a3, a4, a5, a6⟩ := Inv_mk e2
    have hc : t.contains k = decide (v = k) := by
      simp only [contains, he2, e1]
      by_cases hvk : v = k <;> simp [hvk]
    rw [hc, values_eq, ← e6, a6]
    constructor
    · intro hvk
      have : v = k := by simpa using hvk
      rw [this]; simp
    · intro hk
      simp only [List.mem_append, List.mem_cons] at hk
      rcases e7 with h7 | ⟨hlt, hrn⟩ | ⟨hgt, hln⟩
      · simpa using h7
      · subst hrn
        rcases hk with (hk | hk | hk | hk) | hk
        · exact absurd (e4 k hk) (lt_irrefl _)
        · exact absurd (lt_trans (a4 k hk) hlt) (lt_irrefl _)
        · simpa using hk.symm
        · simp [values_null] at hk
        · exact absurd (e5 k hk) (lt_irrefl _)
      · subst hln
        rcases hk with (hk | hk | hk | hk) | hk
        · exact absurd (e4 k hk) (lt_irrefl _)
        · simp [values_null] at hk
        · simpa using hk.symm
        · exact absurd (lt_trans hgt (a5 k hk)) (lt_irrefl _)
        · exact absurd (e5 k hk) (lt_irrefl _)

theorem step_spec (gt : Nat → Nat → Double → Bool) (t : ScapegoatTree) (op : Op)
    (h : t.TreeInv) :
    (step gt t op).TreeInv ∧ (step gt t op).values = modelStep t.values op := by
  cases op with
  | insert k =>
    obtain ⟨h1, _, h3, h4⟩ := insert_spec gt t k h
    refine ⟨h1, ?_⟩
    simp only [step, modelStep]
    by_cases hk : k ∈ t.values
    · rw [h3 hk, if_pos hk]
    · rw [(h4 hk).2, if_neg hk]
  | remove k =>
    obtain ⟨h1, _, h3, h4⟩ := remove_spec gt t k h
    refine ⟨h1, ?_⟩
    simp only [step, modelStep]
    by_cases hk : k ∈ t.values
    · exact (h4 hk).2
    · rw [h3 hk, List.erase_of_not_mem hk]

theorem run_spec (gt : Nat → Nat → Double → Bool) (t : ScapegoatTree) (ops : List Op)
    (h : t.TreeInv) :
    (run gt t ops).TreeInv ∧ (run gt t ops).values = ops.foldl modelStep t.values := by
  induction ops generalizing t with
  | nil => exact ⟨h, rfl⟩
  | cons op ops ih =>
    obtain ⟨h1, h2⟩ := step_spec gt t op h
    obtain ⟨i1, i2⟩ := ih (step gt t op) h1
    refine ⟨i1, ?_⟩
    rw [h2] at i2
    exact i2

theorem run_append (gt : Nat → Nat → Double → Bool) (t : ScapegoatTree) (ops ops2 : List Op) :
    run gt t (ops ++ ops2) = run gt (run gt t ops) ops2 := by
  simp [run, List.foldl_append]

theorem NewlyConstructed.root_null {t : ScapegoatTree} (h : NewlyConstructed t) :
    t.m_root = null := by
  rcases h with ⟨alpha, h⟩ | h
  · unfold construct at h
    cases hc : checkAlpha alpha with
    | error e => rw [hc] at h; cases h
    | ok u =>
      rw [hc] at h
      cases h
      rfl
  · rw [h]; rfl

theorem NewlyConstructed.inv_new {t : ScapegoatTree} (h : NewlyConstructed t) : t.TreeInv := by
  left
  rw [h.root_null]
  rfl

theorem NewlyConstructed.values {t : ScapegoatTree} (h : NewlyConstructed t) :
    t.values = [] := by
  rw [values_eq, h.root_null]
  rfl

theorem Reachable.inv_reach {gt : Nat → Nat → Double → Bool} {t : ScapegoatTree}
    (h : Reachable gt t) : t.TreeInv := by
  obtain ⟨t0, ops, h0, rfl⟩ := h
  exact (run_spec gt t0 ops h0.inv_new).1

theorem Reachable.of_run {gt : Nat → Nat → Double → Bool} {t0 : ScapegoatTree}
    (h0 : NewlyConstructed t0) (ops : List Op) : Reachable gt (run gt t0 ops) :=
  ⟨t0, ops, h0, rfl⟩

theorem run_values (gt : Nat → Nat → Double → Bool) (t0 : ScapegoatTree) (ops : List Op)
    (h0 : NewlyConstructed t0) : (run gt t0 ops).values = modelKeys ops := by
  rw [(run_spec gt t0 ops h0.inv_new).2, h0.values]
  rfl

theorem construct_finite (q : ℚ) (h1 : 1 / 2 ≤ q) (h2 : q ≤ 1) :
    construct (Double.finite q) = Except.ok { m_root := null, m_alpha := Double.finite q } := by
  have ha : Double.lt (Double.finite q) Double.half = false := by
    simp only [Double.lt, Double.half, decide_eq_false_iff_not, not_lt]
    exact h1
  have hb : Double.gt (Double.finite q) Double.one = false := by
    simp only [Double.gt, Double.lt, Double.one, decide_eq_false_iff_not, not_lt]
    exact h2
  simp [construct, checkAlpha, ha, hb]

theorem construct_half : construct Double.half = Except.ok newHalf :=
  construct_finite (1 / 2) (le_refl _) (by norm_num)

theorem construct_one : construct Double.one = Except.ok newOne :=
  construct_finite 1 (by norm_num) (le_refl _)

theorem newlyConstructed_half : NewlyConstructed newHalf :=
  Or.inl ⟨Double.half, construct_half⟩

theorem newlyConstructed_one : NewlyConstructed newOne :=
  Or.inl ⟨Double.one, construct_one⟩

theorem remove_last (gt : Nat → Nat → Double → Bool) (t : ScapegoatTree) (k : Int)
    (h : t.TreeInv) (hv : t.values = [k]) :
    (remove gt t k).2.m_root = Node.mk k 0 null null := by
  rw [values_eq] at hv
  have hsz : t.m_root.size ≠ 0 := by
    intro h0; rw [values_of_size_zero _ h0] at hv; cases hv
  have hInv : t.m_root.Inv := h.resolve_left hsz
  cases hroot : t.m_root with
  | null => rw [hroot] at hsz; exact absurd rfl hsz
  | mk v s l r =>
    rw [hroot] at hInv hv
    obtain ⟨a1, a2, a3, _, _, a6⟩ := Inv_mk hInv
    rw [a6] at hv
    have hl : l.values = [] := by
      cases hlv : l.values with
      | nil => rfl
      | cons x xs =>
        rw [hlv] at hv
        have := congrArg List.length hv
        simp at this
    rw [hl] at hv
    simp only [List.nil_append, List.cons.injEq] at hv
    obtain ⟨hvk, hr⟩ := hv
    have hl0 : l = null := a2.1.eq_null (by rw [a2.1.node_size_eq, hl]; rfl)
    have hr0 : r = null := a3.1.eq_null (by rw [a3.1.node_size_eq, hr]; rfl)
    subst hl0 hr0 hvk
    simp only [Node.size] at a1
    subst a1
    simp [remove, empty, size, hroot, Node.isNull, Node.size, findElementOrAncestor, removeImpl,
      updateSize, updateSizeLoop, bumpSize, addDelta]

theorem step_mem (gt : Nat → Nat → Double → Bool) (t : ScapegoatTree) (op : Op) (k : Int)
    (h : t.TreeInv) :
    k ∈ (step gt t op).values ↔
      (op = Op.insert k ∨ (k ∈ t.values ∧ op ≠ Op.remove k)) := by
  rw [(step_spec gt t op h).2]
  have hnd : t.values.Nodup := h.sorted.imp (fun hab => ne_of_lt hab)
  cases op with
  | insert j =>
    simp only [modelStep]
    by_cases hj : j ∈ t.values
    · rw [if_pos hj]
      constructor
      · intro hk; exact Or.inr ⟨hk, by simp⟩
      · rintro (h1 | h1)
        · cases h1; exact hj
        · exact h1.1
    · rw [if_neg hj, List.mem_orderedInsert]
      constructor
      · rintro (h1 | h1)
        · exact Or.inl (by rw [h1])
        · exact Or.inr ⟨h1, by simp⟩
      · rintro (h1 | h1)
        · cases h1; exact Or.inl rfl
        · exact Or.inr h1.1
  | remove j =>
    simp only [modelStep]
    rw [hnd.mem_erase_iff]
    constructor
    · rintro ⟨h1, h2⟩
      exact Or.inr ⟨h2, by intro h3; cases h3; exact h1 rfl⟩
    · rintro (h1 | ⟨h1, h2⟩)
      · cases h1
      · exact ⟨by intro h3; exact h2 (by rw [h3]), h1⟩

theorem insertedNotRemoved_cons (k : Int) (op : Op) (ops : List Op) :
    InsertedNotRemoved k (op :: ops) ↔
      (InsertedNotRemoved k ops ∨ (op = Op.insert k ∧ Op.remove k ∉ ops)) := by
  constructor
  · rintro ⟨before, after, h1, h2⟩
    cases before with
    | nil =>
      simp only [List.nil_append, List.cons.injEq] at h1
      obtain ⟨h3, h4⟩ := h1
      exact Or.inr ⟨h3, by rw [h4]; exact h2⟩
    | cons b before =>
      simp only [List.cons_append, List.cons.injEq] at h1
      exact Or.inl ⟨before, after, h1.2, h2⟩
  · rintro (⟨before, after, h1, h2⟩ | ⟨h1, h2⟩)
    · exact ⟨op :: before, after, by rw [h1]; rfl, h2⟩
    · exact ⟨[], ops, by rw [h1]; rfl, h2⟩

theorem run_mem (gt : Nat → Nat → Double → Bool) (t : ScapegoatTree) (ops : List Op) (k : Int)
    (h : t.TreeInv) :
    k ∈ (run gt t ops).values ↔
      (InsertedNotRemoved k ops ∨ (k ∈ t.values ∧ Op.remove k ∉ ops)) := by
  induction ops generalizing t with
  | nil =>
    simp only [run, List.foldl_nil, List.not_mem_nil, not_false_eq_true, and_true]
    constructor
    · intro hk; exact Or.inr hk
    · rintro (⟨before, after, h1, _⟩ | hk)
      · cases before <;> cases h1
      · exact hk
  | cons op ops ih =>
    have hstep := (step_spec gt t op h).1
    have hrun : run gt t (op :: ops) = run gt (step gt t op) ops := rfl
    rw [hrun, ih (step gt t op) hstep, step_mem gt t op k h, insertedNotRemoved_cons]
    simp only [List.mem_cons, not_or]
    constructor
    · rintro (h1 | ⟨h1 | ⟨h1, h2⟩, h3⟩)
      · exact Or.inl (Or.inl h1)
      · exact Or.inl (Or.inr ⟨h1, h3⟩)
      · exact Or.inr ⟨h1, fun h4 => h2 h4.symm, h3⟩
    · rintro ((h1 | ⟨h1, h3⟩) | ⟨h1, h2, h3⟩)
      · exact Or.inl h1
      · exact Or.inr ⟨Or.inl h1, h3⟩
      · exact Or.inr ⟨Or.inr ⟨h1, fun h4 => h2 h4.symm⟩, h3⟩

end ScapegoatTree

/-! ## The contract of the public interface -/

namespace ScapegoatTree

open Node

/-- C1 (membership correctness): whatever the weight comparison computes, after any sequence
of `insert` and `remove` calls on a newly constructed tree, `contains(k)` returns true exactly
when the sequence holds an `insert(k)` that no later `remove(k)` follows. -/
theorem contains_iff_inserted_not_removed (gt : Nat → Nat → Double → Bool)
    (t0 : ScapegoatTree) (h0 : NewlyConstructed t0) (ops : List Op) (k : Int) :
    (run gt t0 ops).contains k = true ↔ InsertedNotRemoved k ops := by
  rw [contains_iff_mem _ _ (run_spec gt t0 ops h0.inv_new).1, run_mem gt t0 ops k h0.inv_new,
    h0.values]
  simp

theorem contains_iff_inserted_not_removed_witness :
    NewlyConstructed newHalf ∧
    ((run gtHalf newHalf [Op.insert 3, Op.insert 5, Op.remove 3, Op.insert 7]).contains 5 = true ↔
      InsertedNotRemoved 5 [Op.insert 3, Op.insert 5, Op.remove 3, Op.insert 7]) ∧
    (run gtHalf newHalf [Op.insert 3, Op.insert 5, Op.remove 3, Op.insert 7]).contains 5 = true ∧
    (run gtHalf newHalf [Op.insert 3, Op.insert 5, Op.remove 3, Op.insert 7]).contains 3 = false :=
  ⟨newlyConstructed_half,
    contains_iff_inserted_not_removed gtHalf newHalf newlyConstructed_half
      [Op.insert 3, Op.insert 5, Op.remove 3, Op.insert 7] 5,
    by decide, by decide⟩

/-- C2 (order invariant): after any sequence of `insert` and `remove` calls on a newly
constructed tree, `values()` is strictly ascending, so it has no duplicate. -/
theorem values_strictly_ascending (gt : Nat → Nat → Double → Bool)
    (t0 : ScapegoatTree) (h0 : NewlyConstructed t0) (ops : List Op) :
    (run gt t0 ops).values.Sorted (fun a b => a < b) ∧ (run gt t0 ops).values.Nodup := by
  have hs := (run_spec gt t0 ops h0.inv_new).1.sorted
  exact ⟨hs, hs.imp (fun hab => ne_of_lt hab)⟩

theorem values_strictly_ascending_witness :
    NewlyConstructed newHalf ∧
    (run gtHalf newHalf [Op.insert 5, Op.insert 1, Op.insert 9, Op.insert 5, Op.remove 1,
      Op.insert 7]).values = [5, 7, 9] ∧
    (run gtHalf newHalf [Op.insert 5, Op.insert 1, Op.insert 9, Op.insert 5, Op.remove 1,
      Op.insert 7]).values.Sorted (fun a b => a < b) :=
  ⟨newlyConstructed_half, by decide,
    (values_strictly_ascending gtHalf newHalf newlyConstructed_half
      [Op.insert 5, Op.insert 1, Op.insert 9, Op.insert 5, Op.remove 1, Op.insert 7]).1⟩

/-- C3 (insert of a new key): on a reachable tree, `insert(k)` of a key that `values()` does
not hold returns true, and `values()` afterwards is the old listing with `k` put at its sorted
position: ascending, one longer, holding `k` and exactly the old keys. The comparison `gt`
decides whether a rebuild happens, and the statement holds for every `gt`. -/
theorem insert_new_key (gt : Nat → Nat → Double → Bool) (t : ScapegoatTree)
    (hr : Reachable gt t) (k : Int) (hk : k ∉ t.values) :
    (insert gt t k).1 = true ∧
    (insert gt t k).2.values = List.orderedInsert (fun a b => a ≤ b) k t.values ∧
    (insert gt t k).2.values.Sorted (fun a b => a < b) ∧
    (∀ x, x ∈ (insert gt t k).2.values ↔ x = k ∨ x ∈ t.values) ∧
    (insert gt t k).2.values.length = t.values.length + 1 := by
  obtain ⟨h1, _, _, h4⟩ := insert_spec gt t k hr.inv_reach
  obtain ⟨h5, h6⟩ := h4 hk
  refine ⟨h5, h6, h1.sorted, ?_, ?_⟩
  · intro x; rw [h6, List.mem_orderedInsert]
  · rw [h6, List.orderedInsert_length]

theorem insert_new_key_witness :
    Reachable gtHalf (run gtHalf newHalf [Op.insert 1, Op.insert 2, Op.insert 4, Op.insert 5]) ∧
    (3 : Int) ∉ (run gtHalf newHalf [Op.insert 1, Op.insert 2, Op.insert 4, Op.insert 5]).values ∧
    (insert gtHalf (run gtHalf newHalf [Op.insert 1, Op.insert 2, Op.insert 4, Op.insert 5])
      3).2.values = [1, 2, 3, 4, 5] :=
  ⟨Reachable.of_run newlyConstructed_half _, by decide,
    ((insert_new_key gtHalf (run gtHalf newHalf [Op.insert 1, Op.insert 2, Op.insert 4,
      Op.insert 5]) (Reachable.of_run newlyConstructed_half _) 3 (by decide)).2.1).trans
      (by decide)⟩

/-- C4 (remove of a present key): on a tree reached from a newly constructed one, `remove(k)`
of a key that `values()` holds returns true, and `values()` afterwards is the old listing with
`k` erased, every other key kept in the same order; this covers a key at a leaf, at a node with
one child and at a node with two children. The example of the specification holds as well:
after building 10, 5, 15, 3, 7, 12, 18 and removing 10, `values()` is 3, 5, 7, 12, 15, 18 and
`contains(10)` is false. -/
theorem remove_present_key (gt : Nat → Nat → Double → Bool) (t0 : ScapegoatTree)
    (h0 : NewlyConstructed t0) :
    (∀ (ops : List Op) (k : Int), k ∈ (run gt t0 ops).values →
      (remove gt (run gt t0 ops) k).1 = true ∧
      (remove gt (run gt t0 ops) k).2.values = (run gt t0 ops).values.erase k ∧
      (∀ x, x ∈ (remove gt (run gt t0 ops) k).2.values ↔ x ≠ k ∧ x ∈ (run gt t0 ops).values) ∧
      (remove gt (run gt t0 ops) k).2.values.Sublist (run gt t0 ops).values) ∧
    ((remove gt (run gt t0 [Op.insert 10, Op.insert 5, Op.insert 15, Op.insert 3, Op.insert 7,
        Op.insert 12, Op.insert 18]) 10).2.values = [3, 5, 7, 12, 15, 18] ∧
      (remove gt (run gt t0 [Op.insert 10, Op.insert 5, Op.insert 15, Op.insert 3, Op.insert 7,
        Op.insert 12, Op.insert 18]) 10).2.contains 10 = false) := by
  constructor
  · intro ops k hk
    have hinv := (run_spec gt t0 ops h0.inv_new).1
    obtain ⟨_, _, _, h4⟩ := remove_spec gt (run gt t0 ops) k hinv
    obtain ⟨h5, h6⟩ := h4 hk
    have hnd : (run gt t0 ops).values.Nodup := hinv.sorted.imp (fun hab => ne_of_lt hab)
    refine ⟨h5, h6, ?_, ?_⟩
    · intro x; rw [h6, hnd.mem_erase_iff]
    · rw [h6]; exact List.erase_sublist _ _
  · have hrun : (remove gt (run gt t0 [Op.insert 10, Op.insert 5, Op.insert 15, Op.insert 3,
        Op.insert 7, Op.insert 12, Op.insert 18]) 10).2 =
        run gt t0 [Op.insert 10, Op.insert 5, Op.insert 15, Op.insert 3, Op.insert 7,
          Op.insert 12, Op.insert 18, Op.remove 10] := rfl
    have hv := run_values gt t0 [Op.insert 10, Op.insert 5, Op.insert 15, Op.insert 3,
      Op.insert 7, Op.insert 12, Op.insert 18, Op.remove 10] h0
    have hm : modelKeys [Op.insert 10, Op.insert 5, Op.insert 15, Op.insert 3,
      Op.insert 7, Op.insert 12, Op.insert 18, Op.remove 10] = [3, 5, 7, 12, 15, 18] := by
      decide
    rw [hrun, hv, hm]
    refine ⟨rfl, ?_⟩
    have hc := contains_iff_mem _ 10 (run_spec gt t0 [Op.insert 10, Op.insert 5, Op.insert 15,
      Op.insert 3, Op.insert 7, Op.insert 12, Op.insert 18, Op.remove 10] h0.inv_new).1
    rw [hv, hm] at hc
    cases hb : (run gt t0 [Op.insert 10, Op.insert 5, Op.insert 15, Op.insert 3, Op.insert 7,
      Op.insert 12, Op.insert 18, Op.remove 10]).contains 10 with
    | false => rfl
    | true => exact absurd (hc.mp hb) (by decide)

theorem remove_present_key_witness :
    NewlyConstructed newOne ∧
    (run gtOne newOne [Op.insert 10, Op.insert 5, Op.insert 15, Op.insert 3, Op.insert 7,
      Op.insert 12, Op.insert 18]).m_root =
      Node.mk 10 7
        (Node.mk 5 3 (Node.mk 3 1 Node.null Node.null) (Node.mk 7 1 Node.null Node.null))
        (Node.mk 15 3 (Node.mk 12 1 Node.null Node.null) (Node.mk 18 1 Node.null Node.null)) ∧
    (remove gtOne (run gtOne newOne [Op.insert 10, Op.insert 5, Op.insert 15, Op.insert 3,
      Op.insert 7, Op.insert 12, Op.insert 18]) 3).2.values = [5, 7, 10, 12, 15, 18] ∧
    (remove gtOne (run gtOne newOne [Op.insert 10, Op.insert 5, Op.insert 15, Op.insert 3,
      Op.insert 7, Op.insert 12, Op.insert 18, Op.remove 3]) 5).2.values = [7, 10, 12, 15, 18] ∧
    (remove gtOne (run gtOne newOne [Op.insert 10, Op.insert 5, Op.insert 15, Op.insert 3,
      Op.insert 7, Op.insert 12, Op.insert 18]) 10).2.values = [3, 5, 7, 12, 15, 18] :=
  ⟨newlyConstructed_one, by decide,
    (((remove_present_key gtOne newOne newlyConstructed_one).1 [Op.insert 10, Op.insert 5,
      Op.insert 15, Op.insert 3, Op.insert 7, Op.insert 12, Op.insert 18] 3
      (by decide)).2.1).trans (by decide),
    (((remove_present_key gtOne newOne newlyConstructed_one).1 [Op.insert 10, Op.insert 5,
      Op.insert 15, Op.insert 3, Op.insert 7, Op.insert 12, Op.insert 18, Op.remove 3] 5
      (by decide)).2.1).trans (by decide),
    (((remove_present_key gtOne newOne newlyConstructed_one).1 [Op.insert 10, Op.insert 5,
      Op.insert 15, Op.insert 3, Op.insert 7, Op.insert 12, Op.insert 18] 10
      (by decide)).2.1).trans (by decide)⟩

/-- C5 (size correctness): on a reachable tree `size()` is the length of `values()`, and
`empty()` is true exactly when `values()` is the empty sequence. -/
theorem size_eq_length_values (gt : Nat → Nat → Double → Bool) (t : ScapegoatTree)
    (hr : Reachable gt t) :
    t.size = t.values.length ∧ (t.empty = true ↔ t.values = []) := by
  have h := hr.inv_reach.size_eq_length
  refine ⟨h, ?_⟩
  unfold empty
  rw [h]
  simp

theorem size_eq_length_values_witness :
    Reachable gtHalf (run gtHalf newHalf [Op.insert 4, Op.insert 2, Op.insert 6, Op.remove 4,
      Op.insert 2]) ∧
    (run gtHalf newHalf [Op.insert 4, Op.insert 2, Op.insert 6, Op.remove 4, Op.insert 2]).size =
      (run gtHalf newHalf [Op.insert 4, Op.insert 2, Op.insert 6, Op.remove 4,
        Op.insert 2]).values.length ∧
    (run gtHalf newHalf [Op.insert 4, Op.insert 2, Op.insert 6, Op.remove 4, Op.insert 2]).size
      = 2 :=
  ⟨Reachable.of_run newlyConstructed_half _,
    (size_eq_length_values gtHalf _ (Reachable.of_run newlyConstructed_half
      [Op.insert 4, Op.insert 2, Op.insert 6, Op.remove 4, Op.insert 2])).1,
    by decide⟩

/-- C6 (insert of a duplicate): on a reachable tree, `insert(k)` of a key that `values()`
already holds returns false and gives back the very same tree: same nodes, same stored
sizes, hence the same `values()` and `size()`. -/
theorem insert_duplicate (gt : Nat → Nat → Double → Bool) (t : ScapegoatTree)
    (hr : Reachable gt t) (k : Int) (hk : k ∈ t.values) :
    (insert gt t k).1 = false ∧ (insert gt t k).2 = t ∧
    (insert gt t k).2.m_root = t.m_root ∧
    (insert gt t k).2.values = t.values ∧ (insert gt t k).2.size = t.size := by
  obtain ⟨_, _, h3, _⟩ := insert_spec gt t k hr.inv_reach
  rw [h3 hk]
  exact ⟨rfl, rfl, rfl, rfl, rfl⟩

theorem insert_duplicate_witness :
    Reachable gtHalf (run gtHalf newHalf [Op.insert 4, Op.insert 2, Op.insert 6]) ∧
    (2 : Int) ∈ (run gtHalf newHalf [Op.insert 4, Op.insert 2, Op.insert 6]).values ∧
    (insert gtHalf (run gtHalf newHalf [Op.insert 4, Op.insert 2, Op.insert 6]) 2).1 = false ∧
    (insert gtHalf (run gtHalf newHalf [Op.insert 4, Op.insert 2, Op.insert 6]) 2).2 =
      run gtHalf newHalf [Op.insert 4, Op.insert 2, Op.insert 6] :=
  ⟨Reachable.of_run newlyConstructed_half _, by decide,
    (insert_duplicate gtHalf _ (Reachable.of_run newlyConstructed_half
      [Op.insert 4, Op.insert 2, Op.insert 6]) 2 (by decide)).1,
    (insert_duplicate gtHalf _ (Reachable.of_run newlyConstructed_half
      [Op.insert 4, Op.insert 2, Op.insert 6]) 2 (by decide)).2.1⟩

/-- C7 (remove of an absent key): on a reachable tree, `remove(k)` of a key that `values()`
does not hold returns false and gives back the very same tree: same nodes, same stored
sizes, hence the same `values()` and `size()`. -/
theorem remove_absent (gt : Nat → Nat → Double → Bool) (t : ScapegoatTree)
    (hr : Reachable gt t) (k : Int) (hk : k ∉ t.values) :
    (remove gt t k).1 = false ∧ (remove gt t k).2 = t ∧
    (remove gt t k).2.m_root = t.m_root ∧
    (remove gt t k).2.values = t.values ∧ (remove gt t k).2.size = t.size := by
  obtain ⟨_, _, h3, _⟩ := remove_spec gt t k hr.inv_reach
  rw [h3 hk]
  exact ⟨rfl, rfl, rfl, rfl, rfl⟩

theorem remove_absent_witness :
    Reachable gtHalf (run gtHalf newHalf [Op.insert 4, Op.insert 2, Op.insert 6]) ∧
    (5 : Int) ∉ (run gtHalf newHalf [Op.insert 4, Op.insert 2, Op.insert 6]).values ∧
    (remove gtHalf (run gtHalf newHalf [Op.insert 4, Op.insert 2, Op.insert 6]) 5).1 = false ∧
    (remove gtHalf (run gtHalf newHalf [Op.insert 4, Op.insert 2, Op.insert 6]) 5).2 =
      run gtHalf newHalf [Op.insert 4, Op.insert 2, Op.insert 6] :=
  ⟨Reachable.of_run newlyConstructed_half _, by decide,
    (remove_absent gtHalf _ (Reachable.of_run newlyConstructed_half
      [Op.insert 4, Op.insert 2, Op.insert 6]) 5 (by decide)).1,
    (remove_absent gtHalf _ (Reachable.of_run newlyConstructed_half
      [Op.insert 4, Op.insert 2, Op.insert 6]) 5 (by decide)).2.1⟩

end ScapegoatTree

namespace ScapegoatTree

open Node

theorem run_inserts_mem (gt : Nat → Nat → Double → Bool) (t : ScapegoatTree) (l : List Int)
    (x : Int) (h : t.TreeInv) :
    x ∈ (run gt t (l.map Op.insert)).values ↔ (x ∈ l ∨ x ∈ t.values) := by
  induction l generalizing t with
  | nil => simp [run]
  | cons a l ih =>
    have hrun : run gt t ((a :: l).map Op.insert) =
        run gt (step gt t (Op.insert a)) (l.map Op.insert) := rfl
    rw [hrun, ih _ (step_spec gt t (Op.insert a) h).1, step_mem gt t (Op.insert a) x h]
    simp only [Op.insert.injEq, List.mem_cons, ne_eq, not_false_eq_true, and_true,
      reduceCtorEq]
    constructor
    · rintro (h1 | h1 | h1)
      · exact Or.inl (Or.inr h1)
      · exact Or.inl (Or.inl h1.symm)
      · exact Or.inr h1
    · rintro ((h1 | h1) | h1)
      · exact Or.inr (Or.inl h1.symm)
      · exact Or.inl h1
      · exact Or.inr (Or.inr h1)

theorem run_inserts_sorted (gt : Nat → Nat → Double → Bool) (t0 : ScapegoatTree)
    (h0 : NewlyConstructed t0) (keys : List Int) (hnd : keys.Nodup) :
    (run gt t0 (keys.map Op.insert)).values = keys.insertionSort (fun a b => a ≤ b) := by
  have hinv := (run_spec gt t0 (keys.map Op.insert) h0.inv_new).1
  have hs := hinv.sorted
  have hnd2 : (run gt t0 (keys.map Op.insert)).values.Nodup := hs.imp (fun hab => ne_of_lt hab)
  have hperm : (run gt t0 (keys.map Op.insert)).values.Perm keys := by
    rw [List.perm_ext_iff_of_nodup hnd2 hnd]
    intro x
    rw [run_inserts_mem gt t0 keys x h0.inv_new, h0.values]
    simp
  have hperm2 : (run gt t0 (keys.map Op.insert)).values.Perm
      (keys.insertionSort (fun a b => a ≤ b)) :=
    hperm.trans (List.perm_insertionSort _ keys).symm
  have hs2 : (run gt t0 (keys.map Op.insert)).values.Sorted (fun a b => a ≤ b) :=
    hs.imp (fun hab => le_of_lt hab)
  exact List.eq_of_perm_of_sorted hperm2 hs2 (List.sorted_insertionSort _ keys)

/-- C8 (alpha validation): `ScapegoatTree(alpha)` throws `invalid_argument` exactly when
`alpha < 0.5` or `alpha > 1.0` holds for the double `alpha`; for a finite `alpha` that is
`q < 1/2` or `1 < q`, so every value of the closed range, both bounds included, is accepted,
and the tree it yields is empty and keeps `alpha`. The defaulted constructor stores 0.8 (the
double nearest to it). The doubles 0.3 and 1.5 are rejected. -/
theorem construct_alpha_validation :
    (∀ alpha : Double, construct alpha = Except.error Exception.invalid_argument ↔
      (Double.lt alpha Double.half = true ∨ Double.gt alpha Double.one = true)) ∧
    (∀ q : ℚ, construct (Double.finite q) = Except.error Exception.invalid_argument ↔
      (q < 1 / 2 ∨ 1 < q)) ∧
    (∀ q : ℚ, 1 / 2 ≤ q → q ≤ 1 →
      construct (Double.finite q) = Except.ok { m_root := Node.null, m_alpha := Double.finite q } ∧
      ({ m_root := Node.null, m_alpha := Double.finite q } : ScapegoatTree).empty = true ∧
      ({ m_root := Node.null, m_alpha := Double.finite q } : ScapegoatTree).values = [] ∧
      ({ m_root := Node.null, m_alpha := Double.finite q } : ScapegoatTree).size = 0) ∧
    (∃ t, construct Double.half = Except.ok t) ∧ (∃ t, construct Double.one = Except.ok t) ∧
    (constructDefault.m_alpha = Double.default_alpha ∧ constructDefault.values = [] ∧
      Double.default_alpha = Double.finite (3602879701896397 / 4503599627370496) ∧
      |(3602879701896397 / 4503599627370496 : ℚ) - 8 / 10| < 1 / 2 ^ 53) ∧
    construct Double.lit_0_3 = Except.error Exception.invalid_argument ∧
    construct Double.lit_1_5 = Except.error Exception.invalid_argument := by
  have hgen : ∀ alpha : Double, construct alpha = Except.error Exception.invalid_argument ↔
      (Double.lt alpha Double.half = true ∨ Double.gt alpha Double.one = true) := by
    intro alpha
    unfold construct checkAlpha
    by_cases hc : (Double.lt alpha Double.half || Double.gt alpha Double.one) = true
    · rw [if_pos hc]
      simpa using hc
    · rw [if_neg hc]
      simp only [Bool.or_eq_true] at hc
      simp [hc]
  have hfin : ∀ q : ℚ, construct (Double.finite q) = Except.error Exception.invalid_argument ↔
      (q < 1 / 2 ∨ 1 < q) := by
    intro q
    rw [hgen]
    simp [Double.lt, Double.gt, Double.half, Double.one]
  refine ⟨hgen, hfin, ?_, ⟨_, construct_half⟩, ⟨_, construct_one⟩, ⟨rfl, rfl, rfl, ?_⟩, ?_, ?_⟩
  · intro q h1 h2
    exact ⟨construct_finite q h1 h2, rfl, rfl, rfl⟩
  · rw [abs_lt]; constructor <;> norm_num
  · exact (hfin _).mpr (Or.inl (by norm_num))
  · exact (hfin _).mpr (Or.inr (by norm_num))

theorem construct_alpha_validation_witness :
    (1 / 2 : ℚ) ≤ 4 / 5 ∧ (4 / 5 : ℚ) ≤ 1 ∧
    construct (Double.finite (4 / 5)) =
      Except.ok { m_root := Node.null, m_alpha := Double.finite (4 / 5) } :=
  ⟨by norm_num, by norm_num,
    (construct_alpha_validation.2.2.1 (4 / 5) (by norm_num) (by norm_num)).1⟩

/-- C9 (round trip, whatever the insertion order): inserting pairwise distinct keys into a
newly constructed tree, in any order, makes `values()` the ascending sort of the keys, so two
orders of the same keys give the same `values()`. In particular every order of
5, 3, 8, 1, 4, 7, 9, 2, 6 gives 1, 2, 3, 4, 5, 6, 7, 8, 9. -/
theorem insert_any_order_sorted (gt : Nat → Nat → Double → Bool) (t0 : ScapegoatTree)
    (h0 : NewlyConstructed t0) :
    (∀ keys : List Int, keys.Nodup → ∀ p : List Int, p.Perm keys →
      (run gt t0 (p.map Op.insert)).values = keys.insertionSort (fun a b => a ≤ b) ∧
      (run gt t0 (p.map Op.insert)).values = (run gt t0 (keys.map Op.insert)).values) ∧
    (∀ p : List Int, p.Perm [5, 3, 8, 1, 4, 7, 9, 2, 6] →
      (run gt t0 (p.map Op.insert)).values = [1, 2, 3, 4, 5, 6, 7, 8, 9]) := by
  have hmain : ∀ keys : List Int, keys.Nodup → ∀ p : List Int, p.Perm keys →
      (run gt t0 (p.map Op.insert)).values = keys.insertionSort (fun a b => a ≤ b) := by
    intro keys hnd p hp
    rw [run_inserts_sorted gt t0 h0 p (hp.nodup_iff.mpr hnd)]
    exact List.eq_of_perm_of_sorted
      (((List.perm_insertionSort _ p).trans hp).trans (List.perm_insertionSort _ keys).symm)
      (List.sorted_insertionSort _ p) (List.sorted_insertionSort _ keys)
  refine ⟨fun keys hnd p hp => ⟨hmain keys hnd p hp, ?_⟩, fun p hp => ?_⟩
  · rw [hmain keys hnd p hp, hmain keys hnd keys (List.Perm.refl _)]
  · rw [hmain [5, 3, 8, 1, 4, 7, 9, 2, 6] (by decide) p hp]
    decide

theorem insert_any_order_sorted_witness :
    NewlyConstructed newHalf ∧
    ([9, 1, 8, 2, 7, 3, 6, 4, 5] : List Int).Perm [5, 3, 8, 1, 4, 7, 9, 2, 6] ∧
    (run gtHalf newHalf (([9, 1, 8, 2, 7, 3, 6, 4, 5] : List Int).map Op.insert)).values =
      [1, 2, 3, 4, 5, 6, 7, 8, 9] :=
  ⟨newlyConstructed_half, by decide,
    (insert_any_order_sorted gtHalf newHalf newlyConstructed_half).2
      [9, 1, 8, 2, 7, 3, 6, 4, 5] (by decide)⟩

/-- C10 (empty-tree behaviour): on every tree whose `empty()` is true, `contains(k)` and
`remove(k)` return false (the tree is left as it is), `values()` is the empty sequence,
`size()` is 0, and `insert(k)` returns true and makes `values()` equal to `[k]`. A newly
constructed tree is such a tree; so is the tree left by removing the only key of a reachable
tree, whose root is the removed node kept with stored size 0; and so is every reachable tree
whose `values()` is empty. -/
theorem empty_tree_behaviour (gt : Nat → Nat → Double → Bool) :
    (∀ t : ScapegoatTree, t.empty = true → ∀ k : Int,
      t.contains k = false ∧ remove gt t k = (false, t) ∧ t.values = [] ∧ t.size = 0 ∧
      (insert gt t k).1 = true ∧ (insert gt t k).2.values = [k]) ∧
    (∀ t0 : ScapegoatTree, NewlyConstructed t0 → t0.empty = true) ∧
    (∀ t : ScapegoatTree, Reachable gt t → ∀ k : Int, t.values = [k] →
      (remove gt t k).2.m_root = Node.mk k 0 Node.null Node.null ∧
      (remove gt t k).2.empty = true) ∧
    (∀ t : ScapegoatTree, Reachable gt t → t.values = [] → t.empty = true) := by
  refine ⟨?_, ?_, ?_, ?_⟩
  · intro t he k
    refine ⟨by simp [contains, he], by simp [remove, he], values_of_empty t he, ?_, ?_, ?_⟩
    · simpa [empty] using he
    · rw [insert_of_empty gt t k he]
    · rw [insert_of_empty gt t k he, values_eq]
      exact new_values k
  · intro t0 h0
    rw [empty_iff, h0.root_null]
    rfl
  · intro t hr k hv
    have h := remove_last gt t k hr.inv_reach hv
    refine ⟨h, ?_⟩
    rw [empty_iff, h]
    rfl
  · intro t hr hv
    unfold empty
    rw [hr.inv_reach.size_eq_length, hv]
    rfl

theorem empty_tree_behaviour_witness :
    (run gtHalf newHalf [Op.insert 5, Op.remove 5]).m_root = Node.mk 5 0 Node.null Node.null ∧
    (run gtHalf newHalf [Op.insert 5, Op.remove 5]).empty = true ∧
    (run gtHalf newHalf [Op.insert 5, Op.remove 5]).contains 5 = false ∧
    (insert gtHalf (run gtHalf newHalf [Op.insert 5, Op.remove 5]) 7).2.values = [7] :=
  ⟨by decide, by decide,
    ((empty_tree_behaviour gtHalf).1 (run gtHalf newHalf [Op.insert 5, Op.remove 5])
      (by decide) 5).1,
    ((empty_tree_behaviour gtHalf).1 (run gtHalf newHalf [Op.insert 5, Op.remove 5])
      (by decide) 7).2.2.2.2.2⟩

end ScapegoatTree

/-! ## Stored sizes of reachable trees -/

namespace ScapegoatTree

open Node

theorem sizeOK_hasZeroSize {n : Node} (h : n.SizeOK) : n.hasZeroSize = false := by
  induction n with
  | null => rfl
  | mk v s l r ihl ihr =>
    obtain ⟨h1, h2, h3⟩ := h
    have hs : s ≠ 0 := by omega
    simp [hasZeroSize, hs, ihl h2, ihr h3]

theorem sizeOK_sizeConsistent {n : Node} (h : n.SizeOK) : n.SizeConsistent := by
  induction n with
  | null => trivial
  | mk v s l r ihl ihr =>
    obtain ⟨h1, h2, h3⟩ := h
    exact ⟨fun _ => h1, ihl h2, ihr h3⟩

theorem step_strong (gt : Nat → Nat → Double → Bool) (t : ScapegoatTree) (op : Op)
    (h : t.TreeInv) (hs : t.StrongInv) : (step gt t op).StrongInv := by
  cases op with
  | insert k =>
    obtain ⟨h1, _, h3, h4⟩ := insert_spec gt t k h
    by_cases hk : k ∈ t.values
    · simp only [step]; rw [h3 hk]; exact hs
    · obtain ⟨_, h6⟩ := h4 hk
      simp only [step]
      cases h1 with
      | inl h0 =>
        exfalso
        rw [values_eq, values_of_size_zero _ h0] at h6
        have := congrArg List.length h6
        rw [List.orderedInsert_length] at this
        simp at this
      | inr hinv => exact Or.inr hinv.1
  | remove k =>
    obtain ⟨h1, _, h3, h4⟩ := remove_spec gt t k h
    by_cases hk : k ∈ t.values
    · obtain ⟨_, h6⟩ := h4 hk
      simp only [step]
      cases h1 with
      | inl h0 =>
        left
        rw [values_eq, values_of_size_zero _ h0] at h6
        have hlen : t.values.length = 1 := by
          have := congrArg List.length h6
          rw [List.length_erase_of_mem hk] at this
          have hpos : 0 < t.values.length := List.length_pos_of_mem hk
          simp at this
          omega
        have hv : t.values = [k] := by
          cases hvals : t.values with
          | nil => rw [hvals] at hlen; cases hlen
          | cons a rest =>
            rw [hvals] at hlen hk
            cases rest with
            | nil =>
              simp only [List.mem_singleton] at hk
              rw [hk]
            | cons b rest2 => simp at hlen
        exact ⟨k, remove_last gt t k h hv⟩
      | inr hinv => exact Or.inr hinv.1
    · simp only [step]; rw [h3 hk]; exact hs

theorem run_strong (gt : Nat → Nat → Double → Bool) (t : ScapegoatTree) (ops : List Op)
    (h : t.TreeInv) (hs : t.StrongInv) : (run gt t ops).StrongInv := by
  induction ops generalizing t with
  | nil => exact hs
  | cons op ops ih =>
    exact ih (step gt t op) (step_spec gt t op h).1 (step_strong gt t op h hs)

theorem Reachable.strong {gt : Nat → Nat → Double → Bool} {t : ScapegoatTree}
    (h : Reachable gt t) : t.StrongInv := by
  obtain ⟨t0, ops, h0, rfl⟩ := h
  refine run_strong gt t0 ops h0.inv_new (Or.inr ?_)
  rw [h0.root_null]
  trivial

theorem Reachable.remove_reach {gt : Nat → Nat → Double → Bool} {t : ScapegoatTree}
    (h : Reachable gt t) (k : Int) : Reachable gt (remove gt t k).2 := by
  obtain ⟨t0, ops, h0, rfl⟩ := h
  refine ⟨t0, ops ++ [Op.remove k], h0, ?_⟩
  rw [run_append]
  rfl

theorem Reachable.insert_reach {gt : Nat → Nat → Double → Bool} {t : ScapegoatTree}
    (h : Reachable gt t) (k : Int) : Reachable gt (insert gt t k).2 := by
  obtain ⟨t0, ops, h0, rfl⟩ := h
  refine ⟨t0, ops ++ [Op.insert k], h0, ?_⟩
  rw [run_append]
  rfl

/-- C12 (size consistency): in every reachable tree, every node with a stored size above 0
has the size `1 + size(left) + size(right)`, an absent child counting 0. The nodes on the
successor descent of a two-children removal are nodes of the tree that removal returns, so
they are covered. -/
theorem size_consistency (gt : Nat → Nat → Double → Bool) (t : ScapegoatTree)
    (hr : Reachable gt t) :
    t.m_root.SizeConsistent ∧
    (∀ k : Int, (remove gt t k).2.m_root.SizeConsistent) ∧
    (∀ k : Int, (insert gt t k).2.m_root.SizeConsistent) := by
  have key : ∀ u : ScapegoatTree, Reachable gt u → u.m_root.SizeConsistent := by
    intro u hu
    rcases hu.strong with ⟨v, hv⟩ | hok
    · rw [hv]
      exact ⟨fun h => absurd h (lt_irrefl 0), trivial, trivial⟩
    · exact sizeOK_sizeConsistent hok
  exact ⟨key t hr, fun k => key _ (hr.remove_reach k), fun k => key _ (hr.insert_reach k)⟩

theorem size_consistency_witness :
    Reachable gtOne (run gtOne newOne [Op.insert 10, Op.insert 5, Op.insert 20, Op.insert 15,
      Op.insert 25, Op.insert 12, Op.insert 17]) ∧
    (remove gtOne (run gtOne newOne [Op.insert 10, Op.insert 5, Op.insert 20, Op.insert 15,
      Op.insert 25, Op.insert 12, Op.insert 17]) 10).2.m_root =
      Node.mk 12 6 (Node.mk 5 1 Node.null Node.null)
        (Node.mk 20 4
          (Node.mk 15 2 Node.null (Node.mk 17 1 Node.null Node.null))
          (Node.mk 25 1 Node.null Node.null)) ∧
    (remove gtOne (run gtOne newOne [Op.insert 10, Op.insert 5, Op.insert 20, Op.insert 15,
      Op.insert 25, Op.insert 12, Op.insert 17]) 10).2.m_root.SizeConsistent :=
  ⟨Reachable.of_run newlyConstructed_one _, by decide,
    (size_consistency gtOne _ (Reachable.of_run newlyConstructed_one
      [Op.insert 10, Op.insert 5, Op.insert 20, Op.insert 15, Op.insert 25, Op.insert 12,
        Op.insert 17])).2.1 10⟩

/-- C13, as the claim states it, fails: removing the only key of a tree returns true and
leaves the root in the tree with stored size 0. -/
theorem tombstone_root_remains :
    Reachable gtHalf (run gtHalf newHalf [Op.insert 5]) ∧
    (remove gtHalf (run gtHalf newHalf [Op.insert 5]) 5).1 = true ∧
    (remove gtHalf (run gtHalf newHalf [Op.insert 5]) 5).2.m_root =
      Node.mk 5 0 Node.null Node.null ∧
    (remove gtHalf (run gtHalf newHalf [Op.insert 5]) 5).2.m_root.hasZeroSize = true :=
  ⟨Reachable.of_run newlyConstructed_half _, by decide, by decide, by decide⟩

/-- C13, amended: when `remove` returns on a reachable tree, no node other than the root has
stored size 0. The root has stored size 0 only as a childless node of a tree that lists no
key, and the removal of the only key of a tree leaves exactly that. -/
theorem tombstones_only_at_root (gt : Nat → Nat → Double → Bool) (t : ScapegoatTree)
    (hr : Reachable gt t) (k : Int) :
    (∀ v s l r, (remove gt t k).2.m_root = Node.mk v s l r →
      l.hasZeroSize = false ∧ r.hasZeroSize = false) ∧
    ((remove gt t k).2.m_root.hasZeroSize = true →
      (∃ v, (remove gt t k).2.m_root = Node.mk v 0 Node.null Node.null) ∧
        (remove gt t k).2.values = []) ∧
    (t.values = [k] → (remove gt t k).2.m_root = Node.mk k 0 Node.null Node.null) := by
  have hs := (hr.remove_reach k).strong
  refine ⟨?_, ?_, fun hv => remove_last gt t k hr.inv_reach hv⟩
  · intro v s l r hroot
    rcases hs with ⟨w, hw⟩ | hok
    · rw [hw] at hroot
      cases hroot
      exact ⟨rfl, rfl⟩
    · rw [hroot] at hok
      exact ⟨sizeOK_hasZeroSize hok.2.1, sizeOK_hasZeroSize hok.2.2⟩
  · intro hz
    rcases hs with ⟨w, hw⟩ | hok
    · refine ⟨⟨w, hw⟩, ?_⟩
      rw [values_eq, hw]
      exact values_of_size_zero _ rfl
    · rw [sizeOK_hasZeroSize hok] at hz
      cases hz

theorem tombstones_only_at_root_witness :
    Reachable gtHalf (run gtHalf newHalf [Op.insert 5, Op.insert 3, Op.insert 8]) ∧
    (remove gtHalf (run gtHalf newHalf [Op.insert 5, Op.insert 3, Op.insert 8]) 3).2.m_root =
      Node.mk 5 2 Node.null (Node.mk 8 1 Node.null Node.null) ∧
    (Node.null.hasZeroSize = false ∧ (Node.mk 8 1 Node.null Node.null).hasZeroSize = false) :=
  ⟨Reachable.of_run newlyConstructed_half _, by decide,
    (tombstones_only_at_root gtHalf _ (Reachable.of_run newlyConstructed_half
      [Op.insert 5, Op.insert 3, Op.insert 8]) 3).1 5 2 Node.null
      (Node.mk 8 1 Node.null Node.null) (by decide)⟩

end ScapegoatTree

/-! ## What `buildRecursive` returns -/

namespace Node

theorem SizeOK.keys_eq {n : Node} (h : n.SizeOK) : n.keys = n.values := by
  induction n with
  | null => rfl
  | mk v s l r ihl ihr =>
    rw [h.values_node]
    obtain ⟨_, h2, h3⟩ := h
    simp only [keys]
    rw [ihl h2, ihr h3]

theorem SizeOK.count_eq {n : Node} (h : n.SizeOK) : n.count = n.size := by
  induction n with
  | null => rfl
  | mk v s l r ihl ihr =>
    obtain ⟨h1, h2, h3⟩ := h
    simp only [count, Node.size]
    rw [ihl h2, ihr h3, h1]

end Node

namespace ScapegoatTree

open Node

theorem buildRecursive_size (e : List Int) (a b : Nat) (hab : a ≤ b) (hb : b ≤ e.length) :
    (buildRecursive e (a : Int) ((b : Int) - 1)).size = b - a := by
  obtain ⟨h1, h2, _⟩ := buildRecursive_spec e a b hab hb
  rw [h2.node_size_eq, h1]
  simp
  omega

theorem tdiv_mid (a b : Nat) (hab : a < b) :
    Int.tdiv ((a : Int) + ((b : Int) - 1)) 2 = (((a + b - 1) / 2 : Nat) : Int) := by
  rw [Int.tdiv_eq_ediv (by omega) (by omega)]
  omega

theorem buildRecursive_step (e : List Int) (a b : Nat) (hab : a < b) :
    buildRecursive e (a : Int) ((b : Int) - 1) =
      Node.mk (e.getD ((a + b - 1) / 2) 0)
        (1 + (buildRecursive e (a : Int) ((((a + b - 1) / 2 : Nat) : Int) - 1)).size +
          (buildRecursive e ((((a + b - 1) / 2 + 1 : Nat) : Int)) ((b : Int) - 1)).size)
        (buildRecursive e (a : Int) ((((a + b - 1) / 2 : Nat) : Int) - 1))
        (buildRecursive e ((((a + b - 1) / 2 + 1 : Nat) : Int)) ((b : Int) - 1)) := by
  have hgt : ¬ ((a : Int) > (b : Int) - 1) := by omega
  rw [buildRecursive_unfold, if_neg hgt, tdiv_mid a b hab]
  have hcast : (((a + b - 1) / 2 : Nat) : Int) + 1 = (((a + b - 1) / 2 + 1 : Nat) : Int) := by
    push_cast; rfl
  rw [hcast, Int.toNat_ofNat]

theorem buildRecursive_empty (e : List Int) (l r : Int) (h : l > r) :
    buildRecursive e l r = null := by
  rw [buildRecursive_unfold, if_pos h]

theorem buildRecursive_sizeBalanced (e : List Int) (n : Nat) :
    ∀ a b : Nat, b - a ≤ n → a ≤ b → b ≤ e.length →
      (buildRecursive e (a : Int) ((b : Int) - 1)).SizeBalanced := by
  induction n with
  | zero =>
    intro a b h1 h2 _
    have : a = b := by omega
    subst this
    rw [buildRecursive_empty e _ _ (by omega)]
    trivial
  | succ n ih =>
    intro a b h1 h2 h3
    by_cases hab : a = b
    · subst hab
      rw [buildRecursive_empty e _ _ (by omega)]
      trivial
    · have hlt : a < b := by omega
      rw [buildRecursive_step e a b hlt]
      have hm1 : a ≤ (a + b - 1) / 2 := by omega
      have hm2 : (a + b - 1) / 2 < b := by omega
      refine ⟨?_, ?_, ih a _ (by omega) hm1 (by omega), ih _ b (by omega) (by omega) h3⟩
      · rw [buildRecursive_size e a _ hm1 (by omega), buildRecursive_size e _ b (by omega) h3]
        omega
      · rw [buildRecursive_size e a _ hm1 (by omega), buildRecursive_size e _ b (by omega) h3]
        omega

theorem count_lt_pow_height (t : Node) : t.count < 2 ^ t.height := by
  induction t with
  | null => simp [count, height]
  | mk v s l r ihl ihr =>
    simp only [count, height]
    have h1 : 2 ^ l.height ≤ 2 ^ max l.height r.height :=
      Nat.pow_le_pow_right (by omega) (le_max_left _ _)
    have h2 : 2 ^ r.height ≤ 2 ^ max l.height r.height :=
      Nat.pow_le_pow_right (by omega) (le_max_right _ _)
    have h3 : 2 ^ (1 + max l.height r.height) = 2 * 2 ^ max l.height r.height := by
      rw [Nat.add_comm, pow_succ, Nat.mul_comm]
    omega

theorem pow_height_le (t : Node) (hs : t.SizeOK) (hb : t.SizeBalanced) (hne : t ≠ null) :
    2 ^ t.height ≤ 2 * t.size := by
  induction t with
  | null => exact absurd rfl hne
  | mk v s l r ihl ihr =>
    obtain ⟨s1, s2, s3⟩ := hs
    obtain ⟨b1, b2, b3, b4⟩ := hb
    have hl : 2 ^ l.height ≤ s := by
      by_cases hln : l = null
      · subst hln; simp only [height, pow_zero]; omega
      · have := ihl s2 b3 hln
        omega
    have hr : 2 ^ r.height ≤ s := by
      by_cases hrn : r = null
      · subst hrn; simp only [height, pow_zero]; omega
      · have := ihr s3 b4 hrn
        omega
    simp only [height, Node.size]
    have h3 : 2 ^ (1 + max l.height r.height) = 2 * 2 ^ max l.height r.height := by
      rw [Nat.add_comm, pow_succ, Nat.mul_comm]
    rw [h3]
    rcases le_total l.height r.height with h | h
    · rw [max_eq_right h]; omega
    · rw [max_eq_left h]; omega

theorem sizeBalanced_exact (t : Node) (hs : t.SizeOK) (hb : t.SizeBalanced) (q : ℚ)
    (hq : 1 / 2 ≤ q) : ExactBalanced q t := by
  induction t with
  | null => trivial
  | mk v s l r ihl ihr =>
    obtain ⟨s1, s2, s3⟩ := hs
    obtain ⟨b1, b2, b3, b4⟩ := hb
    have hl : 2 * l.size ≤ s := by omega
    have hr : 2 * r.size ≤ s := by omega
    have hlq : (2 : ℚ) * l.size ≤ s := by exact_mod_cast hl
    have hrq : (2 : ℚ) * r.size ≤ s := by exact_mod_cast hr
    have hs0 : (0 : ℚ) ≤ s := by exact_mod_cast Nat.zero_le s
    have hqs : (1 / 2 : ℚ) * s ≤ q * s := mul_le_mul_of_nonneg_right hq hs0
    refine ⟨?_, ?_, ihl s2 b3, ihr s3 b4⟩
    · intro h; linarith
    · intro h; linarith

theorem sizeBalanced_allBalanced (gt : Nat → Nat → Double → Bool) (alpha : Double)
    (hv : GtValid gt alpha) (t : Node) (hs : t.SizeOK) (hb : t.SizeBalanced) :
    AllBalanced gt alpha t := by
  induction t with
  | null => trivial
  | mk v s l r ihl ihr =>
    obtain ⟨s1, s2, s3⟩ := hs
    obtain ⟨b1, b2, b3, b4⟩ := hb
    refine ⟨?_, ihl s2 b3, ihr s3 b4⟩
    have hl : gt l.size s alpha = false := by
      cases hg : gt l.size s alpha with
      | false => rfl
      | true => have := hv.half _ _ hg; omega
    have hr : gt r.size s alpha = false := by
      cases hg : gt r.size s alpha with
      | false => rfl
      | true => have := hv.half _ _ hg; omega
    simp [unbalancedDescendants, hl, hr]

/-- C14 (balanced build): for a strictly ascending `e` and `0 ≤ l ≤ r < length(e)`,
`buildRecursive(e, l, r)` (a total function that obeys the recursion of the source, see
`buildRecursive_unfold`) returns a node whose key is `e[(l + r) / 2]`, whose in-order listing
is `e[l..r]`, which is a binary search tree, and in which every stored size is 1 plus the
sizes of the children; for `l > r` it returns `nullptr`. -/
theorem buildRecursive_balanced_build (e : List Int) (hs : e.Sorted (fun a b => a < b)) :
    (∀ l r : Nat, l ≤ r → r < e.length →
      (∃ s left right, buildRecursive e (l : Int) (r : Int) =
          Node.mk (e.getD ((l + r) / 2) 0) s left right ∧
        e[(l + r) / 2]? = some (e.getD ((l + r) / 2) 0) ∧
        (∀ x ∈ left.keys, x < e.getD ((l + r) / 2) 0) ∧
        (∀ x ∈ right.keys, e.getD ((l + r) / 2) 0 < x)) ∧
      (buildRecursive e (l : Int) (r : Int)).keys = (e.take (r + 1)).drop l ∧
      (buildRecursive e (l : Int) (r : Int)).values = (e.take (r + 1)).drop l ∧
      (buildRecursive e (l : Int) (r : Int)).IsBST ∧
      (buildRecursive e (l : Int) (r : Int)).SizeOK ∧
      (buildRecursive e (l : Int) (r : Int)).size = r + 1 - l) ∧
    (∀ l r : Int, l > r → buildRecursive e l r = Node.null) := by
  refine ⟨?_, fun l r h => buildRecursive_empty e l r h⟩
  intro l r hlr hr
  have hcast : ((r + 1 : Nat) : Int) - 1 = (r : Int) := by push_cast; omega
  obtain ⟨h1, h2, _⟩ := buildRecursive_spec e l (r + 1) (by omega) (by omega)
  have hsz := buildRecursive_size e l (r + 1) (by omega) (by omega)
  have hstep := buildRecursive_step e l (r + 1) (by omega)
  rw [hcast] at h1 h2 hsz hstep
  have hsorted : ((e.take (r + 1)).drop l).Pairwise (fun a b => a < b) :=
    (hs.sublist (List.take_sublist _ _)).sublist (List.drop_sublist _ _)
  have hmid : (l + (r + 1) - 1) / 2 = (l + r) / 2 := by
    have : l + (r + 1) - 1 = l + r := by omega
    rw [this]
  rw [hmid] at hstep
  have hbst : (buildRecursive e (l : Int) (r : Int)).IsBST := by
    unfold IsBST
    rw [h2.keys_eq, h1]
    exact hsorted
  refine ⟨⟨_, _, _, hstep, ?_, ?_, ?_⟩, by rw [h2.keys_eq, h1], h1, hbst, h2, hsz⟩
  · have hlt : (l + r) / 2 < e.length := by omega
    simp [List.getD_eq_getElem?_getD, List.getElem?_eq_getElem hlt]
  · intro x hx
    have hb := hbst
    unfold IsBST at hb
    rw [hstep] at hb
    simp only [keys] at hb
    rw [List.pairwise_append] at hb
    exact hb.2.2 x hx _ (by simp)
  · intro x hx
    have hb := hbst
    unfold IsBST at hb
    rw [hstep] at hb
    simp only [keys] at hb
    rw [List.pairwise_append, List.pairwise_cons] at hb
    exact hb.2.1.1 x hx

theorem buildRecursive_balanced_build_witness :
    ([1, 3, 5, 7, 9, 11] : List Int).Sorted (fun a b => a < b) ∧
    buildRecursive [1, 3, 5, 7, 9, 11] 1 4 =
      Node.mk 5 4 (Node.mk 3 1 Node.null Node.null)
        (Node.mk 7 2 Node.null (Node.mk 9 1 Node.null Node.null)) ∧
    (buildRecursive [1, 3, 5, 7, 9, 11] ((1 : Nat) : Int) ((4 : Nat) : Int)).values =
      [3, 5, 7, 9] :=
  ⟨by decide, by decide,
    (((buildRecursive_balanced_build [1, 3, 5, 7, 9, 11] (by decide)).1 1 4 (by decide)
      (by decide)).2.2.1).trans (by decide)⟩

/-- C15 (a rebuilt subtree is balanced everywhere): for `n ≥ 1` keys `e`, in the tree
`buildRecursive(e, 0, n - 1)` the stored sizes of the two children of every node differ by at
most 1, the tree has `n` nodes and no tree with `n` nodes is less high, and for every `q` with
`1/2 ≤ q ≤ 1` no node has a child `c` with `size(c) > q * size(node)` in exact arithmetic;
the test of `unbalancedDescendants` fails at every node too, for every machine comparison
that can only be true when `c > n / 2`. -/
theorem rebuilt_subtree_balanced (e : List Int) (hn : 1 ≤ e.length) :
    (buildRecursive e 0 ((e.length : Int) - 1)).SizeBalanced ∧
    (buildRecursive e 0 ((e.length : Int) - 1)).count = e.length ∧
    (∀ t : Node, t.count = e.length →
      (buildRecursive e 0 ((e.length : Int) - 1)).height ≤ t.height) ∧
    (∀ q : ℚ, 1 / 2 ≤ q → q ≤ 1 → ExactBalanced q (buildRecursive e 0 ((e.length : Int) - 1))) ∧
    (∀ (gt : Nat → Nat → Double → Bool) (alpha : Double), GtValid gt alpha →
      AllBalanced gt alpha (buildRecursive e 0 ((e.length : Int) - 1))) := by
  have hb := buildRecursive_sizeBalanced e e.length 0 e.length (by omega) (Nat.zero_le _)
    (le_refl _)
  obtain ⟨_, hok, hnull⟩ := buildRecursive_spec e 0 e.length (Nat.zero_le _) (le_refl _)
  have hsz := buildRecursive_size e 0 e.length (Nat.zero_le _) (le_refl _)
  simp only [Nat.cast_zero, Nat.sub_zero] at hb hok hnull hsz
  have hne : buildRecursive e 0 ((e.length : Int) - 1) ≠ null := by
    intro h; have := hnull.mp h; omega
  have hcount : (buildRecursive e 0 ((e.length : Int) - 1)).count = e.length := by
    rw [hok.count_eq, hsz]
  refine ⟨hb, hcount, ?_, fun q h1 _ => sizeBalanced_exact _ hok hb q h1,
    fun gt alpha hv => sizeBalanced_allBalanced gt alpha hv _ hok hb⟩
  intro t ht
  have h1 := pow_height_le _ hok hb hne
  have h2 := count_lt_pow_height t
  rw [hsz] at h1
  rw [ht] at h2
  have h3 : 2 ^ (buildRecursive e 0 ((e.length : Int) - 1)).height < 2 ^ (t.height + 1) := by
    rw [pow_succ]; omega
  have h4 := (Nat.pow_lt_pow_iff_right (by omega : 1 < 2)).mp h3
  omega

theorem rebuilt_subtree_balanced_witness :
    1 ≤ ([4, 8, 15, 16, 23, 42] : List Int).length ∧
    buildRecursive [4, 8, 15, 16, 23, 42] 0 5 =
      Node.mk 15 6 (Node.mk 4 2 Node.null (Node.mk 8 1 Node.null Node.null))
        (Node.mk 23 3 (Node.mk 16 1 Node.null Node.null) (Node.mk 42 1 Node.null Node.null)) ∧
    (buildRecursive [4, 8, 15, 16, 23, 42] 0
      ((([4, 8, 15, 16, 23, 42] : List Int).length : Int) - 1)).SizeBalanced :=
  ⟨by decide, by decide, (rebuilt_subtree_balanced [4, 8, 15, 16, 23, 42] (by decide)).1⟩

end ScapegoatTree

/-! ## Positions in a tree, the rebuild in place, and the lookup -/

namespace ScapegoatTree

open Node

theorem childAt_null (path : List Dir) : childAt path null = null := by
  cases path with
  | nil => rfl
  | cons d path => cases d <;> rfl

theorem childAt_sizeOK (path : List Dir) (t : Node) (h : t.SizeOK) :
    (childAt path t).SizeOK := by
  induction path generalizing t with
  | nil => exact h
  | cons d path ih =>
    cases t with
    | null => rw [childAt_null]; trivial
    | mk v s l r =>
      cases d
      · exact ih l h.2.1
      · exact ih r h.2.2

theorem childAt_modifyAt (f : Node → Node) (hf : f null = null) (path : List Dir) (t : Node) :
    childAt path (modifyAt f path t) = f (childAt path t) := by
  induction path generalizing t with
  | nil => rfl
  | cons d path ih =>
    cases t with
    | null =>
      have : modifyAt f (d :: path) null = null := by cases d <;> rfl
      rw [this, childAt_null, hf]
    | mk v s l r =>
      cases d
      · exact ih l
      · exact ih r

theorem labelAt_modifyAt (f : Node → Node) (path q : List Dir) (t : Node)
    (hq : ¬ path <+: q) : labelAt q (modifyAt f path t) = labelAt q t := by
  induction path generalizing q t with
  | nil => exact absurd (List.nil_prefix) hq
  | cons d path ih =>
    cases t with
    | null =>
      have : modifyAt f (d :: path) null = null := by cases d <;> rfl
      rw [this]
    | mk v s l r =>
      cases q with
      | nil => cases d <;> rfl
      | cons e q =>
        cases d <;> cases e
        · have hq2 : ¬ path <+: q := fun h => hq ((List.cons_prefix_cons).mpr ⟨rfl, h⟩)
          have := ih q l hq2
          simpa [labelAt, modifyAt, childAt] using this
        · rfl
        · rfl
        · have hq2 : ¬ path <+: q := fun h => hq ((List.cons_prefix_cons).mpr ⟨rfl, h⟩)
          have := ih q r hq2
          simpa [labelAt, modifyAt, childAt] using this

theorem modifyAt_keys (f : Node → Node) (path : List Dir) (t : Node)
    (hf : (f (childAt path t)).keys = (childAt path t).keys) :
    (modifyAt f path t).keys = t.keys := by
  induction path generalizing t with
  | nil => exact hf
  | cons d path ih =>
    cases t with
    | null => cases d <;> rfl
    | mk v s l r =>
      cases d
      · simp only [modifyAt, keys]
        rw [ih l hf]
      · simp only [modifyAt, keys]
        rw [ih r hf]

theorem buildBalanced_keys (n : Node) (h : n.SizeOK) : (buildBalanced n).keys = n.keys := by
  rw [(buildBalanced_sizeOK n h).keys_eq, h.keys_eq, buildBalanced_values]

/-- C16 (rebuild frame): in a size-consistent tree, `buildBalanced` at the node `s` found at
a position `path` (any such node, so also one with a child) keeps the in-order listing and
the stored size of the subtree of `s`, keeps `s` at its position (its parent link), and
keeps key, stored size and presence of every node at a position outside the subtree of `s`;
so `values()` of the whole tree is the same, the sizes stay consistent, and a binary search
tree stays one. -/
theorem buildBalanced_frame (t : Node) (hs : t.SizeOK) (path : List Dir)
    (v : Int) (s : Nat) (l r : Node) (hat : childAt path t = Node.mk v s l r) :
    (buildBalanced (Node.mk v s l r)).values = (Node.mk v s l r).values ∧
    (buildBalanced (Node.mk v s l r)).keys = (Node.mk v s l r).keys ∧
    (buildBalanced (Node.mk v s l r)).size = s ∧
    childAt path (modifyAt buildBalanced path t) = buildBalanced (Node.mk v s l r) ∧
    (∃ v2 l2 r2, childAt path (modifyAt buildBalanced path t) = Node.mk v2 s l2 r2) ∧
    (∀ q : List Dir, ¬ path <+: q →
      labelAt q (modifyAt buildBalanced path t) = labelAt q t) ∧
    (modifyAt buildBalanced path t).values = t.values ∧
    (modifyAt buildBalanced path t).keys = t.keys ∧
    (modifyAt buildBalanced path t).SizeOK ∧
    (t.IsBST → (modifyAt buildBalanced path t).IsBST) := by
  have hsub : (Node.mk v s l r).SizeOK := by
    rw [← hat]; exact childAt_sizeOK path t hs
  have hk : (modifyAt buildBalanced path t).keys = t.keys := by
    apply modifyAt_keys
    rw [hat]
    exact buildBalanced_keys _ hsub
  have hc : childAt path (modifyAt buildBalanced path t) = buildBalanced (Node.mk v s l r) := by
    rw [childAt_modifyAt buildBalanced buildBalanced_null, hat]
  have hsize : (buildBalanced (Node.mk v s l r)).size = s := buildBalanced_size _
  refine ⟨buildBalanced_values _, buildBalanced_keys _ hsub, hsize, hc, ?_,
    fun q hq => labelAt_modifyAt buildBalanced path q t hq,
    modifyAt_values buildBalanced buildBalanced_values path t, hk,
    modifyAt_sizeOK buildBalanced buildBalanced_size buildBalanced_sizeOK path t hs, ?_⟩
  · rw [hc]
    cases hB : buildBalanced (Node.mk v s l r) with
    | null =>
      rw [hB] at hsize
      have := hsub.size_pos (by simp)
      simp only [Node.size] at this hsize
      omega
    | mk v2 s2 l2 r2 =>
      rw [hB] at hsize
      simp only [Node.size] at hsize
      subst hsize
      exact ⟨v2, l2, r2, rfl⟩
  · intro hb
    unfold IsBST at hb ⊢
    rw [hk]
    exact hb

theorem buildBalanced_frame_witness :
    childAt [Dir.right]
      (Node.mk 1 4 Node.null (Node.mk 2 3 Node.null (Node.mk 3 2 Node.null
        (Node.mk 4 1 Node.null Node.null)))) =
      Node.mk 2 3 Node.null (Node.mk 3 2 Node.null (Node.mk 4 1 Node.null Node.null)) ∧
    modifyAt buildBalanced [Dir.right]
      (Node.mk 1 4 Node.null (Node.mk 2 3 Node.null (Node.mk 3 2 Node.null
        (Node.mk 4 1 Node.null Node.null)))) =
      Node.mk 1 4 Node.null (Node.mk 3 3 (Node.mk 2 1 Node.null Node.null)
        (Node.mk 4 1 Node.null Node.null)) ∧
    (modifyAt buildBalanced [Dir.right]
      (Node.mk 1 4 Node.null (Node.mk 2 3 Node.null (Node.mk 3 2 Node.null
        (Node.mk 4 1 Node.null Node.null))))).values = [1, 2, 3, 4] :=
  ⟨by decide, by decide,
    ((buildBalanced_frame
      (Node.mk 1 4 Node.null (Node.mk 2 3 Node.null (Node.mk 3 2 Node.null
        (Node.mk 4 1 Node.null Node.null))))
      ⟨rfl, trivial, rfl, trivial, rfl, trivial, rfl, trivial, trivial⟩
      [Dir.right] 2 3 Node.null
      (Node.mk 3 2 Node.null (Node.mk 4 1 Node.null Node.null)) (by decide)).2.2.2.2.2.2.1).trans
      (by decide)⟩

theorem isBST_mk {v : Int} {s : Nat} {l r : Node} (h : (Node.mk v s l r).IsBST) :
    l.IsBST ∧ r.IsBST ∧ (∀ x ∈ l.keys, x < v) ∧ (∀ x ∈ r.keys, v < x) := by
  unfold IsBST at h
  simp only [keys] at h
  rw [List.pairwise_append, List.pairwise_cons] at h
  obtain ⟨p1, ⟨p2, p3⟩, p4⟩ := h
  exact ⟨p1, p3, fun x hx => p4 x hx v (by simp), p2⟩

theorem dirsOf_cons (f : Frame) (ps : List Frame) : dirsOf (f :: ps) = dirsOf ps ++ [f.dir] := by
  simp [dirsOf]

theorem find_bst (k : Int) (n : Node) (ps : List Frame) (hn : n ≠ null) (hb : n.IsBST) :
    ∃ v s l r path,
      (findElementOrAncestor n k ps).node = Node.mk v s l r ∧
      childAt path n = Node.mk v s l r ∧
      dirsOf (findElementOrAncestor n k ps).parents = dirsOf ps ++ path ∧
      (findElementOrAncestor n k ps).root = NodePtr.root ⟨n, ps⟩ ∧
      v ∈ n.keys ∧
      (k ∈ n.keys → v = k) ∧
      (v = k ∨ (v < k ∧ r = null) ∨ (k < v ∧ l = null)) ∧
      (∀ x ∈ n.keys, ¬ (v < x ∧ x < k) ∧ ¬ (k < x ∧ x < v)) := by
  induction n generalizing ps with
  | null => exact absurd rfl hn
  | mk v s l r ihl ihr =>
    obtain ⟨bl, br, hlv, hrv⟩ := isBST_mk hb
    by_cases hvk : v = k
    · refine ⟨v, s, l, r, [], ?_, rfl, ?_, ?_, by simp [keys], fun _ => hvk, Or.inl hvk, ?_⟩
      · simp [findElementOrAncestor, hvk]
      · simp [findElementOrAncestor, hvk]
      · simp [findElementOrAncestor, hvk]
      · intro x _
        subst hvk
        exact ⟨fun h => absurd (lt_trans h.1 h.2) (lt_irrefl _),
          fun h => absurd (lt_trans h.1 h.2) (lt_irrefl _)⟩
    · by_cases hlt : v < k
      · by_cases hrn : r = null
        · subst hrn
          have hf : findElementOrAncestor (Node.mk v s l null) k ps =
              ⟨Node.mk v s l null, ps⟩ := by
            simp [findElementOrAncestor, hvk, hlt, Node.isNull]
          refine ⟨v, s, l, null, [], by rw [hf], rfl, by rw [hf]; simp, by rw [hf],
            by simp [keys], ?_, Or.inr (Or.inl ⟨hlt, rfl⟩), ?_⟩
          · intro hk
            simp only [keys, List.mem_append, List.mem_cons, List.not_mem_nil, or_false] at hk
            rcases hk with hk | hk
            · exact absurd (lt_trans (hlv k hk) hlt) (lt_irrefl _)
            · exact hk.symm
          · intro x hx
            simp only [keys, List.mem_append, List.mem_cons, List.not_mem_nil, or_false] at hx
            have hxv : x ≤ v := by
              rcases hx with hx | hx
              · exact le_of_lt (hlv x hx)
              · exact le_of_eq hx
            exact ⟨fun h => absurd h.1 (not_lt.mpr hxv),
              fun h => absurd (lt_trans h.1 h.2) (not_lt.mpr (le_of_lt hlt))⟩
        · have hnn : r.isNull = false := (isNull_eq_false_iff r).mpr hrn
          have hf : findElementOrAncestor (Node.mk v s l r) k ps =
              findElementOrAncestor r k (Frame.right v s l :: ps) := by
            simp [findElementOrAncestor, hvk, hlt, hnn]
          obtain ⟨v2, s2, l2, r2, path, e1, e2, e3, e4, e5, e6, e7, e8⟩ :=
            ihr (Frame.right v s l :: ps) hrn br
          refine ⟨v2, s2, l2, r2, Dir.right :: path, by rw [hf]; exact e1, e2, ?_, ?_,
            by simp [keys, e5], ?_, e7, ?_⟩
          · rw [hf, e3, dirsOf_cons]; simp [Frame.dir]
          · rw [hf, e4]; rfl
          · intro hk
            simp only [keys, List.mem_append, List.mem_cons] at hk
            rcases hk with hk | hk | hk
            · exact absurd (lt_trans (hlv k hk) hlt) (lt_irrefl _)
            · exact absurd hk.symm hvk
            · exact e6 hk
          · intro x hx
            simp only [keys, List.mem_append, List.mem_cons] at hx
            have hv2 : v < v2 := hrv v2 e5
            rcases hx with hx | hx | hx
            · have hxv : x < v := hlv x hx
              exact ⟨fun h => absurd (lt_trans (lt_trans hxv hv2) h.1) (lt_irrefl _),
                fun h => absurd (lt_trans (lt_trans hxv hlt) h.1) (lt_irrefl _)⟩
            · subst hx
              exact ⟨fun h => absurd (lt_trans hv2 h.1) (lt_irrefl _),
                fun h => absurd (lt_trans hlt h.1) (lt_irrefl _)⟩
            · exact e8 x hx
      · have hgt : k < v := lt_of_le_of_ne (not_lt.mp hlt) (fun h => hvk h.symm)
        by_cases hln : l = null
        · subst hln
          have hf : findElementOrAncestor (Node.mk v s null r) k ps =
              ⟨Node.mk v s null r, ps⟩ := by
            simp [findElementOrAncestor, hvk, hlt, Node.isNull]
          refine ⟨v, s, null, r, [], by rw [hf], rfl, by rw [hf]; simp, by rw [hf],
            by simp [keys], ?_, Or.inr (Or.inr ⟨hgt, rfl⟩), ?_⟩
          · intro hk
            simp only [keys, List.nil_append, List.mem_cons] at hk
            rcases hk with hk | hk
            · exact hk.symm
            · exact absurd (lt_trans hgt (hrv k hk)) (lt_irrefl _)
          · intro x hx
            simp only [keys, List.nil_append, List.mem_cons] at hx
            have hxv : v ≤ x := by
              rcases hx with hx | hx
              · exact le_of_eq hx.symm
              · exact le_of_lt (hrv x hx)
            exact ⟨fun h => absurd (lt_trans h.1 h.2) (not_lt.mpr (le_of_lt hgt)),
              fun h => absurd h.2 (not_lt.mpr hxv)⟩
        · have hnn : l.isNull = false := (isNull_eq_false_iff l).mpr hln
          have hf : findElementOrAncestor (Node.mk v s l r) k ps =
              findElementOrAncestor l k (Frame.left v s r :: ps) := by
            simp [findElementOrAncestor, hvk, hlt, hnn]
          obtain ⟨v2, s2, l2, r2, path, e1, e2, e3, e4, e5, e6, e7, e8⟩ :=
            ihl (Frame.left v s r :: ps) hln bl
          refine ⟨v2, s2, l2, r2, Dir.left :: path, by rw [hf]; exact e1, e2, ?_, ?_,
            by simp [keys, e5], ?_, e7, ?_⟩
          · rw [hf, e3, dirsOf_cons]; simp [Frame.dir]
          · rw [hf, e4]; rfl
          · intro hk
            simp only [keys, List.mem_append, List.mem_cons] at hk
            rcases hk with hk | hk | hk
            · exact e6 hk
            · exact absurd hk.symm hvk
            · exact absurd (lt_trans hgt (hrv k hk)) (lt_irrefl _)
          · intro x hx
            simp only [keys, List.mem_append, List.mem_cons] at hx
            have hv2 : v2 < v := hlv v2 e5
            rcases hx with hx | hx | hx
            · exact e8 x hx
            · subst hx
              exact ⟨fun h => absurd (lt_trans h.2 hgt) (lt_irrefl _),
                fun h => absurd (lt_trans h.2 hv2) (lt_irrefl _)⟩
            · have hxv : v < x := hrv x hx
              exact ⟨fun h => absurd (lt_trans (lt_trans h.2 hgt) hxv) (lt_irrefl _),
                fun h => absurd (lt_trans (lt_trans h.2 hv2) hxv) (lt_irrefl _)⟩

/-- C17 (lookup result): on a non-empty binary search tree `findElementOrAncestor(root, k)`
(a total function) returns a node of the tree, at the position its parent chain spells out.
That node holds `k` whenever `k` is stored. Otherwise it is an anchor: its key is below `k`
and it has no right child, or its key is above `k` and it has no left child; and no stored
key lies strictly between the anchor key and `k`. -/
theorem findElementOrAncestor_result (n : Node) (hn : n ≠ Node.null) (hb : n.IsBST) (k : Int) :
    ∃ v s l r,
      (findElementOrAncestor n k []).node = Node.mk v s l r ∧
      childAt (dirsOf (findElementOrAncestor n k []).parents) n = Node.mk v s l r ∧
      (findElementOrAncestor n k []).root = n ∧
      v ∈ n.keys ∧
      (k ∈ n.keys → v = k) ∧
      (k ∉ n.keys → (v < k ∧ r = Node.null) ∨ (k < v ∧ l = Node.null)) ∧
      (∀ x ∈ n.keys, ¬ (v < x ∧ x < k) ∧ ¬ (k < x ∧ x < v)) := by
  obtain ⟨v, s, l, r, path, e1, e2, e3, e4, e5, e6, e7, e8⟩ := find_bst k n [] hn hb
  refine ⟨v, s, l, r, e1, ?_, e4, e5, e6, ?_, e8⟩
  · rw [e3]
    simpa [dirsOf] using e2
  · intro hk
    rcases e7 with h | h | h
    · exact absurd (h ▸ e5) hk
    · exact Or.inl h
    · exact Or.inr h

theorem findElementOrAncestor_result_witness :
    (Node.mk 10 3 (Node.mk 5 1 Node.null Node.null) (Node.mk 15 1 Node.null Node.null)) ≠
      Node.null ∧
    (Node.mk 10 3 (Node.mk 5 1 Node.null Node.null) (Node.mk 15 1 Node.null Node.null)).IsBST ∧
    (findElementOrAncestor
      (Node.mk 10 3 (Node.mk 5 1 Node.null Node.null) (Node.mk 15 1 Node.null Node.null))
      12 []).node = Node.mk 15 1 Node.null Node.null ∧
    (∃ v s l r,
      (findElementOrAncestor
        (Node.mk 10 3 (Node.mk 5 1 Node.null Node.null) (Node.mk 15 1 Node.null Node.null))
        12 []).node = Node.mk v s l r ∧
      ((v < 12 ∧ r = Node.null) ∨ (12 < v ∧ l = Node.null)) ∧
      (∀ x ∈ [5, 10, 15], ¬ (v < x ∧ x < 12) ∧ ¬ (12 < x ∧ x < v))) := by
  have hb : (Node.mk 10 3 (Node.mk 5 1 Node.null Node.null)
      (Node.mk 15 1 Node.null Node.null)).IsBST := by
    unfold IsBST; decide
  obtain ⟨v, s, l, r, e1, _, _, _, _, e6, e7⟩ := findElementOrAncestor_result
    (Node.mk 10 3 (Node.mk 5 1 Node.null Node.null) (Node.mk 15 1 Node.null Node.null))
    (by decide) hb 12
  exact ⟨by decide, hb, by decide, v, s, l, r, e1, e6 (by decide), e7⟩

end ScapegoatTree

/-! ## The successor step of a removal -/

namespace ScapegoatTree

open Node

theorem childAt_append (p q : List Dir) (t : Node) :
    childAt (p ++ q) t = childAt q (childAt p t) := by
  induction p generalizing t with
  | nil => rfl
  | cons d p ih =>
    cases t with
    | null => rw [List.cons_append, childAt_null, childAt_null, childAt_null]
    | mk v s l r =>
      cases d
      · exact ih l
      · exact ih r

theorem unlinkLeftmost_struct (r : Node) (hne : r ≠ null) :
    ∃ m ms rr, leftmost r = Node.mk m ms null rr ∧ (unlinkLeftmost r).1 = m ∧
      childAt (List.replicate (leftDepth r) Dir.left) r = Node.mk m ms null rr ∧
      childAt (List.replicate (leftDepth r) Dir.left) (unlinkLeftmost r).2 = rr := by
  induction r with
  | null => exact absurd rfl hne
  | mk v s l r2 ihl _ =>
    by_cases hln : l = null
    · subst hln
      refine ⟨v, s, r2, by simp [leftmost, Node.isNull], ?_, by simp [leftDepth, Node.isNull, childAt],
        ?_⟩
      · cases r2 <;> simp [unlinkLeftmost, Node.isNull]
      · cases r2 <;> simp [unlinkLeftmost, leftDepth, Node.isNull, childAt]
    · have hnn : l.isNull = false := (isNull_eq_false_iff l).mpr hln
      obtain ⟨m, ms, rr, i1, i2, i3, i4⟩ := ihl hln
      refine ⟨m, ms, rr, by simp [leftmost, hnn, i1], by simp [unlinkLeftmost, hnn, i2], ?_, ?_⟩
      · have hd : leftDepth (Node.mk v s l r2) = leftDepth l + 1 := by
          simp [leftDepth, hnn]; omega
        rw [hd, List.replicate_succ]
        exact i3
      · have hd : leftDepth (Node.mk v s l r2) = leftDepth l + 1 := by
          simp [leftDepth, hnn]; omega
        rw [hd, List.replicate_succ]
        simp only [unlinkLeftmost, hnn]
        exact i4

theorem updateSizeLoop_childAt (gt : Nat → Nat → Double → Bool) (alpha : Double)
    (ps : List Frame) (cur : Node) (unb : Option (List Dir)) (hcur : cur.size ≠ 0) :
    childAt (dirsOf ps) (updateSizeLoop gt alpha cur ps unb).1 = cur := by
  induction ps generalizing cur unb with
  | nil => rfl
  | cons f ps ih =>
    rw [dirsOf_cons, childAt_append]
    simp only [updateSizeLoop]
    have hp : prune cur = cur := by simp [prune, hcur]
    cases f with
    | left v s r =>
      rw [ih _ _ (by rw [Frame.fill, recomputeSize_mk]; simp [Node.size])]
      rw [Frame.fill, recomputeSize_mk, hp]
      rfl
    | right v s l =>
      rw [ih _ _ (by rw [Frame.fill, recomputeSize_mk]; simp [Node.size])]
      rw [Frame.fill, recomputeSize_mk, hp]
      rfl

/-- C18 (two-children removal takes the in-order successor): on a reachable tree, when the
lookup of `k` ends at a node that holds `k` and has two children, `removeImpl` puts into
that node the key `m` of the leftmost node of its right subtree, which is the smallest key
there, keeps its left subtree and its stored size, and leaves as right subtree one that lists
the former keys without `m`, in which the right child of the leftmost node (or nothing) is at
the position the leftmost node had. That node, one smaller in stored size, is what the tree
holds at the position of the target after the upward pass and before any rebuild. -/
theorem remove_two_children (gt : Nat → Nat → Double → Bool) (t : ScapegoatTree)
    (hr : Reachable gt t) (k : Int) (s : Nat) (l r : Node) (ps : List Frame)
    (hne : t.empty = false)
    (hfind : findElementOrAncestor t.m_root k [] = ⟨Node.mk k s l r, ps⟩)
    (hl : l ≠ Node.null) (hrn : r ≠ Node.null) :
    ∃ m ms rr r2,
      leftmost r = Node.mk m ms Node.null rr ∧
      removeImpl (Node.mk k s l r) = Node.mk m s l r2 ∧
      r.values = m :: r2.values ∧ (∀ x ∈ r2.values, m < x) ∧ m ∈ r.keys ∧
      r2.keys = r2.values ∧ r.keys = r.values ∧
      childAt (List.replicate (leftDepth r) Dir.left) r = Node.mk m ms Node.null rr ∧
      childAt (List.replicate (leftDepth r) Dir.left) r2 = rr ∧
      (remove gt t k).1 = true ∧
      (remove gt t k).2.m_root =
        updateSize gt t.m_alpha (NodePtr.mk (Node.mk m s l r2) ps) (-1) ∧
      childAt (dirsOf ps)
        (updateSizeLoop gt t.m_alpha (Node.mk m (s - 1) l r2) ps none).1 =
        Node.mk m (s - 1) l r2 := by
  have hsz := (empty_eq_false_iff t).mp hne
  have hInv : t.m_root.Inv := hr.inv_reach.resolve_left hsz
  have hnull : t.m_root ≠ null := by
    intro hnull; rw [hnull] at hsz; exact hsz rfl
  obtain ⟨v, s', l', r', ps', e1, e2, _, _, _, _, _⟩ :=
    find_spec k t.m_root [] hInv hnull trivial (by simp [ctxL]) (by simp [ctxR])
  rw [hfind] at e1
  cases e1
  obtain ⟨a1, a2, a3, _, _, _⟩ := Inv_mk e2
  obtain ⟨m, ms, rr, i1, i2, i3, i4⟩ := unlinkLeftmost_struct r hrn
  obtain ⟨u1, u2, u3⟩ := unlinkLeftmost_spec r a3.1 hrn
  rw [i2] at u1
  have hs1 : s ≠ 1 := by
    have h1 := a2.1.size_pos hl
    have h2 := a3.1.size_pos hrn
    omega
  have hln : l.isNull = false := (isNull_eq_false_iff l).mpr hl
  have hrnn : r.isNull = false := (isNull_eq_false_iff r).mpr hrn
  have hrem : removeImpl (Node.mk k s l r) = Node.mk m s l (unlinkLeftmost r).2 := by
    simp [removeImpl, hs1, hln, hrnn, i2]
  have hsorted := a3.2
  rw [u1, List.pairwise_cons] at hsorted
  refine ⟨m, ms, rr, (unlinkLeftmost r).2, i1, hrem, u1, hsorted.1, ?_, u2.keys_eq,
    a3.1.keys_eq, i3, i4, ?_, ?_, ?_⟩
  · rw [a3.1.keys_eq, u1]; simp
  · simp [remove, hne, hfind]
  · simp [remove, hne, hfind, hrem]
  · apply updateSizeLoop_childAt
    have h1 := a2.1.size_pos hl
    simp only [Node.size]
    omega

theorem remove_two_children_witness :
    Reachable gtOne (run gtOne newOne [Op.insert 10, Op.insert 5, Op.insert 20, Op.insert 15,
      Op.insert 25, Op.insert 12, Op.insert 13]) ∧
    removeImpl (Node.mk 10 7 (Node.mk 5 1 Node.null Node.null)
      (Node.mk 20 5 (Node.mk 15 3 (Node.mk 12 2 Node.null (Node.mk 13 1 Node.null Node.null))
        Node.null) (Node.mk 25 1 Node.null Node.null))) =
      Node.mk 12 7 (Node.mk 5 1 Node.null Node.null)
        (Node.mk 20 4 (Node.mk 15 2 (Node.mk 13 1 Node.null Node.null) Node.null)
          (Node.mk 25 1 Node.null Node.null)) ∧
    (∃ m ms rr r2,
      leftmost (Node.mk 20 5 (Node.mk 15 3 (Node.mk 12 2 Node.null
        (Node.mk 13 1 Node.null Node.null)) Node.null) (Node.mk 25 1 Node.null Node.null)) =
        Node.mk m ms Node.null rr ∧
      removeImpl (Node.mk 10 7 (Node.mk 5 1 Node.null Node.null)
        (Node.mk 20 5 (Node.mk 15 3 (Node.mk 12 2 Node.null (Node.mk 13 1 Node.null Node.null))
          Node.null) (Node.mk 25 1 Node.null Node.null))) =
        Node.mk m 7 (Node.mk 5 1 Node.null Node.null) r2) := by
  have hreach : Reachable gtOne (run gtOne newOne [Op.insert 10, Op.insert 5, Op.insert 20,
      Op.insert 15, Op.insert 25, Op.insert 12, Op.insert 13]) :=
    Reachable.of_run newlyConstructed_one _
  obtain ⟨m, ms, rr, r2, h1, h2, _⟩ := remove_two_children gtOne _ hreach 10 7
    (Node.mk 5 1 Node.null Node.null)
    (Node.mk 20 5 (Node.mk 15 3 (Node.mk 12 2 Node.null (Node.mk 13 1 Node.null Node.null))
      Node.null) (Node.mk 25 1 Node.null Node.null)) [] (by decide) rfl (by decide)
    (by decide)
  exact ⟨hreach, by decide, m, ms, rr, r2, h1, h2⟩

end ScapegoatTree

/-! ## What a caller observes does not depend on the weight comparison -/

namespace ScapegoatTree

open Node

theorem exec_spec (gt : Nat → Nat → Double → Bool) (t : ScapegoatTree) (c : Call)
    (h : t.TreeInv) :
    (exec gt t c).2.TreeInv ∧ (exec gt t c).1 = (modelExec t.values c).1 ∧
    (exec gt t c).2.values = (modelExec t.values c).2 := by
  cases c with
  | insert k =>
    obtain ⟨h1, _, h3, h4⟩ := insert_spec gt t k h
    simp only [exec, modelExec]
    by_cases hk : k ∈ t.values
    · rw [h3 hk, if_pos hk]
      exact ⟨h, by simp [hk], rfl⟩
    · rw [if_neg hk]
      exact ⟨h1, by rw [(h4 hk).1]; simp [hk], (h4 hk).2⟩
  | remove k =>
    obtain ⟨h1, _, h3, h4⟩ := remove_spec gt t k h
    simp only [exec, modelExec]
    by_cases hk : k ∈ t.values
    · exact ⟨h1, by rw [(h4 hk).1]; simp [hk], (h4 hk).2⟩
    · rw [h3 hk]
      exact ⟨h, by simp [hk], (List.erase_of_not_mem hk).symm⟩
  | contains k =>
    simp only [exec, modelExec]
    refine ⟨h, ?_, by first | rfl | trivial⟩
    have := contains_iff_mem t k h
    by_cases hk : k ∈ t.values
    · rw [this.mpr hk]; simp [hk]
    · cases hc : t.contains k with
      | false => simp [hk]
      | true => exact absurd (this.mp hc) hk

theorem observe_eq_model (gt : Nat → Nat → Double → Bool) (t : ScapegoatTree)
    (cs : List Call) (h : t.TreeInv) : observe gt t cs = modelObserve t.values cs := by
  induction cs generalizing t with
  | nil => rfl
  | cons c cs ih =>
    obtain ⟨h1, h2, h3⟩ := exec_spec gt t c h
    simp only [observe, modelObserve]
    rw [ih _ h1, h1.size_eq_length, h2, h3]

theorem recompute_not_unbalanced (gt : Nat → Nat → Double → Bool) (alpha : Double)
    (hgt : ∀ c n, gt c n alpha = true → n < c) (n : Node) :
    unbalancedDescendants gt alpha (recomputeSize n) = false := by
  cases n with
  | null => rfl
  | mk v s l r =>
    rw [recomputeSize_mk]
    have hl : gt (prune l).size (1 + l.size + r.size) alpha = false := by
      cases hg : gt (prune l).size (1 + l.size + r.size) alpha with
      | false => rfl
      | true => have := hgt _ _ hg; rw [prune_size] at this; omega
    have hr : gt (prune r).size (1 + l.size + r.size) alpha = false := by
      cases hg : gt (prune r).size (1 + l.size + r.size) alpha with
      | false => rfl
      | true => have := hgt _ _ hg; rw [prune_size] at this; omega
    simp [unbalancedDescendants, hl, hr]

theorem updateSizeLoop_never (gt : Nat → Nat → Double → Bool) (alpha : Double)
    (hgt : ∀ c n, gt c n alpha = true → n < c) (ps : List Frame) (cur : Node) :
    (updateSizeLoop gt alpha cur ps none).2 = none := by
  induction ps generalizing cur with
  | nil => rfl
  | cons f ps ih =>
    simp only [updateSizeLoop]
    rw [recompute_not_unbalanced gt alpha hgt]
    exact ih _

theorem updateSize_never (gt : Nat → Nat → Double → Bool) (alpha : Double)
    (hgt : ∀ c n, gt c n alpha = true → n < c) (p : NodePtr) (delta : Int) :
    updateSize gt alpha p delta =
      (updateSizeLoop gt alpha (bumpSize delta p.node) p.parents none).1 := by
  unfold updateSize
  simp only
  rw [updateSizeLoop_never gt alpha hgt]

theorem bstInsert_size_ne (k : Int) (n : Node) : (bstInsert k n).size ≠ 0 ∨ n.size = 0 := by
  cases n with
  | null => left; simp [bstInsert, Node.new, Node.size]
  | mk v s l r =>
    by_cases hs : s = 0
    · right; simp [Node.size, hs]
    · left
      simp only [bstInsert]
      split
      · simpa [Node.size] using hs
      · split <;> simp [Node.size]

theorem bstInsert_sizeOK (k : Int) (n : Node) (h : n.SizeOK) : (bstInsert k n).SizeOK := by
  induction n with
  | null => exact (new_Inv k).1
  | mk v s l r ihl ihr =>
    obtain ⟨h1, h2, h3⟩ := h
    simp only [bstInsert]
    split
    · exact ⟨h1, h2, h3⟩
    · split
      · exact ⟨rfl, h2, ihr h3⟩
      · exact ⟨rfl, ihl h2, h3⟩

theorem prune_of_sizeOK (n : Node) (h : n.SizeOK) : prune n = n := by
  unfold prune
  split
  · next hs => exact (h.eq_null hs).symm
  · rfl

theorem updateSizeLoop_fst (gt : Nat → Nat → Double → Bool) (alpha : Double)
    (ps : List Frame) (cur : Node) (u : Option (List Dir)) :
    (updateSizeLoop gt alpha cur ps u).1 = (updateSizeLoop gt alpha cur ps none).1 := by
  induction ps generalizing cur u with
  | nil => rfl
  | cons f ps ih =>
    simp only [updateSizeLoop]
    rw [ih, ih _ (if unbalancedDescendants gt alpha (recomputeSize (f.fill cur)) = true
      then some [] else Option.map (fun path => f.dir :: path) none)]

theorem updateSizeLoop_cons_fst (gt : Nat → Nat → Double → Bool) (alpha : Double)
    (f : Frame) (ps : List Frame) (cur : Node) :
    (updateSizeLoop gt alpha cur (f :: ps) none).1 =
      (updateSizeLoop gt alpha (recomputeSize (f.fill cur)) ps none).1 := by
  simp only [updateSizeLoop]
  rw [updateSizeLoop_fst]

theorem insert_loop_bst (gt : Nat → Nat → Double → Bool) (alpha : Double) (k : Int)
    (n : Node) (ps : List Frame) (hn : n ≠ null) (hs : n.SizeOK) :
    ∃ v s l r, (findElementOrAncestor n k ps).node = Node.mk v s l r ∧
      (v = k → bstInsert k n = n) ∧
      (v ≠ k →
        (updateSizeLoop gt alpha
          (bumpSize 1 (if v < k then createRightDescendant (Node.mk v s l r) k
            else createLeftDescendant (Node.mk v s l r) k))
          (findElementOrAncestor n k ps).parents none).1 =
        (updateSizeLoop gt alpha (bstInsert k n) ps none).1) := by
  induction n generalizing ps with
  | null => exact absurd rfl hn
  | mk v s l r ihl ihr =>
    obtain ⟨h1, h2, h3⟩ := hs
    by_cases hvk : v = k
    · refine ⟨v, s, l, r, by simp [findElementOrAncestor, hvk], fun _ => by simp [bstInsert, hvk],
        fun h => absurd hvk h⟩
    · by_cases hlt : v < k
      · by_cases hrn : r = null
        · subst hrn
          refine ⟨v, s, l, null, by simp [findElementOrAncestor, hvk, hlt, Node.isNull],
            fun h => absurd h hvk, fun _ => ?_⟩
          have hf : (findElementOrAncestor (Node.mk v s l null) k ps).parents = ps := by
            simp [findElementOrAncestor, hvk, hlt, Node.isNull]
          rw [hf, if_pos hlt]
          congr 2
          simp only [createRightDescendant, bumpSize, bstInsert, if_neg hvk, if_pos hlt,
            addDelta_succ]
          simp only [Node.size, Node.new] at h1 ⊢
          rw [h1]
        · have hnn : r.isNull = false := (isNull_eq_false_iff r).mpr hrn
          have hf : findElementOrAncestor (Node.mk v s l r) k ps =
              findElementOrAncestor r k (Frame.right v s l :: ps) := by
            simp [findElementOrAncestor, hvk, hlt, hnn]
          obtain ⟨v2, s2, l2, r2, e1, e2, e3⟩ := ihr (Frame.right v s l :: ps) hrn h3
          rw [hf]
          refine ⟨v2, s2, l2, r2, e1, ?_, ?_⟩
          · intro h
            simp only [bstInsert, if_neg hvk, if_pos hlt]
            rw [e2 h, ← h1]
          · intro h
            have hb : bstInsert k (Node.mk v s l r) =
                recomputeSize (Node.mk v s l (bstInsert k r)) := by
              simp only [bstInsert, if_neg hvk, if_pos hlt]
              rw [recomputeSize_mk, prune_of_sizeOK l h2,
                prune_of_sizeOK _ (bstInsert_sizeOK k r h3)]
            rw [e3 h, updateSizeLoop_cons_fst, hb]
            rfl
      · have hgt : k < v := lt_of_le_of_ne (not_lt.mp hlt) (fun h => hvk h.symm)
        by_cases hln : l = null
        · subst hln
          refine ⟨v, s, null, r, by simp [findElementOrAncestor, hvk, hlt, Node.isNull],
            fun h => absurd h hvk, fun _ => ?_⟩
          have hf : (findElementOrAncestor (Node.mk v s null r) k ps).parents = ps := by
            simp [findElementOrAncestor, hvk, hlt, Node.isNull]
          rw [hf, if_neg hlt]
          congr 2
          simp only [createLeftDescendant, bumpSize, bstInsert, if_neg hvk, if_neg hlt,
            addDelta_succ]
          simp only [Node.size, Node.new] at h1 ⊢
          rw [h1]
          congr 1
          omega
        · have hnn : l.isNull = false := (isNull_eq_false_iff l).mpr hln
          have hf : findElementOrAncestor (Node.mk v s l r) k ps =
              findElementOrAncestor l k (Frame.left v s r :: ps) := by
            simp [findElementOrAncestor, hvk, hlt, hnn]
          obtain ⟨v2, s2, l2, r2, e1, e2, e3⟩ := ihl (Frame.left v s r :: ps) hln h2
          rw [hf]
          refine ⟨v2, s2, l2, r2, e1, ?_, ?_⟩
          · intro h
            simp only [bstInsert, if_neg hvk, if_neg hlt]
            rw [e2 h, ← h1]
          · intro h
            have hb : bstInsert k (Node.mk v s l r) =
                recomputeSize (Node.mk v s (bstInsert k l) r) := by
              simp only [bstInsert, if_neg hvk, if_neg hlt]
              rw [recomputeSize_mk, prune_of_sizeOK r h3,
                prune_of_sizeOK _ (bstInsert_sizeOK k l h2)]
            rw [e3 h, updateSizeLoop_cons_fst, hb]
            rfl

end ScapegoatTree

namespace ScapegoatTree

open Node

theorem insert_one_is_bst (gt : Nat → Nat → Double → Bool)
    (hgt : ∀ (alpha : Double) (c n : Nat), gt c n alpha = true → n < c)
    (t : ScapegoatTree) (hs : t.m_root.SizeOK) (k : Int) :
    (insert gt t k).2.m_root = bstInsert k t.m_root := by
  by_cases he : t.empty = true
  · rw [insert_of_empty gt t k he]
    have : t.m_root = null := hs.eq_null ((empty_iff t).mp he)
    rw [this]
    rfl
  · have he2 : t.empty = false := by simpa using he
    have hsz := (empty_eq_false_iff t).mp he2
    have hne : t.m_root ≠ null := by
      intro hnull; rw [hnull] at hsz; exact hsz rfl
    obtain ⟨v, s, l, r, e1, e2, e3⟩ := insert_loop_bst gt t.m_alpha k t.m_root [] hne hs
    by_cases hvk : v = k
    · have : insert gt t k = (false, t) := by
        simp [insert, he2, e1, hvk]
      rw [this]
      exact (e2 hvk).symm
    · have hins : (insert gt t k).2.m_root = updateSize gt t.m_alpha
          (NodePtr.mk (if v < k then createRightDescendant (Node.mk v s l r) k
            else createLeftDescendant (Node.mk v s l r) k)
            (findElementOrAncestor t.m_root k []).parents) 1 := by
        simp [insert, he2, e1, hvk]
      rw [hins, updateSize_never gt t.m_alpha (hgt t.m_alpha), e3 hvk]
      rfl

theorem gtOne_lt (alpha : Double) (c n : Nat) (h : gtOne c n alpha = true) : n < c := by
  simpa [gtOne] using h

/-- C20 (alpha changes the shape only): whatever the two weight comparisons compute, the
same sequence of `insert`, `remove` and `contains` calls on two newly constructed trees
gives the same return value for every call and the same `values()` and `size()` after every
call. Both agree with the run for `alpha = 1.0`; there no call ever rebuilds, and `insert`
is the plain binary-search-tree insertion. -/
theorem alpha_changes_shape_only (gt1 gt2 : Nat → Nat → Double → Bool)
    (t1 t2 : ScapegoatTree) (h1 : NewlyConstructed t1) (h2 : NewlyConstructed t2)
    (calls : List Call) :
    observe gt1 t1 calls = observe gt2 t2 calls ∧
    observe gt1 t1 calls = modelObserve [] calls ∧
    observe gt1 t1 calls = observe gtOne newOne calls ∧
    (∀ (alpha : Double) (cur : Node) (ps : List Frame),
      (updateSizeLoop gtOne alpha cur ps none).2 = none) ∧
    (∀ (alpha : Double) (p : NodePtr) (delta : Int),
      updateSize gtOne alpha p delta =
        (updateSizeLoop gtOne alpha (bumpSize delta p.node) p.parents none).1) ∧
    (∀ (t : ScapegoatTree) (k : Int), t.m_root.SizeOK →
      (insert gtOne t k).2.m_root = bstInsert k t.m_root) := by
  have e1 := observe_eq_model gt1 t1 calls h1.inv_new
  have e2 := observe_eq_model gt2 t2 calls h2.inv_new
  have e3 := observe_eq_model gtOne newOne calls newlyConstructed_one.inv_new
  rw [h1.values] at e1
  rw [h2.values] at e2
  rw [newlyConstructed_one.values] at e3
  refine ⟨by rw [e1, e2], e1, by rw [e1, e3], ?_, ?_, ?_⟩
  · intro alpha cur ps
    exact updateSizeLoop_never gtOne alpha (gtOne_lt alpha) ps cur
  · intro alpha p delta
    exact updateSize_never gtOne alpha (gtOne_lt alpha) p delta
  · intro t k hs
    exact insert_one_is_bst gtOne gtOne_lt t hs k

theorem alpha_changes_shape_only_witness :
    NewlyConstructed newHalf ∧ NewlyConstructed newOne ∧
    (run gtHalf newHalf [Op.insert 1, Op.insert 2, Op.insert 3]).m_root =
      Node.mk 2 3 (Node.mk 1 1 Node.null Node.null) (Node.mk 3 1 Node.null Node.null) ∧
    (run gtOne newOne [Op.insert 1, Op.insert 2, Op.insert 3]).m_root =
      Node.mk 1 3 Node.null (Node.mk 2 2 Node.null (Node.mk 3 1 Node.null Node.null)) ∧
    observe gtHalf newHalf [Call.insert 1, Call.insert 2, Call.insert 3, Call.contains 2,
      Call.remove 1, Call.insert 3, Call.contains 1] =
      observe gtOne newOne [Call.insert 1, Call.insert 2, Call.insert 3, Call.contains 2,
        Call.remove 1, Call.insert 3, Call.contains 1] ∧
    observe gtHalf newHalf [Call.insert 1, Call.insert 2, Call.insert 3, Call.contains 2,
      Call.remove 1, Call.insert 3, Call.contains 1] =
      [(true, [1], 1), (true, [1, 2], 2), (true, [1, 2, 3], 3), (true, [1, 2, 3], 3),
        (true, [2, 3], 2), (false, [2, 3], 2), (false, [2, 3], 2)] :=
  ⟨newlyConstructed_half, newlyConstructed_one, by decide, by decide,
    (alpha_changes_shape_only gtHalf gtOne newHalf newOne newlyConstructed_half
      newlyConstructed_one [Call.insert 1, Call.insert 2, Call.insert 3, Call.contains 2,
        Call.remove 1, Call.insert 3, Call.contains 1]).1,
    by decide⟩

end ScapegoatTree

/-! ## Weight balance -/

namespace ScapegoatTree

open Node

theorem gtHalf_valid (alpha : Double) : GtValid gtHalf alpha :=
  ⟨fun c n h => by simpa [gtHalf] using h,
    fun c n m hnm h => by
      have : m < 2 * c := by simpa [gtHalf] using h
      simp only [gtHalf, decide_eq_true_eq]
      omega⟩

theorem unbalanced_congr (gt : Nat → Nat → Double → Bool) (alpha : Double) (v v2 : Int)
    (s : Nat) (l r l2 r2 : Node) (h1 : l2.isNull = l.isNull) (h2 : l2.size = l.size)
    (h3 : r2.isNull = r.isNull) (h4 : r2.size = r.size) :
    unbalancedDescendants gt alpha (Node.mk v2 s l2 r2) =
      unbalancedDescendants gt alpha (Node.mk v s l r) := by
  simp [unbalancedDescendants, h1, h2, h3, h4]

theorem balancedDown_null (gt : Nat → Nat → Double → Bool) (alpha : Double) (p : List Dir) :
    BalancedDown gt alpha p null := by
  cases p with
  | nil => trivial
  | cons d p => cases d <;> trivial

theorem balancedExcept_null (gt : Nat → Nat → Double → Bool) (alpha : Double) (p : List Dir) :
    BalancedExcept gt alpha p null := by
  cases p with
  | nil => trivial
  | cons d p => cases d <;> trivial

theorem balancedDown_of_all (gt : Nat → Nat → Double → Bool) (alpha : Double) (p : List Dir)
    (t : Node) (h : AllBalanced gt alpha t) : BalancedDown gt alpha p t := by
  induction p generalizing t with
  | nil => trivial
  | cons d p ih =>
    cases t with
    | null => exact balancedDown_null gt alpha _
    | mk v s l r =>
      cases d
      · exact ⟨h.1, ih l h.2.1⟩
      · exact ⟨h.1, ih r h.2.2⟩

theorem balancedExcept_of_all (gt : Nat → Nat → Double → Bool) (alpha : Double) (p : List Dir)
    (t : Node) (h : AllBalanced gt alpha t) : BalancedExcept gt alpha p t := by
  induction p generalizing t with
  | nil => trivial
  | cons d p ih =>
    cases t with
    | null => exact balancedExcept_null gt alpha _
    | mk v s l r =>
      cases d
      · exact ⟨h.1, ih l h.2.1, h.2.2⟩
      · exact ⟨h.1, h.2.1, ih r h.2.2⟩

theorem prune_isNull_size (n : Node) :
    (prune n).size = n.size ∧ ((prune n).isNull = false → prune n = n) := by
  refine ⟨prune_size n, ?_⟩
  unfold prune
  split
  · intro h; cases h
  · intro _; rfl

theorem balancedDown_prune (gt : Nat → Nat → Double → Bool) (alpha : Double) (p : List Dir)
    (n : Node) (h : BalancedDown gt alpha p n) : BalancedDown gt alpha p (prune n) := by
  unfold prune
  split
  · exact balancedDown_null gt alpha p
  · exact h

theorem modifyAt_isNull (f : Node → Node) (hf : ∀ n, (f n).isNull = n.isNull)
    (path : List Dir) (n : Node) : (modifyAt f path n).isNull = n.isNull := by
  cases path with
  | nil => exact hf n
  | cons d path =>
    cases n with
    | null => cases d <;> rfl
    | mk v s l r => cases d <;> rfl

theorem buildBalanced_isNull (n : Node) : (buildBalanced n).isNull = n.isNull := by
  cases n with
  | null => rw [buildBalanced_null]
  | mk v s l r =>
    rw [buildBalanced_eq]
    cases buildRecursive (Node.mk v s l r).values 0 (((Node.mk v s l r).values.length : Int) - 1)
      <;> rfl

theorem modifyAt_balancedDown (gt : Nat → Nat → Double → Bool) (alpha : Double)
    (f : Node → Node) (hf1 : ∀ n, (f n).isNull = n.isNull) (hf2 : ∀ n, (f n).size = n.size)
    (p : List Dir) (t : Node) (h : BalancedDown gt alpha p t) :
    BalancedDown gt alpha p (modifyAt f p t) := by
  induction p generalizing t with
  | nil => trivial
  | cons d p ih =>
    cases t with
    | null => cases d <;> trivial
    | mk v s l r =>
      cases d
      · refine ⟨?_, ih l h.2⟩
        rw [unbalanced_congr gt alpha v v s l r (modifyAt f p l) r (modifyAt_isNull f hf1 p l)
          (modifyAt_size f hf2 p l) rfl rfl]
        exact h.1
      · refine ⟨?_, ih r h.2⟩
        rw [unbalanced_congr gt alpha v v s l r l (modifyAt f p r) rfl rfl
          (modifyAt_isNull f hf1 p r) (modifyAt_size f hf2 p r)]
        exact h.1

theorem buildBalanced_allBalanced (gt : Nat → Nat → Double → Bool) (alpha : Double)
    (hv : GtValid gt alpha) (n : Node) (h : n.SizeOK) : AllBalanced gt alpha (buildBalanced n) := by
  cases n with
  | null => rw [buildBalanced_null]; trivial
  | mk v s l r =>
    have hsz := h.node_size_eq
    have hpos := h.size_pos (by simp)
    simp only [Node.size] at hsz hpos
    have hlen : 1 ≤ (Node.mk v s l r).values.length := by omega
    obtain ⟨v2, l2, r2, hT, hok, _⟩ := buildRecursive_full (Node.mk v s l r).values (by omega)
    have hb := buildRecursive_sizeBalanced (Node.mk v s l r).values
      (Node.mk v s l r).values.length 0 (Node.mk v s l r).values.length (by omega)
      (Nat.zero_le _) (le_refl _)
    simp only [Nat.cast_zero] at hb
    rw [hT] at hb
    have heq : buildBalanced (Node.mk v s l r) =
        Node.mk v2 (Node.mk v s l r).values.length l2 r2 := by
      rw [buildBalanced_eq, hT]
      simp only [deleteLeftDescendant, deleteRightDescendant, deleteIntermediate]
      exact congrArg (fun x => Node.mk v2 x l2 r2) hsz
    rw [heq]
    exact sizeBalanced_allBalanced gt alpha hv _ hok hb

theorem getD_step (unb : Option (List Dir)) (d0 : List Dir) (d : Dir) :
    (Option.map (fun path => d :: path) unb).getD (d :: d0) = d :: unb.getD d0 := by
  cases unb <;> rfl

theorem updateSizeLoop_balancedDown (gt : Nat → Nat → Double → Bool) (alpha : Double)
    (ps : List Frame) (cur : Node) (unb : Option (List Dir)) (d0 : List Dir)
    (hpre : unb.getD d0 <+: d0) (hbal : BalancedDown gt alpha (unb.getD d0) cur) :
    (updateSizeLoop gt alpha cur ps unb).2.getD (dirsOf ps ++ d0) <+: dirsOf ps ++ d0 ∧
    BalancedDown gt alpha ((updateSizeLoop gt alpha cur ps unb).2.getD (dirsOf ps ++ d0))
      (updateSizeLoop gt alpha cur ps unb).1 := by
  induction ps generalizing cur unb d0 with
  | nil => simpa [updateSizeLoop, dirsOf] using ⟨hpre, hbal⟩
  | cons f ps ih =>
    have hd : dirsOf (f :: ps) ++ d0 = dirsOf ps ++ (f.dir :: d0) := by
      rw [dirsOf_cons]; simp
    rw [hd]
    simp only [updateSizeLoop]
    apply ih
    · by_cases hu : unbalancedDescendants gt alpha (recomputeSize (f.fill cur)) = true
      · rw [if_pos hu]; exact List.nil_prefix
      · rw [if_neg hu, getD_step]
        exact (List.cons_prefix_cons).mpr ⟨rfl, hpre⟩
    · by_cases hu : unbalancedDescendants gt alpha (recomputeSize (f.fill cur)) = true
      · rw [if_pos hu]; trivial
      · rw [if_neg hu, getD_step]
        have hu2 : unbalancedDescendants gt alpha (recomputeSize (f.fill cur)) = false := by
          simpa using hu
        cases f with
        | left v s r =>
          rw [Frame.fill, recomputeSize_mk] at hu2 ⊢
          exact ⟨hu2, balancedDown_prune gt alpha _ cur hbal⟩
        | right v s l =>
          rw [Frame.fill, recomputeSize_mk] at hu2 ⊢
          exact ⟨hu2, balancedDown_prune gt alpha _ cur hbal⟩

theorem updateSizeLoop_nil_of_some (gt : Nat → Nat → Double → Bool) (alpha : Double)
    (ps : List Frame) (cur : Node) (p : List Dir)
    (h : (updateSizeLoop gt alpha cur ps none).2 = some p) : ps ≠ [] := by
  intro hps
  subst hps
  simp [updateSizeLoop] at h

theorem updateSize_balanced (gt : Nat → Nat → Double → Bool) (alpha : Double)
    (hv : GtValid gt alpha) (n : Node) (ps : List Frame) (delta : Int)
    (hps : FramesOK ps) (hn : (bumpSize delta n).Quasi) :
    ∃ path, path <+: dirsOf ps ∧
      BalancedDown gt alpha path (updateSize gt alpha ⟨n, ps⟩ delta) ∧
      (path = dirsOf ps ∨
        AllBalanced gt alpha (childAt path (updateSize gt alpha ⟨n, ps⟩ delta))) := by
  obtain ⟨b1, b2⟩ := updateSizeLoop_balancedDown gt alpha ps (bumpSize delta n) none []
    List.nil_prefix trivial
  obtain ⟨_, _, s3⟩ := updateSizeLoop_spec gt alpha ps (bumpSize delta n) none hps hn
  simp only [List.append_nil] at b1 b2
  unfold updateSize
  simp only
  cases hres : (updateSizeLoop gt alpha (bumpSize delta n) ps none).2 with
  | none =>
    rw [hres] at b1 b2
    exact ⟨dirsOf ps, List.prefix_refl _, b2, Or.inl rfl⟩
  | some p =>
    rw [hres] at b1 b2
    simp only [Option.getD_some] at b1 b2
    have hne := updateSizeLoop_nil_of_some gt alpha ps _ p hres
    have hok := s3 (Or.inr hne)
    refine ⟨p, b1, modifyAt_balancedDown gt alpha buildBalanced buildBalanced_isNull
      buildBalanced_size p _ b2, Or.inr ?_⟩
    rw [childAt_modifyAt buildBalanced buildBalanced_null]
    exact buildBalanced_allBalanced gt alpha hv _ (childAt_sizeOK p _ hok)

theorem insert_unfold (gt : Nat → Nat → Double → Bool) (t : ScapegoatTree) (k : Int)
    (h : t.TreeInv) (he : t.empty = false) (hk : k ∉ t.values) :
    ∃ v s l r ps, findElementOrAncestor t.m_root k [] = ⟨Node.mk v s l r, ps⟩ ∧
      (Node.mk v s l r).Inv ∧ FramesOK ps ∧
      ((v < k ∧ r = null) ∨ (k < v ∧ l = null)) ∧
      (insert gt t k).2.m_root = updateSize gt t.m_alpha
        (NodePtr.mk (if v < k then createRightDescendant (Node.mk v s l r) k
          else createLeftDescendant (Node.mk v s l r) k) ps) 1 := by
  have hsz := (empty_eq_false_iff t).mp he
  have hInv : t.m_root.Inv := h.resolve_left hsz
  have hne : t.m_root ≠ null := by
    intro hnull; rw [hnull] at hsz; exact hsz rfl
  obtain ⟨v, s, l, r, ps, e1, e2, e3, _, _, e6, e7⟩ :=
    find_spec k t.m_root [] hInv hne trivial (by simp [ctxL]) (by simp [ctxR])
  simp only [ctxL, ctxR, List.nil_append, List.append_nil] at e6
  have hvk : v ≠ k := by
    intro hvk
    apply hk
    rw [values_eq, ← e6, e2.1.values_node, hvk]
    simp
  refine ⟨v, s, l, r, ps, e1, e2, e3, ?_, ?_⟩
  · rcases e7 with h7 | h7 | h7
    · exact absurd h7 hvk
    · exact Or.inl h7
    · exact Or.inr h7
  · simp [insert, he, e1, hvk]

theorem remove_unfold (gt : Nat → Nat → Double → Bool) (t : ScapegoatTree) (k : Int)
    (h : t.TreeInv) (hk : k ∈ t.values) :
    ∃ s l r ps, t.empty = false ∧
      findElementOrAncestor t.m_root k [] = ⟨Node.mk k s l r, ps⟩ ∧
      (Node.mk k s l r).Inv ∧ FramesOK ps ∧
      (remove gt t k).2.m_root = updateSize gt t.m_alpha
        (NodePtr.mk (removeImpl (Node.mk k s l r)) ps) (-1) := by
  have he : t.empty = false := by
    cases hb : t.empty with
    | false => rfl
    | true => rw [values_of_empty t hb] at hk; cases hk
  have hsz := (empty_eq_false_iff t).mp he
  have hInv : t.m_root.Inv := h.resolve_left hsz
  have hne : t.m_root ≠ null := by
    intro hnull; rw [hnull] at hsz; exact hsz rfl
  obtain ⟨v, s, l, r, ps, e1, e2, e3, e4, e5, e6, e7⟩ :=
    find_spec k t.m_root [] hInv hne trivial (by simp [ctxL]) (by simp [ctxR])
  simp only [ctxL, ctxR, List.nil_append, List.append_nil] at e6
  obtain ⟨_, _, _, a4, a5, a6⟩ := Inv_mk e2
  have hvk : v = k := by
    rw [values_eq, ← e6, a6] at hk
    simp only [List.mem_append, List.mem_cons] at hk
    rcases e7 with h7 | ⟨hlt, hrn⟩ | ⟨hgt, hln⟩
    · exact h7
    · subst hrn
      rcases hk with (hk | hk | hk | hk) | hk
      · exact absurd (e4 k hk) (lt_irrefl _)
      · exact absurd (lt_trans (a4 k hk) hlt) (lt_irrefl _)
      · exact hk.symm
      · simp [values_null] at hk
      · exact absurd (e5 k hk) (lt_irrefl _)
    · subst hln
      rcases hk with (hk | hk | hk | hk) | hk
      · exact absurd (e4 k hk) (lt_irrefl _)
      · simp [values_null] at hk
      · exact hk.symm
      · exact absurd (lt_trans hgt (a5 k hk)) (lt_irrefl _)
      · exact absurd (e5 k hk) (lt_irrefl _)
  subst hvk
  exact ⟨s, l, r, ps, he, e1, e2, e3, by simp [remove, he, e1]⟩

end ScapegoatTree

/-! ## The machine comparison has the properties `GtValid` -/

namespace Double

end Double

namespace ScapegoatTree

end ScapegoatTree

namespace ScapegoatTree

open Node

theorem anchor_sizeOK (k v : Int) (s : Nat) (l r : Node) (h : (Node.mk v s l r).Inv)
    (hc : (v < k ∧ r = null) ∨ (k < v ∧ l = null)) :
    (bumpSize 1 (if v < k then createRightDescendant (Node.mk v s l r) k
      else createLeftDescendant (Node.mk v s l r) k)).SizeOK := by
  obtain ⟨a1, a2, a3, _, _, _⟩ := Inv_mk h
  rcases hc with ⟨hlt, hrn⟩ | ⟨hgt, hln⟩
  · subst hrn
    rw [if_pos hlt]
    simp only [createRightDescendant, bumpSize, addDelta_succ]
    refine ⟨?_, a2.1, (new_Inv k).1⟩
    simp only [Node.size, Node.new] at a1 ⊢
    omega
  · subst hln
    rw [if_neg (not_lt.mpr (le_of_lt hgt))]
    simp only [createLeftDescendant, bumpSize, addDelta_succ]
    refine ⟨?_, (new_Inv k).1, a3.1⟩
    simp only [Node.size, Node.new] at a1 ⊢
    omega

/-- C11, as the claim states it, fails: with `alpha = 0.5`, after the successful
`remove(2)` on the tree built by inserting 2, 1, 3, 0, the target node (the root, which now
holds 3) has stored size 3 and a left child of stored size 2, and `2 > 0.5 * 3`. -/
theorem remove_target_unbalanced :
    Reachable gtHalf (run gtHalf newHalf [Op.insert 2, Op.insert 1, Op.insert 3, Op.insert 0]) ∧
    (run gtHalf newHalf [Op.insert 2, Op.insert 1, Op.insert 3, Op.insert 0]).m_root =
      Node.mk 2 4 (Node.mk 1 2 (Node.mk 0 1 Node.null Node.null) Node.null)
        (Node.mk 3 1 Node.null Node.null) ∧
    (findElementOrAncestor (run gtHalf newHalf [Op.insert 2, Op.insert 1, Op.insert 3,
      Op.insert 0]).m_root 2 []).node =
      (run gtHalf newHalf [Op.insert 2, Op.insert 1, Op.insert 3, Op.insert 0]).m_root ∧
    (remove gtHalf (run gtHalf newHalf [Op.insert 2, Op.insert 1, Op.insert 3, Op.insert 0])
      2).1 = true ∧
    (remove gtHalf (run gtHalf newHalf [Op.insert 2, Op.insert 1, Op.insert 3, Op.insert 0])
      2).2.m_root =
      Node.mk 3 3 (Node.mk 1 2 (Node.mk 0 1 Node.null Node.null) Node.null) Node.null ∧
    unbalancedDescendants gtHalf Double.half
      (remove gtHalf (run gtHalf newHalf [Op.insert 2, Op.insert 1, Op.insert 3, Op.insert 0])
        2).2.m_root = true ∧
    ((2 : ℚ) > 1 / 2 * 3) :=
  ⟨Reachable.of_run newlyConstructed_half _, by decide, by decide, by decide, by decide,
    by decide, by norm_num⟩

/-- C11, amended: after a successful `insert` or `remove` on a reachable tree, for a machine
comparison with the properties `GtValid`, the nodes above the node the size update started
from (the anchor of the insertion, the target of the removal) pass the test of
`unbalancedDescendants`: either every node on the way from the root down to that node does,
that node excluded, or a rebuild took place at a node of this way, every node above the
rebuilt node does, and the rebuilt subtree passes the test at every node. Nothing is said of
the start node itself when no rebuild took place. -/
theorem balance_above_start (gt : Nat → Nat → Double → Bool) (t : ScapegoatTree)
    (hr : Reachable gt t) (hv : GtValid gt t.m_alpha) (k : Int) :
    (t.empty = true → AllBalanced gt t.m_alpha (insert gt t k).2.m_root) ∧
    (t.empty = false → k ∉ t.values →
      (insert gt t k).1 = true ∧
      ∃ path, path <+: dirsOf (findElementOrAncestor t.m_root k []).parents ∧
        BalancedDown gt t.m_alpha path (insert gt t k).2.m_root ∧
        (path = dirsOf (findElementOrAncestor t.m_root k []).parents ∨
          AllBalanced gt t.m_alpha (childAt path (insert gt t k).2.m_root))) ∧
    (k ∈ t.values →
      (remove gt t k).1 = true ∧
      ∃ path, path <+: dirsOf (findElementOrAncestor t.m_root k []).parents ∧
        BalancedDown gt t.m_alpha path (remove gt t k).2.m_root ∧
        (path = dirsOf (findElementOrAncestor t.m_root k []).parents ∨
          AllBalanced gt t.m_alpha (childAt path (remove gt t k).2.m_root))) := by
  refine ⟨?_, ?_, ?_⟩
  · intro he
    rw [insert_of_empty gt t k he]
    exact ⟨by simp [unbalancedDescendants, Node.isNull], trivial, trivial⟩
  · intro he hk
    obtain ⟨v, s, l, r, ps, e1, e2, e3, e4, e5⟩ := insert_unfold gt t k hr.inv_reach he hk
    refine ⟨((insert_spec gt t k hr.inv_reach).2.2.2 hk).1, ?_⟩
    rw [e1, e5]
    exact updateSize_balanced gt t.m_alpha hv _ ps 1 e3 (Or.inl (anchor_sizeOK k v s l r e2 e4))
  · intro hk
    obtain ⟨s, l, r, ps, _, e1, e2, e3, e5⟩ := remove_unfold gt t k hr.inv_reach hk
    refine ⟨((remove_spec gt t k hr.inv_reach).2.2.2 hk).1, ?_⟩
    rw [e1, e5]
    exact updateSize_balanced gt t.m_alpha hv _ ps (-1) e3 (removeImpl_spec k s l r e2).1

theorem balance_above_start_witness :
    Reachable gtHalf (run gtHalf newHalf [Op.insert 2, Op.insert 1, Op.insert 3, Op.insert 0]) ∧
    (0 : Int) ∈ (run gtHalf newHalf [Op.insert 2, Op.insert 1, Op.insert 3,
      Op.insert 0]).values ∧
    dirsOf (findElementOrAncestor (run gtHalf newHalf [Op.insert 2, Op.insert 1, Op.insert 3,
      Op.insert 0]).m_root 0 []).parents = [Dir.left, Dir.left] ∧
    (remove gtHalf (run gtHalf newHalf [Op.insert 2, Op.insert 1, Op.insert 3, Op.insert 0])
      0).2.m_root =
      Node.mk 2 3 (Node.mk 1 1 Node.null Node.null) (Node.mk 3 1 Node.null Node.null) ∧
    (∃ path, path <+: dirsOf (findElementOrAncestor (run gtHalf newHalf [Op.insert 2,
        Op.insert 1, Op.insert 3, Op.insert 0]).m_root 0 []).parents ∧
      BalancedDown gtHalf Double.half path
        (remove gtHalf (run gtHalf newHalf [Op.insert 2, Op.insert 1, Op.insert 3,
          Op.insert 0]) 0).2.m_root) := by
  have hreach : Reachable gtHalf (run gtHalf newHalf [Op.insert 2, Op.insert 1, Op.insert 3,
      Op.insert 0]) := Reachable.of_run newlyConstructed_half _
  obtain ⟨_, path, h1, h2, _⟩ := (balance_above_start gtHalf _ hreach
    (gtHalf_valid _) 0).2.2 (by decide)
  exact ⟨hreach, by decide, by decide, by decide, path, h1, h2⟩

end ScapegoatTree

namespace ScapegoatTree

open Node

theorem run_alpha (gt : Nat → Nat → Double → Bool) (t : ScapegoatTree) (ops : List Op)
    (h : t.TreeInv) : (run gt t ops).m_alpha = t.m_alpha := by
  induction ops generalizing t with
  | nil => rfl
  | cons op ops ih =>
    have hrun : run gt t (op :: ops) = run gt (step gt t op) ops := rfl
    rw [hrun, ih _ (step_spec gt t op h).1]
    cases op with
    | insert k => exact (insert_spec gt t k h).2.1
    | remove k => exact (remove_spec gt t k h).2.1

theorem range_keys_nodup (N : Nat) : ((List.range' 1 N).map (fun i : Nat => (i : Int))).Nodup := by
  exact List.Nodup.map (fun a b hab => by exact_mod_cast hab) (List.nodup_range' 1 N)

end ScapegoatTree
